import Mathlib

/-!
# libjson: the object container of `json.c`

A shallow embedding of the balanced-tree object container of `json.c`, of its dynamic
array and of the value operations they call, followed by theorems about them.

The C program works on a graph of heap objects connected by pointers (entries carry
`parent`, `lchild` and `rchild` links and are re-linked in place), so the embedding is a
state-passing one: a `memory` holds the live `jentry_t`, `jarray_t` and `json_t` objects by
address, and every C function becomes a function from memory to a result and a new memory.

Conventions.
* `malloc`, `calloc` and `strdup` always succeed; the `// malloc() fails` branches of the
  source are therefore not taken.  A new object gets the next unused address.
* Dereferencing `NULL`, a freed object, or a pointer that designates no object of the
  accessed type ends the call with a `fault`; no memory is returned in that case.
* `jvalue_t` objects are held by value: a `jvalue_t *` is modelled as `Option jvalue_t`
  (`none` is `NULL`), a `char *` key or string as a `String`.
* Loops and recursion that follow pointers take a step budget (`fuel`).
* `size_t` heights are natural numbers; reaching `2^64` would take `2^64` insertions.
  The size and capacity of an array are incremented and doubled modulo `2^64`.
* The buffer of an array is the list of its slots; a slot that was never written holds
  NULL, and an access to a slot the buffer does not have is a fault.
-/

namespace Libjson

/-! ## Data model (`json.h`, top of `json.c`) -/

/-- Ways in which a call leaves defined behaviour. -/
inductive fault where
  /-- A `NULL` pointer is dereferenced. -/
  | null
  /-- A pointer is dereferenced that designates no live object of the accessed type
  (a freed object, an integer converted to a pointer, an object of another type). -/
  | invalid
  /-- The step budget of the model is used up. -/
  | fuel
deriving DecidableEq, Repr

/-- The values of `errno` used by the library (`E0` is the initial value 0). -/
inductive errno_t where
  | E0
  | EINVAL
  | ENOENT
  | E2BIG
  | EOPNOTSUPP
deriving DecidableEq, Repr

/-- A pointer to a container object (`json_t *` or `jarray_t *`). -/
inductive ptr where
  /-- The null pointer. -/
  | NULL
  /-- A nonzero integer converted to a pointer, as `return true;` produces in a function
  that returns a pointer.  It designates no object. -/
  | int (n : Nat)
  /-- The address of an allocated object. -/
  | ref (a : Nat)
deriving DecidableEq, Repr

/-- The struct `jvalue_t`: the tag `type` together with the member of the union `jany_t`
selected by it.  Arrays and objects are held through pointers. -/
inductive jvalue_t where
  | J_BOOL (boolean : Bool)
  | J_NUM (number : ℚ)
  | J_STR (string : String)
  | J_ARR (array : ptr)
  | J_OBJ (object : ptr)
deriving DecidableEq, Repr

/-- The struct `jarray_t`; `values` is the content of the buffer `values` points to, one
item per slot, a slot that was never written being `none`. -/
structure jarray_t where
  size : Nat
  capacity : Nat
  values : List (Option jvalue_t)
deriving DecidableEq, Repr

/-- The struct `jentry_t`.  Entry pointers are `none` (NULL) or an address. -/
structure jentry_t where
  height : Nat
  key : String
  value : Option jvalue_t
  parent : Option Nat
  lchild : Option Nat
  rchild : Option Nat
deriving DecidableEq, Repr

/-- The struct `json_t`. -/
structure json_t where
  root : Option Nat
deriving DecidableEq, Repr

/-- The struct `jinfo_t`. -/
structure jinfo_t where
  change : Int
  target : Option Nat
deriving DecidableEq, Repr

/-- What the `jinfo_t *` returned by `json_seek` designates. -/
inductive jinfo_ptr where
  /-- A freshly allocated `jinfo_t` with this content. -/
  | info (i : jinfo_t)
  /-- The entry pointer handed back by `return root;`: a `jentry_t`, not a `jinfo_t`. -/
  | entry (root : Option Nat)
deriving DecidableEq, Repr

/-- What the `jvalue_t *` returned by `json_find` designates. -/
inductive jvalue_ptr where
  | NULL
  /-- A live `jvalue_t` with this content. -/
  | value (v : jvalue_t)
  /-- The `jentry_t` at this address (`info->target` is an entry pointer). -/
  | entry (a : Nat)
deriving DecidableEq, Repr

/-- The heap and `errno`.  Objects are addressed by their index; a freed object leaves
`none` at its address. -/
structure memory where
  entries : List (Option jentry_t)
  arrays : List (Option jarray_t)
  objects : List (Option json_t)
  errno : errno_t
deriving DecidableEq, Repr

/-- Outcome of running a C function: it returns `a` in memory `m`, or it faults. -/
inductive res (α : Type) where
  | ok (a : α) (m : memory)
  | undef (f : fault)
deriving DecidableEq, Repr

/-- A C computation. -/
def C (α : Type) : Type := memory → res α

instance : Monad C where
  pure a := fun m => res.ok a m
  bind x f := fun m =>
    match x m with
    | res.ok a m1 => f a m1
    | res.undef e => res.undef e

/-- Leave defined behaviour. -/
def crash {α : Type} (f : fault) : C α := fun _ => res.undef f

/-- The source's `error(err, ret)`: set `errno` and return `ret`. -/
def error {α : Type} (err : errno_t) (ret : α) : C α :=
  fun m => res.ok ret { m with errno := err }

/-! ### Access to heap objects -/

/-- Read `*p` for an entry pointer `p`. -/
def entry (p : Option Nat) : C jentry_t := fun m =>
  match p with
  | none => res.undef fault.null
  | some a =>
    match m.entries[a]? with
    | some (some e) => res.ok e m
    | _ => res.undef fault.invalid

/-- Assign to fields of `*p` for an entry pointer `p`. -/
def entry_set (p : Option Nat) (g : jentry_t → jentry_t) : C Unit := fun m =>
  match p with
  | none => res.undef fault.null
  | some a =>
    match m.entries[a]? with
    | some (some e) => res.ok () { m with entries := m.entries.set a (some (g e)) }
    | _ => res.undef fault.invalid

/-- The call `malloc(sizeof(jentry_t))`.  The fields are not initialised in C; the model
fills them with zero, the empty string and NULL until they are assigned. -/
def entry_malloc : C (Option Nat) := fun m =>
  res.ok (some m.entries.length)
    { m with entries := m.entries ++ [some ⟨0, "", none, none, none, none⟩] }

/-- The call `free(p)` for an entry pointer. -/
def entry_free (p : Option Nat) : C Unit := fun m =>
  match p with
  | none => res.ok () m
  | some a =>
    match m.entries[a]? with
    | some (some _) => res.ok () { m with entries := m.entries.set a none }
    | _ => res.undef fault.invalid

/-- Read `*p` for a `json_t *`. -/
def object (p : ptr) : C json_t := fun m =>
  match p with
  | ptr.NULL => res.undef fault.null
  | ptr.int _ => res.undef fault.invalid
  | ptr.ref a =>
    match m.objects[a]? with
    | some (some j) => res.ok j m
    | _ => res.undef fault.invalid

/-- Assign `p->root = r` for a `json_t *`. -/
def object_set (p : ptr) (r : Option Nat) : C Unit := fun m =>
  match p with
  | ptr.NULL => res.undef fault.null
  | ptr.int _ => res.undef fault.invalid
  | ptr.ref a =>
    match m.objects[a]? with
    | some (some _) => res.ok () { m with objects := m.objects.set a (some ⟨r⟩) }
    | _ => res.undef fault.invalid

/-- Allocate a `json_t`; its root is NULL (as after `calloc`) until assigned. -/
def object_malloc : C ptr := fun m =>
  res.ok (ptr.ref m.objects.length) { m with objects := m.objects ++ [some ⟨none⟩] }

/-- The call `free(p)` for a `json_t *`. -/
def object_free (p : ptr) : C Unit := fun m =>
  match p with
  | ptr.NULL => res.ok () m
  | ptr.int _ => res.undef fault.invalid
  | ptr.ref a =>
    match m.objects[a]? with
    | some (some _) => res.ok () { m with objects := m.objects.set a none }
    | _ => res.undef fault.invalid

/-- Read `*p` for a `jarray_t *`. -/
def array (p : ptr) : C jarray_t := fun m =>
  match p with
  | ptr.NULL => res.undef fault.null
  | ptr.int _ => res.undef fault.invalid
  | ptr.ref a =>
    match m.arrays[a]? with
    | some (some x) => res.ok x m
    | _ => res.undef fault.invalid

/-- Allocate a `jarray_t` together with its buffer and fill it in. -/
def array_malloc (x : jarray_t) : C ptr := fun m =>
  res.ok (ptr.ref m.arrays.length) { m with arrays := m.arrays ++ [some x] }

/-- The call `free(p)` for a `jarray_t *`. -/
def array_free (p : ptr) : C Unit := fun m =>
  match p with
  | ptr.NULL => res.ok () m
  | ptr.int _ => res.undef fault.invalid
  | ptr.ref a =>
    match m.arrays[a]? with
    | some (some _) => res.ok () { m with arrays := m.arrays.set a none }
    | _ => res.undef fault.invalid

/-- Run `f` on the items of a list from left to right (a counted `for` loop). -/
def for_each {α β : Type} (f : α → C β) : List α → C (List β)
  | [] => pure []
  | a :: l => do
    let b ← f a
    let bs ← for_each f l
    pure (b :: bs)

/-- The C library's `strcmp` on the code units of two strings: zero when they are equal,
otherwise the difference at the first position where they differ (the end of a string
counts as 0).  The program uses the sign of the result only. -/
def strcmp_aux : List Char → List Char → Int
  | [], [] => 0
  | [], c :: _ => - (c.toNat : Int)
  | c :: _, [] => (c.toNat : Int)
  | a :: s, b :: t => if a = b then strcmp_aux s t else (a.toNat : Int) - (b.toNat : Int)

/-- The C library's `strcmp`. -/
def strcmp (s1 s2 : String) : Int := strcmp_aux s1.toList s2.toList

/-! ## Release (`jentry_free`, `jarray_free`, `json_free`, `jvalue_free`) -/

/-- The function `jarray_free`.  Its loop hands `array->values + i * sizeof(jvalue_t)`, a
`jvalue_t **`, to `jvalue_free`, which reads a `jvalue_t` through it: the first iteration
already leaves defined behaviour, so the loop body runs for `0 < size` only to fault. -/
def jarray_free (arr : ptr) : C Unit :=
  match arr with
  | ptr.NULL => pure ()
  | arr => do
    let a ← array arr
    if 0 < a.size then crash fault.invalid
    array_free arr

mutual
/-- The function `jentry_free`. -/
def jentry_free : Nat → Option Nat → C Unit
  | 0, _ => crash fault.fuel
  | n + 1, root => do
    let r ← entry root
    if r.lchild ≠ none then jentry_free n r.lchild
    let r ← entry root
    if r.rchild ≠ none then jentry_free n r.rchild
    let r ← entry root
    jvalue_free n r.value
    entry_free root
/-- The function `json_free`. -/
def json_free : Nat → ptr → C Unit
  | 0, _ => crash fault.fuel
  | _ + 1, ptr.NULL => pure ()
  | n + 1, json => do
    let j ← object json
    jentry_free n j.root
    object_free json
/-- The function `jvalue_free`; a `jvalue_t` and its string are held by value, so only
the containers it points to are released. -/
def jvalue_free : Nat → Option jvalue_t → C Unit
  | 0, _ => crash fault.fuel
  | _ + 1, none => pure ()
  | _ + 1, some (jvalue_t.J_ARR a) => jarray_free a
  | n + 1, some (jvalue_t.J_OBJ o) => json_free n o
  | _ + 1, some _ => pure ()
end

/-! ## Copy (`jvalue_copy`, `jarray_copy`, `json_copy`, `json_build`, `jentry_new`) -/

mutual
/-- The function `jvalue_copy`. -/
def jvalue_copy : Nat → Option jvalue_t → C (Option jvalue_t)
  | 0, _ => crash fault.fuel
  | _ + 1, none => error errno_t.EINVAL none
  | _ + 1, some (jvalue_t.J_BOOL b) => pure (some (jvalue_t.J_BOOL b))
  | _ + 1, some (jvalue_t.J_NUM x) => pure (some (jvalue_t.J_NUM x))
  | _ + 1, some (jvalue_t.J_STR s) => pure (some (jvalue_t.J_STR s))
  | n + 1, some (jvalue_t.J_ARR a) => do
    let c ← jarray_copy n a
    pure (some (jvalue_t.J_ARR c))
  | n + 1, some (jvalue_t.J_OBJ o) => do
    let c ← json_copy n o
    pure (some (jvalue_t.J_OBJ c))
/-- The function `jarray_copy`.  The new array is filled in and then dropped: the
function ends in `return true;`.  (The source allocates the new `jarray_t` with
`malloc(sizeof(json_t))`; the model takes the allocation to hold a `jarray_t`.) -/
def jarray_copy : Nat → ptr → C ptr
  | 0, _ => crash fault.fuel
  | _ + 1, ptr.NULL => error errno_t.EINVAL ptr.NULL
  | n + 1, arr => do
    let a ← array arr
    let copies ← for_each (fun i =>
        match a.values[i]? with
        | some v => jvalue_copy n v
        | none => crash fault.invalid)
      (List.range a.size)
    let _new_array ← array_malloc
      ⟨a.size, a.capacity, copies ++ List.replicate (a.capacity - a.size) none⟩
    pure (ptr.int 1)
/-- The function `json_copy`.  The new object is built and then dropped: the function
ends in `return true;`. -/
def json_copy : Nat → ptr → C ptr
  | 0, _ => crash fault.fuel
  | _ + 1, ptr.NULL => error errno_t.EINVAL ptr.NULL
  | n + 1, json => do
    let new_json ← object_malloc
    let j ← object json
    if j.root ≠ none then
      let r ← entry j.root
      let new_root ← jentry_new n none r.key r.value
      object_set new_json new_root
      if new_root = none then
        object_free new_json
        return ptr.NULL
      let built ← json_build n new_root j.root
      if built = false then
        object_free new_json
        return ptr.NULL
    else
      object_set new_json none
    pure (ptr.int 1)
/-- The function `json_build`. -/
def json_build : Nat → Option Nat → Option Nat → C Bool
  | 0, _, _ => crash fault.fuel
  | n + 1, new_root, old_root => do
    let o ← entry old_root
    if o.lchild ≠ none then
      let ol ← entry o.lchild
      let nl ← jentry_new n new_root ol.key ol.value
      entry_set new_root (fun e => { e with lchild := nl })
      if nl = none then
        return false
      let nw ← entry new_root
      let o ← entry old_root
      let built ← json_build n nw.lchild o.lchild
      if built = false then
        let nw ← entry new_root
        jentry_free n nw.lchild
        return false
    else
      entry_set new_root (fun e => { e with lchild := none })
    let o ← entry old_root
    if o.rchild ≠ none then
      let or ← entry o.rchild
      let nr ← jentry_new n new_root or.key or.value
      entry_set new_root (fun e => { e with rchild := nr })
      if nr = none then
        return false
      let nw ← entry new_root
      let o ← entry old_root
      let built ← json_build n nw.rchild o.rchild
      if built = false then
        let nw ← entry new_root
        if nw.lchild ≠ none then jentry_free n nw.lchild
        let nw ← entry new_root
        jentry_free n nw.rchild
        return false
    else
      entry_set new_root (fun e => { e with rchild := none })
    pure true
/-- The function `jentry_new`. -/
def jentry_new : Nat → Option Nat → String → Option jvalue_t → C (Option Nat)
  | 0, _, _, _ => crash fault.fuel
  | n + 1, parent, key, value => do
    let new_entry ← entry_malloc
    entry_set new_entry (fun e => { e with key := key })
    let v ← jvalue_copy n value
    entry_set new_entry (fun e => { e with value := v })
    if v = none then
      entry_free new_entry
      return none
    entry_set new_entry
      (fun e => { e with height := 0, parent := parent, lchild := none, rchild := none })
    pure new_entry
end

/-! ## Rotations and rebalancing -/

/-- The function `ll_rotate`. -/
def ll_rotate (node : Option Nat) : C Unit := do
  let n ← entry node
  let parent_tmp := n.parent
  let child_tmp := n.lchild
  entry_set node (fun e => { e with lchild := parent_tmp })
  let p ← entry parent_tmp
  entry_set node (fun e => { e with parent := p.parent })
  entry_set parent_tmp (fun e => { e with rchild := child_tmp })
  entry_set parent_tmp (fun e => { e with parent := node })
  if child_tmp ≠ none then
    entry_set child_tmp (fun e => { e with parent := parent_tmp })
  let n ← entry node
  if n.parent ≠ none then
    let g ← entry n.parent
    if parent_tmp = g.lchild then
      entry_set n.parent (fun e => { e with lchild := node })
    else
      entry_set n.parent (fun e => { e with rchild := node })

/-- The function `rr_rotate`. -/
def rr_rotate (node : Option Nat) : C Unit := do
  let n ← entry node
  let parent_tmp := n.parent
  let child_tmp := n.rchild
  entry_set node (fun e => { e with rchild := parent_tmp })
  let p ← entry parent_tmp
  entry_set node (fun e => { e with parent := p.parent })
  entry_set parent_tmp (fun e => { e with lchild := child_tmp })
  entry_set parent_tmp (fun e => { e with parent := node })
  if child_tmp ≠ none then
    entry_set child_tmp (fun e => { e with parent := parent_tmp })
  let n ← entry node
  if n.parent ≠ none then
    let g ← entry n.parent
    if parent_tmp = g.lchild then
      entry_set n.parent (fun e => { e with lchild := node })
    else
      entry_set n.parent (fun e => { e with rchild := node })

/-- The macro `json_factor`. -/
def json_factor (node : Option Nat) : C Int := do
  let n ← entry node
  let l ← if n.lchild ≠ none then (do let c ← entry n.lchild; pure ((c.height : Int) + 1))
    else pure (0 : Int)
  let r ← if n.rchild ≠ none then (do let c ← entry n.rchild; pure ((c.height : Int) + 1))
    else pure (0 : Int)
  pure (l - r)

/-- First loop of `json_balance`: descend while the factor is outside `[-1, 1]`. -/
def json_balance_find : Nat → Option Nat → C (Option Nat)
  | 0, _ => crash fault.fuel
  | n + 1, root => do
    let bal_factor ← json_factor root
    if bal_factor < -1 ∨ bal_factor > 1 then
      let r ← entry root
      if bal_factor ≥ 1 then json_balance_find n r.lchild
      else json_balance_find n r.rchild
    else pure root

/-- Second loop of `json_balance`: rotate the node found upwards until it has no parent. -/
def json_balance_shift : Nat → Option Nat → C Unit
  | 0, _ => crash fault.fuel
  | n + 1, root => do
    let r ← entry root
    if r.parent ≠ none then
      let p ← entry r.parent
      if root = p.lchild then rr_rotate root else ll_rotate root
      json_balance_shift n root
    else pure ()

/-- The function `json_balance`. -/
def json_balance (fuel : Nat) (root : Option Nat) : C Unit := do
  let r ← json_balance_find fuel root
  json_balance_shift fuel r

/-- First loop of `json_smallest`. -/
def json_smallest_get : Nat → Option Nat → C (Option Nat)
  | 0, _ => crash fault.fuel
  | n + 1, target => do
    let t ← entry target
    if t.lchild ≠ none then json_smallest_get n t.lchild else pure target

/-- Second loop of `json_smallest`. -/
def json_smallest_shift : Nat → Option Nat → Option Nat → C Unit
  | 0, _, _ => crash fault.fuel
  | n + 1, root, target => do
    let t ← entry target
    let r ← entry root
    if t.parent ≠ r.parent then
      rr_rotate target
      json_smallest_shift n root target
    else pure ()

/-- The function `json_smallest`. -/
def json_smallest (fuel : Nat) (root : Option Nat) : C (Option Nat) := do
  let target ← json_smallest_get fuel root
  json_smallest_shift fuel root target
  pure target

/-- First loop of `json_largest`. -/
def json_largest_get : Nat → Option Nat → C (Option Nat)
  | 0, _ => crash fault.fuel
  | n + 1, target => do
    let t ← entry target
    if t.rchild ≠ none then json_largest_get n t.rchild else pure target

/-- Second loop of `json_largest`. -/
def json_largest_shift : Nat → Option Nat → Option Nat → C Unit
  | 0, _, _ => crash fault.fuel
  | n + 1, root, target => do
    let t ← entry target
    let r ← entry root
    if t.parent ≠ r.parent then
      ll_rotate target
      json_largest_shift n root target
    else pure ()

/-- The function `json_largest`. -/
def json_largest (fuel : Nat) (root : Option Nat) : C (Option Nat) := do
  let target ← json_largest_get fuel root
  json_largest_shift fuel root target
  pure target

/-! ## Search -/

/-- Modelled from the spec: `json_lookup` is called by `json_seek` (as
`json_lookup(root->rchild, key)`) but is defined nowhere in the sources.  The spec's
Lookup is a "BST descent by lexicographic comparison" that "returns the matching value
handle or a not-found indication" and "does not mutate the tree"; it treats an absent
subtree as not found.  The result is a `jinfo_t` (the type `json_seek` reads it as) whose
`target` is the matching entry or NULL and whose `change` is 0, nothing having changed. -/
def json_lookup : Nat → Option Nat → String → C jinfo_t
  | 0, _, _ => crash fault.fuel
  | _ + 1, none, _ => pure ⟨0, none⟩
  | n + 1, some a, key => do
    let e ← entry (some a)
    let d := strcmp key e.key
    if d < 0 then json_lookup n e.lchild key
    else if d > 0 then json_lookup n e.rchild key
    else pure ⟨0, some a⟩

/-- The function `json_seek`.  Both the `DIF > 0` and the `DIF < 0` branch test
`root->lchild`; a new entry is requested with `jentry_new(root, key, NULL)`; on equal keys
the function ends in `return root;`.  In `root->height += info->change` the change is 0 or 1
in every `jinfo_t` the program builds. -/
def json_seek (fuel : Nat) (root : Option Nat) (key : String) (add : Bool) : C jinfo_ptr := do
  let r ← entry root
  let DIF := strcmp key r.key
  if DIF > 0 then
    if r.lchild = none then
      if add then
        let t ← jentry_new fuel root key none
        entry_set root (fun e => { e with rchild := t })
        pure (jinfo_ptr.info ⟨1, t⟩)
      else
        pure (jinfo_ptr.info ⟨0, none⟩)
    else
      let info ← json_lookup fuel r.rchild key
      entry_set root (fun e => { e with height := (e.height + info.change).toNat })
      pure (jinfo_ptr.info info)
  else if DIF < 0 then
    if r.lchild = none then
      if add then
        let t ← jentry_new fuel root key none
        entry_set root (fun e => { e with lchild := t })
        pure (jinfo_ptr.info ⟨1, t⟩)
      else
        pure (jinfo_ptr.info ⟨0, none⟩)
    else
      let info ← json_lookup fuel r.lchild key
      entry_set root (fun e => { e with height := (e.height + info.change).toNat })
      pure (jinfo_ptr.info info)
  else
    pure (jinfo_ptr.entry root)

/-- The access `info->target` on what `json_seek` returned: reading a `jinfo_t` through a
pointer to a `jentry_t` leaves defined behaviour. -/
def jinfo_target (info : jinfo_ptr) : C (Option Nat) :=
  match info with
  | jinfo_ptr.info i => pure i.target
  | jinfo_ptr.entry _ => crash fault.invalid

/-! ## The object facade -/

/-- The function `json_new`. -/
def json_new : C ptr := object_malloc

/-- The function `json_add`.  In the source the first entry is made from `strdup(key)`,
which `jentry_new` duplicates once more; the stored key is the same text. -/
def json_add (fuel : Nat) (json : ptr) (key : Option String) (value : Option jvalue_t) :
    C Bool :=
  match json, key, value with
  | ptr.NULL, _, _ => error errno_t.EINVAL false
  | _, none, _ => error errno_t.EINVAL false
  | _, _, none => error errno_t.EINVAL false
  | json, some key, some value => do
    let j ← object json
    if j.root = none then
      let r ← jentry_new fuel none key (some value)
      object_set json r
      if r = none then
        return false
      return true
    let info ← json_seek fuel j.root key true
    let target ← jinfo_target info
    entry_set target (fun e => { e with value := some value })
    let j ← object json
    json_balance fuel j.root
    pure true

/-- The function `json_remove`. -/
def json_remove (fuel : Nat) (json : ptr) (key : Option String) : C Bool :=
  match json, key with
  | ptr.NULL, _ => error errno_t.EINVAL false
  | _, none => error errno_t.EINVAL false
  | json, some key => do
    let j ← object json
    if j.root = none then
      return (← error errno_t.ENOENT false)
    let info ← json_seek fuel j.root key false
    let target ← jinfo_target info
    if target = none then
      return (← error errno_t.ENOENT false)
    let t ← entry target
    let p ← entry t.parent
    let IS_LCHILD : Bool := decide (target = p.lchild)
    if t.lchild ≠ none then
      let tmp ← if IS_LCHILD then (do
          let tmp ← json_smallest fuel t.rchild
          let t ← entry target
          entry_set t.parent (fun e => { e with lchild := tmp })
          pure tmp)
        else (do
          let tmp ← json_largest fuel t.rchild
          let t ← entry target
          entry_set t.parent (fun e => { e with rchild := tmp })
          pure tmp)
      let t ← entry target
      entry_set tmp (fun e => { e with rchild := t.rchild })
      let t ← entry target
      entry_set tmp (fun e => { e with parent := t.parent })
    else if t.rchild ≠ none then
      let tmp ← if IS_LCHILD then (do
          let tmp ← json_largest fuel t.rchild
          let t ← entry target
          entry_set t.parent (fun e => { e with lchild := tmp })
          pure tmp)
        else (do
          let tmp ← json_smallest fuel t.rchild
          let t ← entry target
          entry_set t.parent (fun e => { e with rchild := tmp })
          pure tmp)
      let t ← entry target
      entry_set tmp (fun e => { e with lchild := t.lchild })
      let t ← entry target
      entry_set tmp (fun e => { e with parent := t.parent })
    else
      if IS_LCHILD then
        entry_set t.parent (fun e => { e with lchild := none })
      else
        entry_set t.parent (fun e => { e with rchild := none })
    let t ← entry target
    jvalue_free fuel t.value
    entry_free target
    let j ← object json
    json_balance fuel j.root
    pure true

/-- The function `json_size`. -/
def json_size (json : ptr) : C Nat :=
  match json with
  | ptr.NULL => error errno_t.EINVAL 0
  | json => do
    let j ← object json
    if j.root ≠ none then
      let r ← entry j.root
      pure r.height
    else pure 0

/-- The function `json_find`: it returns `json_seek(json->root, key, false)->target`, an
entry pointer, as the `jvalue_t *`. -/
def json_find (fuel : Nat) (json : ptr) (key : Option String) : C jvalue_ptr :=
  match json, key with
  | ptr.NULL, _ => error errno_t.EINVAL jvalue_ptr.NULL
  | _, none => error errno_t.EINVAL jvalue_ptr.NULL
  | json, some key => do
    let j ← object json
    let info ← json_seek fuel j.root key false
    let target ← jinfo_target info
    match target with
    | none => pure jvalue_ptr.NULL
    | some a => pure (jvalue_ptr.entry a)

/-! ## Comparison (`jvalue_boolcmp` ... `jvalue_objcmp`, `jvalue_getcmp`, `jvalue_cmp`) -/

/-- The enum `jtype_t`. -/
inductive jtype_t where
  | J_BOOL
  | J_NUM
  | J_STR
  | J_ARR
  | J_OBJ
deriving DecidableEq, Repr

/-- The member `type` of a `jvalue_t`. -/
def jvalue_t.type : jvalue_t → jtype_t
  | jvalue_t.J_BOOL _ => jtype_t.J_BOOL
  | jvalue_t.J_NUM _ => jtype_t.J_NUM
  | jvalue_t.J_STR _ => jtype_t.J_STR
  | jvalue_t.J_ARR _ => jtype_t.J_ARR
  | jvalue_t.J_OBJ _ => jtype_t.J_OBJ

/-- The constant `JFLT_EPSILON`, which `json.h` defines as `DBL_EPSILON` of `<float.h>`:
`2^-52` for IEEE double precision.  Numbers (`jfloat_t`) are modelled exactly, as rationals. -/
def JFLT_EPSILON : ℚ := 1 / 2 ^ 52

/-- The largest `int` (32 bits). -/
def INT_MAX : Int := 2 ^ 31 - 1

/-- The function `jvalue_boolcmp`, applied to two `jvalue_t`.  Reading a union member other
than the one the tag selects is a fault. -/
def jvalue_boolcmp (value1 value2 : jvalue_t) : C Int :=
  match value1, value2 with
  | jvalue_t.J_BOOL b1, jvalue_t.J_BOOL b2 =>
    pure ((if b1 then 1 else 0) - (if b2 then 1 else 0))
  | _, _ => crash fault.invalid

/-- The function `jvalue_numcmp`: `CMP < JFLT_EPSILON ? 0 : jfloat_ceil(CMP)`, converted to
`int` (a conversion that is undefined when the value does not fit). -/
def jvalue_numcmp (value1 value2 : jvalue_t) : C Int :=
  match value1, value2 with
  | jvalue_t.J_NUM x1, jvalue_t.J_NUM x2 =>
    if x1 - x2 < JFLT_EPSILON then pure 0
    else if ⌈x1 - x2⌉ ≤ INT_MAX then pure ⌈x1 - x2⌉
    else crash fault.invalid
  | _, _ => crash fault.invalid

/-- The function `jvalue_strcmp`. -/
def jvalue_strcmp (value1 value2 : jvalue_t) : C Int :=
  match value1, value2 with
  | jvalue_t.J_STR s1, jvalue_t.J_STR s2 => pure (strcmp s1 s2)
  | _, _ => crash fault.invalid

/-- The function `jvalue_arrcmp`. -/
def jvalue_arrcmp (value1 value2 : jvalue_t) : C Int :=
  match value1, value2 with
  | jvalue_t.J_ARR p1, jvalue_t.J_ARR p2 => do
    let a1 ← array p1
    let a2 ← array p2
    if a1.size > a2.size then pure 1
    else if a1.size < a2.size then pure (-1)
    else pure 0
  | _, _ => crash fault.invalid

/-- The function `jvalue_objcmp`. -/
def jvalue_objcmp (value1 value2 : jvalue_t) : C Int :=
  match value1, value2 with
  | jvalue_t.J_OBJ p1, jvalue_t.J_OBJ p2 => do
    let SIZE1 ← json_size p1
    let SIZE2 ← json_size p2
    if SIZE1 > SIZE2 then pure 1
    else if SIZE1 < SIZE2 then pure (-1)
    else pure 0
  | _, _ => crash fault.invalid

/-- The function `jvalue_getcmp`. -/
def jvalue_getcmp : jtype_t → jvalue_t → jvalue_t → C Int
  | jtype_t.J_BOOL => jvalue_boolcmp
  | jtype_t.J_NUM => jvalue_numcmp
  | jtype_t.J_STR => jvalue_strcmp
  | jtype_t.J_ARR => jvalue_arrcmp
  | jtype_t.J_OBJ => jvalue_objcmp

/-- The function `jvalue_find_cmp`. -/
def jvalue_find_cmp (value1 value2 : Option jvalue_t) (diff : Int) : C Int :=
  match value1, value2 with
  | none, _ => crash fault.null
  | some _, none => crash fault.null
  | some v1, some v2 =>
    if v1.type ≠ v2.type then pure diff
    else jvalue_getcmp v1.type v1 v2

/-- The function `jvalue_cmp`. -/
def jvalue_cmp (value1 value2 : Option jvalue_t) : C Int :=
  match value1, value2 with
  | none, _ => error errno_t.EINVAL 0
  | some _, none => error errno_t.EINVAL 0
  | some v1, some v2 =>
    if v1.type ≠ v2.type then error errno_t.EINVAL 0
    else jvalue_getcmp v1.type v1 v2

/-! ## The dynamic array -/

/-- The constant `SIZE_MAX` for a 64-bit `size_t`. -/
def SIZE_MAX : Nat := 2 ^ 64 - 1

/-- The constant `JARRAY_DEFCAP`. -/
def JARRAY_DEFCAP : Nat := 8

/-- The size `sizeof(jvalue_t *)` on a 64-bit target. -/
def sizeof_ptr : Nat := 8

/-- Assign to fields of `*p` for a `jarray_t *`. -/
def array_set (p : ptr) (g : jarray_t → jarray_t) : C Unit := fun m =>
  match p with
  | ptr.NULL => res.undef fault.null
  | ptr.int _ => res.undef fault.invalid
  | ptr.ref a =>
    match m.arrays[a]? with
    | some (some x) => res.ok () { m with arrays := m.arrays.set a (some (g x)) }
    | _ => res.undef fault.invalid

/-- Read `array->values[i]`; a slot outside the buffer is a fault. -/
def values_get (p : ptr) (i : Nat) : C (Option jvalue_t) := do
  let a ← array p
  match a.values[i]? with
  | some v => pure v
  | none => crash fault.invalid

/-- Assign `array->values[i] = v`; a slot outside the buffer is a fault. -/
def values_set (p : ptr) (i : Nat) (v : Option jvalue_t) : C Unit := do
  let a ← array p
  if i < a.values.length then
    array_set p (fun a => { a with values := a.values.set i v })
  else crash fault.invalid

/-- The assignment `array->values[dst] = array->values[src]`. -/
def values_move (p : ptr) (dst src : Nat) : C Unit := do
  let v ← values_get p src
  values_set p dst v

/-- The call `realloc(array->values, bytes)` whose result is discarded: the buffer now has
room for `bytes / sizeof(jvalue_t *)` slots.  The block is taken to stay where it is, so
that `array->values` still points to it (had it moved, the pointer would dangle and every
later access would fault); slots that are new are unwritten. -/
def values_realloc (p : ptr) (bytes : Nat) : C Unit :=
  array_set p (fun a => { a with values :=
    (a.values ++ List.replicate (bytes / sizeof_ptr) none).take (bytes / sizeof_ptr) })

/-- The function `jarray_new`.  The slots of the new buffer are unwritten. -/
def jarray_new : C ptr :=
  array_malloc ⟨0, JARRAY_DEFCAP, List.replicate JARRAY_DEFCAP none⟩

/-- The function `jarray_pushb`.  A full array is "grown" by
`realloc(array->values, array->capacity *= 2)`: the byte count is the new capacity. -/
def jarray_pushb (fuel : Nat) (arr : ptr) (value : Option jvalue_t) : C Bool :=
  match arr, value with
  | ptr.NULL, _ => error errno_t.EINVAL false
  | _, none => error errno_t.EINVAL false
  | arr, some value => do
    let a ← array arr
    if a.size = SIZE_MAX / sizeof_ptr then
      return (← error errno_t.E2BIG false)
    if a.size = a.capacity then
      array_set arr (fun a => { a with capacity := a.capacity * 2 % 2 ^ 64 })
      let a ← array arr
      values_realloc arr a.capacity
    let v ← jvalue_copy fuel (some value)
    let a ← array arr
    values_set arr a.size v
    array_set arr (fun a => { a with size := (a.size + 1) % 2 ^ 64 })
    pure true

/-- The function `jarray_pushf`.  The shift loop runs upwards:
`for (i = 1; i < size; ++i) values[i] = values[i - 1]`. -/
def jarray_pushf (fuel : Nat) (arr : ptr) (value : Option jvalue_t) : C Bool :=
  match arr, value with
  | ptr.NULL, _ => error errno_t.EINVAL false
  | _, none => error errno_t.EINVAL false
  | arr, some value => do
    let a ← array arr
    if a.size = SIZE_MAX / sizeof_ptr then
      return (← error errno_t.E2BIG false)
    if a.size = a.capacity then
      array_set arr (fun a => { a with capacity := a.capacity * 2 % 2 ^ 64 })
      let a ← array arr
      values_realloc arr a.capacity
    array_set arr (fun a => { a with size := (a.size + 1) % 2 ^ 64 })
    let a ← array arr
    let _ ← for_each (fun i => values_move arr i (i - 1)) (List.range' 1 (a.size - 1))
    let v ← jvalue_copy fuel (some value)
    values_set arr 0 v
    pure true

/-- The function `jarray_remove`.  The shift loop runs downwards from the last item:
`for (i = size - 1;; --i) { values[i] = i + 1 == size ? NULL : values[i + 1]; ... }`.
The call `free(array->values[index])` releases a `jvalue_t` held by value: it only
reads the slot. -/
def jarray_remove (arr : ptr) (index : Nat) : C Bool :=
  match arr with
  | ptr.NULL => error errno_t.EINVAL false
  | arr => do
    let a ← array arr
    if a.size = 0 ∨ index > a.size - 1 then
      return (← error errno_t.ENOENT false)
    let _ ← values_get arr index
    let _ ← for_each (fun i => do
        let a ← array arr
        if i + 1 = a.size then values_set arr i none
        else values_move arr i (i + 1))
      (List.range' index (a.size - index)).reverse
    array_set arr (fun a => { a with size := a.size - 1 })
    pure true

/-- The function `jarray_get`. -/
def jarray_get (arr : ptr) (index : Nat) : C (Option jvalue_t) :=
  match arr with
  | ptr.NULL => error errno_t.EINVAL none
  | arr => do
    let a ← array arr
    if a.size = 0 ∨ index > a.size - 1 then
      return (← error errno_t.ENOENT none)
    values_get arr index

/-- The function `jarray_popf`. -/
def jarray_popf (arr : ptr) : C (Option jvalue_t) :=
  match arr with
  | ptr.NULL => error errno_t.EINVAL none
  | arr => do
    let a ← array arr
    if a.size = 0 then
      return (← error errno_t.ENOENT none)
    let value ← values_get arr 0
    array_set arr (fun a => { a with size := a.size - 1 })
    let a ← array arr
    let _ ← for_each (fun i => values_move arr i (i + 1)) (List.range a.size)
    pure value

/-- The function `jarray_popb`. -/
def jarray_popb (arr : ptr) : C (Option jvalue_t) :=
  match arr with
  | ptr.NULL => error errno_t.EINVAL none
  | arr => do
    let a ← array arr
    if a.size = 0 then
      return (← error errno_t.ENOENT none)
    let value ← values_get arr (a.size - 1)
    array_set arr (fun a => { a with size := a.size - 1 })
    let a ← array arr
    values_set arr a.size none
    pure value

/-- The loop of `jarray_sort` that compares every further item's `type` with `TYPE`:
false as soon as one differs (where the source leaves with `EOPNOTSUPP`). -/
def jarray_sort_check (arr : ptr) (TYPE : jtype_t) : List Nat → C Bool
  | [] => pure true
  | i :: l => do
    let v ← values_get arr i
    match v with
    | none => crash fault.null
    | some x => if x.type ≠ TYPE then pure false else jarray_sort_check arr TYPE l

/-- The call `qsort(array->values, array->size, sizeof(jvalue_t *), jvalue_getcmp(TYPE))`.
With fewer than two items nothing is compared and nothing moves.  With two or more,
`qsort` calls the comparison function on pointers to two slots of the buffer, that is on
`jvalue_t **`, and each of the five comparison functions reads a `jvalue_t` through its
arguments: a fault. -/
def jarray_qsort (arr : ptr) : C Unit := do
  let a ← array arr
  if a.size < 2 then pure () else crash fault.invalid

/-- The function `jarray_sort`. -/
def jarray_sort (arr : ptr) : C Bool :=
  match arr with
  | ptr.NULL => error errno_t.EINVAL false
  | arr => do
    let first ← values_get arr 0
    match first with
    | none => crash fault.null
    | some x =>
      let a ← array arr
      let same ← jarray_sort_check arr x.type (List.range' 1 (a.size - 1))
      if same = false then
        return (← error errno_t.EOPNOTSUPP false)
      jarray_qsort arr
      pure true

/-- The loop of `jarray_findl`: `for (i = size - 1;; ++i) { ...; if (!i) break; }`.  The
index counts upwards, modulo `2^64`. -/
def jarray_findl_loop (arr : ptr) (value : jvalue_t) : Nat → Nat → C (Option jvalue_t)
  | 0, _ => crash fault.fuel
  | n + 1, i => do
    let x ← values_get arr i
    let c ← jvalue_find_cmp x (some value) 1
    if c = 0 then pure x
    else if i = 0 then pure none
    else jarray_findl_loop arr value n ((i + 1) % 2 ^ 64)

/-- The function `jarray_findl`. -/
def jarray_findl (fuel : Nat) (arr : ptr) (value : Option jvalue_t) : C (Option jvalue_t) :=
  match arr, value with
  | ptr.NULL, _ => error errno_t.EINVAL none
  | _, none => error errno_t.EINVAL none
  | arr, some value => do
    let a ← array arr
    jarray_findl_loop arr value fuel ((a.size + (2 ^ 64 - 1)) % 2 ^ 64)

/-! ## Construction (`jvalue_new`) -/

/-- The value of an enumeration constant of `jtype_t`: `J_BOOL` is 0, ..., `J_OBJ` is 4. -/
def jtype_t.code : jtype_t → Nat
  | jtype_t.J_BOOL => 0
  | jtype_t.J_NUM => 1
  | jtype_t.J_STR => 2
  | jtype_t.J_ARR => 3
  | jtype_t.J_OBJ => 4

/-- The union `jany_t` as a caller passes it: the member that was stored last. -/
inductive jany_t where
  | boolean (b : Bool)
  | number (x : ℚ)
  | string (s : Option String)
  | array (p : ptr)
  | object (p : ptr)
deriving DecidableEq, Repr

/-- Whether the member `object` of the union reads as a null pointer.  The three pointer
members share their bytes.  A stored `number` fills the same bytes: with IEEE doubles,
whose zero is all bits zero, as is the null pointer, the read is null for 0.0 and for no
other number.  A stored `boolean` fills one byte and leaves the others unspecified: the
read has no determined value, `none`. -/
def jany_t.object_null : jany_t → Option Bool
  | jany_t.boolean _ => none
  | jany_t.number x => some (decide (x = 0))
  | jany_t.string s => some (decide (s = none))
  | jany_t.array p => some (decide (p = ptr.NULL))
  | jany_t.object p => some (decide (p = ptr.NULL))

/-- What a call of `jvalue_new` hands to its caller. -/
inductive jvalue_new_t where
  | NULL
  /-- A pointer to a new `jvalue_t` with this content. -/
  | value (v : jvalue_t)
  /-- The closing brace of the function was reached without a `return` statement: the
  call has no value. -/
  | nothing
deriving DecidableEq, Repr

/-- The function `jvalue_new`, with `type` the value of the `char` argument.  Its body is
the argument check alone; `&&` binds tighter than `||`. -/
def jvalue_new (type : Nat) (value : jany_t) : C jvalue_new_t :=
  if type &&& (jtype_t.J_BOOL.code ||| jtype_t.J_NUM.code ||| jtype_t.J_STR.code |||
      jtype_t.J_ARR.code ||| jtype_t.J_OBJ.code) = 0 then
    error errno_t.EINVAL jvalue_new_t.NULL
  else if type &&& (jtype_t.J_STR.code ||| jtype_t.J_ARR.code ||| jtype_t.J_OBJ.code) ≠ 0 then
    match value.object_null with
    | none => crash fault.invalid
    | some true => error errno_t.EINVAL jvalue_new_t.NULL
    | some false => pure jvalue_new_t.nothing
  else pure jvalue_new_t.nothing

/-! ## Serialization (`indent_print` ... `json_print`) -/

/-- The function `indent_print` on a stream that holds the text `file` so far: four
blanks `indent` times, then `text`, the format with its arguments filled in.  (The source
starts the argument list with `va_start(args, file)`; the model takes the arguments of the
call to reach `vfprintf`.) -/
def indent_print (file : String) (indent : Nat) (text : String) : String :=
  match indent with
  | 0 => file ++ text
  | n + 1 => indent_print (file ++ "    ") n text

/-- The function `jfloat_print`: its body is empty. -/
def jfloat_print (_number : ℚ) (file : String) : String := file

/-- A counted `for` loop that carries a value from one round to the next. -/
def for_fold {α σ : Type} (f : α → σ → C σ) : List α → σ → C σ
  | [], s => pure s
  | a :: l, s => do
    let s1 ← f a s
    for_fold f l s1

mutual
/-- The function `jvalue_print`; it returns the text of the stream after the call.  A
String value is passed to `indent_print` as the format: with a conversion specification
in it `vfprintf` reads an argument that was not passed. -/
def jvalue_print : Nat → Option jvalue_t → String → Nat → C String
  | 0, _, _, _ => crash fault.fuel
  | _ + 1, none, _, _ => crash fault.null
  | _ + 1, some (jvalue_t.J_BOOL b), file, indent =>
    pure (indent_print file indent (if b then "true" else "false"))
  | _ + 1, some (jvalue_t.J_NUM x), file, _ => pure (jfloat_print x file)
  | _ + 1, some (jvalue_t.J_STR s), file, indent =>
    if s.toList.contains '%' then crash fault.invalid
    else pure (indent_print file indent s)
  | n + 1, some (jvalue_t.J_ARR a), file, indent => jarray_print n a file indent
  | n + 1, some (jvalue_t.J_OBJ o), file, indent => do
    let r ← json_print n o (some file) indent
    pure (r.2.getD file)
termination_by structural n => n
/-- The function `jarray_print`; it returns the text of the stream after the call. -/
def jarray_print : Nat → ptr → String → Nat → C String
  | 0, _, _, _ => crash fault.fuel
  | n + 1, arr, file, indent => do
    let file := indent_print file indent "[\n"
    let a ← array arr
    let file ← for_fold (fun i file => do
        let v ← values_get arr i
        let file ← jvalue_print n v file (indent + 1)
        let a ← array arr
        pure (file ++ (if i ≠ (a.size + SIZE_MAX) % (SIZE_MAX + 1) then ",\n" else "\n")))
      (List.range a.size) file
    pure (indent_print file indent "]\n")
termination_by structural n => n
/-- The function `jentry_print`; it returns its result and the text of the stream after
the call. -/
def jentry_print : Nat → Option Nat → String → Nat → C (Bool × String)
  | 0, _, _, _ => crash fault.fuel
  | n + 1, root, file, indent => do
    let r ← entry root
    let (done, file) ← (if r.lchild ≠ none then jentry_print n r.lchild file indent
      else pure (true, file))
    if done = false then
      return (false, file)
    let r ← entry root
    let (done, file) ← (if r.rchild ≠ none then jentry_print n r.rchild file indent
      else pure (true, file))
    if done = false then
      return (false, file)
    let r ← entry root
    let file := indent_print file indent ("\"" ++ r.key ++ "\": ")
    match r.value with
    | none => crash fault.null
    | some v =>
      let file := if v.type.code &&& (jtype_t.J_ARR.code ||| jtype_t.J_OBJ.code) ≠ 0
        then file ++ "\n" else file
      let file ← jvalue_print n (some v) file indent
      pure (true, file ++ ",\n")
termination_by structural n => n
/-- The function `json_print` on a stream that holds the text `file` so far (`none` is
the NULL stream); it returns its result and the text of the stream after the call. -/
def json_print : Nat → ptr → Option String → Nat → C (Bool × Option String)
  | 0, _, _, _ => crash fault.fuel
  | _ + 1, _, none, _ => error errno_t.EINVAL (false, none)
  | n + 1, json, some file, indent => do
    let file := indent_print file indent "\x7b\n"
    let j ← object json
    if j.root ≠ none then
      let (done, file) ← jentry_print n j.root file (indent + 1)
      if done = false then
        return (false, some file)
      pure (true, some (indent_print file indent "\x7d\n"))
    else
      pure (true, some (indent_print file indent "\x7d\n"))
termination_by structural n => n
end

/-! ## Observations used to state the properties -/

/-- A finite binary tree of entries, as read off the heap from a root pointer. -/
inductive tree where
  | nil
  | node (l : tree) (e : jentry_t) (r : tree)
deriving DecidableEq, Repr

/-- Read the tree below entry pointer `p` off the heap, following `lchild` and `rchild`
to at most the given depth; `none` if a link is invalid or the depth does not suffice. -/
def tree_of : Nat → List (Option jentry_t) → Option Nat → Option tree
  | 0, _, _ => none
  | _ + 1, _, none => some tree.nil
  | n + 1, es, some a =>
    match es[a]? with
    | some (some e) =>
      match tree_of n es e.lchild, tree_of n es e.rchild with
      | some l, some r => some (tree.node l e r)
      | _, _ => none
    | _ => none

/-- In-order traversal (left subtree, node, right subtree): the members as (key, value). -/
def inorder : tree → List (String × Option jvalue_t)
  | tree.nil => []
  | tree.node l e r => inorder l ++ (e.key, e.value) :: inorder r

/-- The tree of the object `json` points to, read to at most the given depth. -/
def json_tree (depth : Nat) (json : ptr) (m : memory) : Option tree :=
  match object json m with
  | res.ok j _ => tree_of depth m.entries j.root
  | res.undef _ => none

/-- The memory in which nothing is allocated yet. -/
def memory_empty : memory := ⟨[], [], [], errno_t.E0⟩

/-- The entry made by the first insertion of `key` with `value`. -/
def leaf (key : String) (value : jvalue_t) : jentry_t := ⟨0, key, some value, none, none, none⟩

/-- The memory after `json_new` and one insertion of `key` with a scalar `value`. -/
def memory_one (key : String) (value : jvalue_t) : memory :=
  ⟨[some (leaf key value)], [], [some ⟨some 0⟩], errno_t.E0⟩

/-- Objects obtained from `json_new` by successful `json_add` and `json_remove` calls:
`obtained json m` says that `json` points to such an object in memory `m`. -/
inductive obtained (json : ptr) : memory → Prop where
  | new (m0 m : memory) : json_new m0 = res.ok json m → obtained json m
  | add (fuel : Nat) (key : Option String) (value : Option jvalue_t) (m m1 : memory) :
      obtained json m → json_add fuel json key value m = res.ok true m1 → obtained json m1
  | remove (fuel : Nat) (key : Option String) (m m1 : memory) :
      obtained json m → json_remove fuel json key m = res.ok true m1 → obtained json m1

/-- The object `json` points to is empty, or its root is an entry without children. -/
def at_most_one (json : ptr) (m : memory) : Prop :=
  ∃ a, json = ptr.ref a ∧
    (m.objects[a]? = some (some ⟨none⟩) ∨
      ∃ r e, m.objects[a]? = some (some ⟨some r⟩) ∧ m.entries[r]? = some (some e) ∧
        e.lchild = none ∧ e.rchild = none)

/-- No key of the tree compares equal to `key` under `strcmp`. -/
def absent (key : String) (t : tree) : Prop :=
  ∀ kv ∈ inorder t, strcmp key kv.1 ≠ 0

instance (key : String) (t : tree) : Decidable (absent key t) := by
  unfold absent
  infer_instance

/-! ### Linked trees -/

/-- The shape of a tree of entries: the addresses of its nodes. -/
inductive shape where
  | nil
  | node (l : shape) (a : Nat) (r : shape)
deriving DecidableEq, Repr

/-- The addresses of the nodes of a shape, in in-order. -/
def addresses : shape → List Nat
  | shape.nil => []
  | shape.node l a r => addresses l ++ a :: addresses r

/-- The entries `es` hold a tree of shape `s` below the entry pointer `p`, with consistent
links: `p` is NULL for the empty shape; otherwise `p` is the address at the root of the
shape, the `parent` link of that entry is `parent`, and its `lchild` and `rchild` hold the
two subtrees, whose roots have this entry as their parent. -/
def linked (es : List (Option jentry_t)) : Option Nat → Option Nat → shape → Bool
  | p, _, shape.nil => decide (p = none)
  | p, parent, shape.node l a r =>
    match es[a]? with
    | some (some e) => decide (p = some a) && decide (e.parent = parent) &&
        linked es e.lchild (some a) l && linked es e.rchild (some a) r
    | _ => false

/-- The members at the nodes of a shape, in in-order. -/
def members (es : List (Option jentry_t)) (s : shape) : List (String × Option jvalue_t) :=
  (addresses s).filterMap (fun a =>
    match es[a]? with
    | some (some e) => some (e.key, e.value)
    | _ => none)

/-- The entries `es1` are the entries `es` after a rotation at `n` below `p`: the entries
at `n` and `p` are `n1` and `p1`, the entry at the moved child `c` has `p` as its parent,
the entry at the grandparent `g` has `n` where it had `p`, and no other entry differs. -/
structure rotated (es es1 : List (Option jentry_t)) (n p : Nat) (c g : Option Nat)
    (n1 p1 : jentry_t) : Prop where
  node : es1[n]? = some (some n1)
  parent : es1[p]? = some (some p1)
  child : ∀ x e, c = some x → es[x]? = some (some e) →
    es1[x]? = some (some { e with parent := some p })
  grand : ∀ x e, g = some x → es[x]? = some (some e) →
    es1[x]? = some (some (if some p = e.lchild then { e with lchild := some n }
      else { e with rchild := some n }))
  frame : ∀ x, x ≠ n → x ≠ p → c ≠ some x → g ≠ some x → es1[x]? = es[x]?

/-- What a rotation at the node `n` below its parent `p` has to achieve in the tree of
shape `s` under `root`: the call `rotate(n)` returns; the entries hold a tree with
consistent links again, under `n` if `p` was the root and under `root` otherwise, with the
same addresses in the same in-order; every entry keeps its key and its value; the in-order
sequence of (key, value) pairs read from the top is the one read from `root` before; `n`
has the parent that `p` had, and that grandparent has `n` for the child that was `p`. -/
def rotation (rotate : Option Nat → C Unit) (m : memory) (root n p : Nat) (s : shape) : Prop :=
  ∃ m1 s1, rotate (some n) m = res.ok () m1 ∧
    linked m1.entries (some (if p = root then n else root)) none s1 = true ∧
    addresses s1 = addresses s ∧
    (∀ (a : Nat) (e : jentry_t), m.entries[a]? = some (some e) →
      ∃ e1, m1.entries[a]? = some (some e1) ∧ e1.key = e.key ∧ e1.value = e.value) ∧
    (∃ t t1, tree_of ((addresses s).length + 1) m.entries (some root) = some t ∧
      tree_of ((addresses s).length + 1) m1.entries (some (if p = root then n else root)) =
        some t1 ∧
      inorder t1 = inorder t) ∧
    (∀ e_p, m.entries[p]? = some (some e_p) →
      (∃ e1, m1.entries[n]? = some (some e1) ∧ e1.parent = e_p.parent) ∧
      ∀ g e_g, e_p.parent = some g → m.entries[g]? = some (some e_g) →
        (e_g.lchild = some p ∧
          m1.entries[g]? = some (some { e_g with lchild := some n })) ∨
        (e_g.rchild = some p ∧
          m1.entries[g]? = some (some { e_g with rchild := some n })))

/-! ### Sample heaps -/

/-- The memory after `json_new` in the empty memory: one object without root. -/
def memory_new : memory := ⟨[], [], [some ⟨none⟩], errno_t.E0⟩

/-- A two-member object: root "a" with right child "b". -/
def memory_ab : memory :=
  ⟨[some ⟨1, "a", some (jvalue_t.J_NUM 1), none, none, some 1⟩,
    some ⟨0, "b", some (jvalue_t.J_NUM 2), some 0, none, none⟩],
   [], [some ⟨some 0⟩], errno_t.E0⟩

/-- A three-member object: root "b" with left child "a" and right child "c". -/
def memory_bac : memory :=
  ⟨[some ⟨1, "b", some (jvalue_t.J_NUM 1), none, some 1, some 2⟩,
    some ⟨0, "a", some (jvalue_t.J_NUM 2), some 0, none, none⟩,
    some ⟨0, "c", some (jvalue_t.J_NUM 3), some 0, none, none⟩],
   [], [some ⟨some 0⟩], errno_t.E0⟩

/-- The memory after `json_copy` on the object of `memory_bac`: the entries of the copy
are at addresses 3, 4, 5, its `json_t` is object 1. -/
def memory_bac_copy : memory :=
  ⟨[some ⟨1, "b", some (jvalue_t.J_NUM 1), none, some 1, some 2⟩,
    some ⟨0, "a", some (jvalue_t.J_NUM 2), some 0, none, none⟩,
    some ⟨0, "c", some (jvalue_t.J_NUM 3), some 0, none, none⟩,
    some ⟨0, "b", some (jvalue_t.J_NUM 1), none, some 4, some 5⟩,
    some ⟨0, "a", some (jvalue_t.J_NUM 2), some 3, none, none⟩,
    some ⟨0, "c", some (jvalue_t.J_NUM 3), some 3, none, none⟩],
   [], [some ⟨some 0⟩, some ⟨some 3⟩], errno_t.E0⟩

/-- The tree of `memory_bac`. -/
def tree_bac : tree :=
  tree.node (tree.node tree.nil ⟨0, "a", some (jvalue_t.J_NUM 2), some 0, none, none⟩ tree.nil)
    ⟨1, "b", some (jvalue_t.J_NUM 1), none, some 1, some 2⟩
    (tree.node tree.nil ⟨0, "c", some (jvalue_t.J_NUM 3), some 0, none, none⟩ tree.nil)

/-- A memory holding the array `[1, 2]` (size 2, capacity 8) at address 0. -/
def memory_arr : memory :=
  ⟨[], [some ⟨2, 8, [some (jvalue_t.J_NUM 1), some (jvalue_t.J_NUM 2),
      none, none, none, none, none, none]⟩], [], errno_t.E0⟩

/-- The memory after `jvalue_copy` on the array value of `memory_arr`: the copy of the
array is at address 1. -/
def memory_arr_copy : memory :=
  ⟨[], [some ⟨2, 8, [some (jvalue_t.J_NUM 1), some (jvalue_t.J_NUM 2),
      none, none, none, none, none, none]⟩,
    some ⟨2, 8, [some (jvalue_t.J_NUM 1), some (jvalue_t.J_NUM 2),
      none, none, none, none, none, none]⟩], [], errno_t.E0⟩

/-- The memory after two calls of `json_new`: two objects without root. -/
def memory_new_two : memory := ⟨[], [], [some ⟨none⟩, some ⟨none⟩], errno_t.E0⟩

/-- The memory after two calls of `json_new` and the insertion of ("a", 1) into the second
object: object 0 is empty, object 1 has one member. -/
def memory_empty_one : memory :=
  ⟨[some (leaf "a" (jvalue_t.J_NUM 1))], [], [some ⟨none⟩, some ⟨some 0⟩], errno_t.E0⟩

/-- A three-member object that leans to the right: root "a", its right child "b", and the
right child "c" of "b". -/
def memory_abc : memory :=
  ⟨[some ⟨2, "a", some (jvalue_t.J_NUM 1), none, none, some 1⟩,
    some ⟨1, "b", some (jvalue_t.J_NUM 2), some 0, none, some 2⟩,
    some ⟨0, "c", some (jvalue_t.J_NUM 3), some 1, none, none⟩],
   [], [some ⟨some 0⟩], errno_t.E0⟩

/-- The shape of the tree of `memory_bac`. -/
def shape_bac : shape :=
  shape.node (shape.node shape.nil 1 shape.nil) 0 (shape.node shape.nil 2 shape.nil)

/-- The shape of the tree of `memory_abc`. -/
def shape_abc : shape :=
  shape.node shape.nil 0 (shape.node shape.nil 1 (shape.node shape.nil 2 shape.nil))

/-- The items an array holds: the first `size` slots of its buffer. -/
def jarray_items (a : jarray_t) : List (Option jvalue_t) := a.values.take a.size

/-- The array with the given items and capacity 8 (the rest of the buffer unwritten), as
`jarray_new` and `jarray_pushb` build it. -/
def array_of (items : List jvalue_t) : jarray_t :=
  ⟨items.length, 8, items.map some ++ List.replicate (8 - items.length) none⟩

/-- A memory holding the array `array_of items` at address 0 and nothing else. -/
def memory_array (items : List jvalue_t) : memory :=
  ⟨[], [some (array_of items)], [], errno_t.E0⟩

/-- The memory `m` with the array at address `a` replaced by `A`. -/
def with_array (m : memory) (a : Nat) (A : jarray_t) : memory :=
  { m with arrays := m.arrays.set a (some A) }

/-- Between `m` and `m1` no array address has disappeared and every array of `m` is
either untouched or freed. -/
def keeps (m m1 : memory) : Prop :=
  m.arrays.length ≤ m1.arrays.length ∧
    ∀ i, i < m.arrays.length → m1.arrays[i]? = m.arrays[i]? ∨ m1.arrays[i]? = some none

/-- The computation `x` touches the arrays of the memory it starts in only by freeing
them. -/
structure frames {α : Type} (x : C α) : Prop where
  keep : ∀ m r m1, x m = res.ok r m1 → keeps m m1

/-- Arrays obtained from `jarray_new` by calls of `jarray_pushb`, `jarray_pushf`,
`jarray_popb`, `jarray_popf` and `jarray_remove` that return (with any result):
`jarray_obtained arr m` says that `arr` points to such an array in memory `m`. -/
inductive jarray_obtained (arr : ptr) : memory → Prop where
  | new (m0 m : memory) : jarray_new m0 = res.ok arr m → jarray_obtained arr m
  | pushb (fuel : Nat) (value : Option jvalue_t) (b : Bool) (m m1 : memory) :
      jarray_obtained arr m → jarray_pushb fuel arr value m = res.ok b m1 →
      jarray_obtained arr m1
  | pushf (fuel : Nat) (value : Option jvalue_t) (b : Bool) (m m1 : memory) :
      jarray_obtained arr m → jarray_pushf fuel arr value m = res.ok b m1 →
      jarray_obtained arr m1
  | popb (r : Option jvalue_t) (m m1 : memory) :
      jarray_obtained arr m → jarray_popb arr m = res.ok r m1 → jarray_obtained arr m1
  | popf (r : Option jvalue_t) (m m1 : memory) :
      jarray_obtained arr m → jarray_popf arr m = res.ok r m1 → jarray_obtained arr m1
  | remove (index : Nat) (b : Bool) (m m1 : memory) :
      jarray_obtained arr m → jarray_remove arr index m = res.ok b m1 →
      jarray_obtained arr m1

/-- The array at address `a` is live, has the default capacity and at most that many
items. -/
def small (a : Nat) (m : memory) : Prop :=
  ∃ A, m.arrays[a]? = some (some A) ∧ A.capacity = JARRAY_DEFCAP ∧ A.size ≤ JARRAY_DEFCAP

/-- What a step that works on the array at `a` alone leaves: the same memory with another
content of that array, of the same size, capacity and buffer length. -/
def local_step (m : memory) (a : Nat) (A : jarray_t) (m1 : memory) : Prop :=
  ∃ B, m1 = with_array m a B ∧ B.size = A.size ∧ B.capacity = A.capacity ∧
    B.values.length = A.values.length

/-- The Number value `x`, as a `jvalue_t *` argument. -/
def num (x : ℚ) : Option jvalue_t := some (jvalue_t.J_NUM x)

/-! ## Auxiliary lemmas -/

theorem bind_apply {α β : Type} (x : C α) (f : α → C β) (m : memory) :
    (x >>= f) m = match x m with
      | res.ok a m1 => f a m1
      | res.undef e => res.undef e := rfl

theorem pure_apply {α : Type} (a : α) (m : memory) : (pure a : C α) m = res.ok a m := rfl

theorem jentry_new_null_value (fuel : Nat) (parent : Option Nat) (key : String) (m m2 : memory)
    (t : Option Nat) (h : jentry_new fuel parent key none m = res.ok t m2) : t = none := by
  match fuel with
  | 0 => simp [jentry_new, crash] at h
  | 1 => simp [jentry_new, bind_apply, entry_malloc, entry_set, jvalue_copy, crash] at h
  | n + 2 =>
    simp [jentry_new, bind_apply, entry_malloc, entry_set, jvalue_copy, error, entry_free,
      pure_apply] at h
    exact h.1.symm

theorem ite_apply_C {α : Type} (c : Prop) [Decidable c] (x y : C α) (m : memory) :
    (if c then x else y) m = if c then x m else y m := by
  split <;> rfl

theorem entry_set_get (a : Nat) (g : jentry_t → jentry_t) (m m2 : memory) (u : Unit)
    (h : entry_set (some a) g m = res.ok u m2) :
    ∃ e, m2.entries[a]? = some (some (g e)) := by
  simp only [entry_set] at h
  split at h
  · rename_i e he
    simp only [res.ok.injEq] at h
    have hlt : a < m.entries.length := by
      by_contra hc
      rw [List.getElem?_eq_none (not_lt.mp hc)] at he
      exact absurd he (by simp)
    refine ⟨e, ?_⟩
    rw [← h.2]
    simp [List.getElem?_set, hlt]
  · simp at h

theorem jentry_new_leaf (fuel : Nat) (parent : Option Nat) (key : String)
    (value : Option jvalue_t) (m m2 : memory) (x : Nat)
    (h : jentry_new fuel parent key value m = res.ok (some x) m2) :
    ∃ e, m2.entries[x]? = some (some e) ∧ e.lchild = none ∧ e.rchild = none := by
  match fuel with
  | 0 => simp [jentry_new, crash] at h
  | n + 1 =>
    simp only [jentry_new, bind_apply, entry_malloc] at h
    split at h
    · split at h
      · rename_i v m3 _
        split at h
        · by_cases hn : v = none
          · simp only [hn, if_true, bind_apply, pure_apply] at h
            split at h <;> simp at h
          · simp only [hn, if_false, bind_apply, pure_apply] at h
            split at h
            · rename_i u m5 hset
              simp only [res.ok.injEq, Option.some.injEq] at h
              obtain ⟨hx, hm⟩ := h
              subst hx hm
              obtain ⟨e0, he0⟩ := entry_set_get _ _ _ _ _ hset
              exact ⟨_, he0, rfl, rfl⟩
            · simp at h
        · simp at h
      · simp at h
    · simp at h

theorem json_seek_add_at_leaf (fuel : Nat) (r : Nat) (e : jentry_t) (key : String)
    (m m2 : memory) (info : jinfo_ptr)
    (hent : m.entries[r]? = some (some e)) (hl : e.lchild = none)
    (h : json_seek fuel (some r) key true m = res.ok info m2) :
    info = jinfo_ptr.entry (some r) ∨ info = jinfo_ptr.info ⟨1, none⟩ := by
  simp only [json_seek, bind_apply, entry, hent, hl, ite_apply_C, if_true] at h
  by_cases h1 : strcmp key e.key > 0
  · simp only [h1, if_true] at h
    cases hj : jentry_new fuel (some r) key none m with
    | undef f => simp [hj] at h
    | ok t m3 =>
      have ht := jentry_new_null_value fuel (some r) key m m3 t hj
      subst ht
      simp only [hj] at h
      split at h
      · simp only [pure_apply, res.ok.injEq] at h
        exact Or.inr h.1.symm
      · simp at h
  · simp only [h1, if_false] at h
    by_cases h2 : strcmp key e.key < 0
    · simp only [h2, if_true] at h
      cases hj : jentry_new fuel (some r) key none m with
      | undef f => simp [hj] at h
      | ok t m3 =>
        have ht := jentry_new_null_value fuel (some r) key m m3 t hj
        subst ht
        simp only [hj] at h
        split at h
        · simp only [pure_apply, res.ok.injEq] at h
          exact Or.inr h.1.symm
        · simp at h
    · simp only [h2, if_false, pure_apply, res.ok.injEq] at h
      exact Or.inl h.1.symm

theorem json_seek_find_at_leaf (fuel : Nat) (r : Nat) (e : jentry_t) (key : String)
    (m : memory) (hent : m.entries[r]? = some (some e)) (hl : e.lchild = none) :
    json_seek fuel (some r) key false m = res.ok (jinfo_ptr.entry (some r)) m ∨
      json_seek fuel (some r) key false m = res.ok (jinfo_ptr.info ⟨0, none⟩) m := by
  simp only [json_seek, bind_apply, entry, hent, hl, ite_apply_C, if_true]
  by_cases h1 : strcmp key e.key > 0
  · simp [h1, pure_apply]
  · by_cases h2 : strcmp key e.key < 0
    · simp [h1, h2, pure_apply]
    · simp [h1, h2, pure_apply]

theorem json_add_at_leaf (fuel : Nat) (a r : Nat) (e : jentry_t) (key : Option String)
    (value : Option jvalue_t) (m m1 : memory)
    (hobj : m.objects[a]? = some (some ⟨some r⟩)) (hent : m.entries[r]? = some (some e))
    (hl : e.lchild = none)
    (h : json_add fuel (ptr.ref a) key value m = res.ok true m1) : False := by
  match key, value with
  | none, _ => simp [json_add, error] at h
  | some k, none => simp [json_add, error] at h
  | some k, some v =>
    simp only [json_add, bind_apply, object, hobj] at h
    simp only [ite_apply_C, reduceCtorEq, if_false, bind_apply, pure_apply] at h
    cases hs : json_seek fuel (some r) k true m with
    | undef f => simp [hs] at h
    | ok info m2 =>
      simp only [hs] at h
      rcases json_seek_add_at_leaf fuel r e k m m2 info hent hl hs with hi | hi
      · subst hi
        simp [jinfo_target, crash] at h
      · subst hi
        simp [jinfo_target, pure_apply, entry_set] at h

theorem json_remove_at_leaf (fuel : Nat) (a r : Nat) (e : jentry_t) (key : Option String)
    (m m1 : memory)
    (hobj : m.objects[a]? = some (some ⟨some r⟩)) (hent : m.entries[r]? = some (some e))
    (hl : e.lchild = none)
    (h : json_remove fuel (ptr.ref a) key m = res.ok true m1) : False := by
  match key with
  | none => simp [json_remove, error] at h
  | some k =>
    simp only [json_remove, bind_apply, object, hobj] at h
    simp only [ite_apply_C, reduceCtorEq, if_false, bind_apply, pure_apply] at h
    rcases json_seek_find_at_leaf fuel r e k m hent hl with hs | hs
    · simp [hs, jinfo_target, crash] at h
    · simp [hs, jinfo_target, pure_apply, bind_apply, error] at h

theorem object_set_get (a : Nat) (r : Option Nat) (m m2 : memory) (u : Unit)
    (h : object_set (ptr.ref a) r m = res.ok u m2) :
    m2.objects[a]? = some (some ⟨r⟩) ∧ m2.entries = m.entries := by
  simp only [object_set] at h
  split at h
  · rename_i j hj
    simp only [res.ok.injEq] at h
    have hlt : a < m.objects.length := by
      by_contra hc
      rw [List.getElem?_eq_none (not_lt.mp hc)] at hj
      exact absurd hj (by simp)
    rw [← h.2]
    simp [List.getElem?_set, hlt]
  · simp at h

theorem obtained_at_most_one (json : ptr) (m : memory) (h : obtained json m) :
    at_most_one json m := by
  induction h with
  | new m0 m hnew =>
    simp only [json_new, object_malloc, res.ok.injEq] at hnew
    refine ⟨m0.objects.length, hnew.1.symm, Or.inl ?_⟩
    rw [← hnew.2]
    simp
  | add fuel key value m m1 _ hadd ih =>
    obtain ⟨a, ha, hroot⟩ := ih
    subst ha
    rcases hroot with hobj | ⟨r, e, hobj, hent, hl, _⟩
    · match key, value with
      | none, _ => simp [json_add, error] at hadd
      | some k, none => simp [json_add, error] at hadd
      | some k, some v =>
        simp only [json_add, bind_apply, object, hobj] at hadd
        simp only [ite_apply_C, if_true, bind_apply, pure_apply] at hadd
        split at hadd
        · rename_i t m2 hnew
          split at hadd
          · rename_i u m3 hset
            cases t with
            | none => simp at hadd
            | some x =>
              simp only [reduceCtorEq, if_false, res.ok.injEq, true_and] at hadd
              subst hadd
              obtain ⟨e, he, hl, hr⟩ := jentry_new_leaf fuel none k (some v) m m2 x hnew
              obtain ⟨ho, hes⟩ := object_set_get a (some x) m2 m3 u hset
              exact ⟨a, rfl, Or.inr ⟨x, e, ho, by rw [hes]; exact he, hl, hr⟩⟩
          · simp at hadd
        · simp at hadd
    · exact (json_add_at_leaf fuel a r e key value m m1 hobj hent hl hadd).elim
  | remove fuel key m m1 _ hrem ih =>
    obtain ⟨a, ha, hroot⟩ := ih
    subst ha
    rcases hroot with hobj | ⟨r, e, hobj, hent, hl, _⟩
    · match key with
      | none => simp [json_remove, error] at hrem
      | some k =>
        simp [json_remove, bind_apply, object, hobj, ite_apply_C, pure_apply, error] at hrem
    · exact (json_remove_at_leaf fuel a r e key m m1 hobj hent hl hrem).elim

theorem list_set_same {α : Type} (l : List α) (i : Nat) (x : α) (h : l[i]? = some x) :
    l.set i x = l := by
  induction l generalizing i with
  | nil => rfl
  | cons y l ih =>
    cases i with
    | zero => simp at h; simp [h]
    | succ i => simp at h; simp [ih i h]

theorem json_lookup_absent (depth : Nat) (m : memory) (key : String) :
    ∀ (p : Option Nat) (t : tree), tree_of depth m.entries p = some t → absent key t →
      ∀ fuel, depth ≤ fuel → json_lookup fuel p key m = res.ok ⟨0, none⟩ m := by
  induction depth with
  | zero => intro p t ht; simp [tree_of] at ht
  | succ n ih =>
    intro p t ht habs fuel hfuel
    obtain ⟨f, rfl⟩ : ∃ f, fuel = f + 1 := ⟨fuel - 1, by omega⟩
    cases p with
    | none => simp [json_lookup, pure_apply]
    | some a =>
      simp only [tree_of] at ht
      split at ht
      · rename_i e he
        split at ht
        · rename_i l r hl hr
          simp only [Option.some.injEq] at ht
          subst ht
          have hk : strcmp key e.key ≠ 0 := habs (e.key, e.value) (by simp [inorder])
          have hla : absent key l := fun kv hkv => habs kv (by simp [inorder, hkv])
          have hra : absent key r := fun kv hkv => habs kv (by simp [inorder, hkv])
          simp only [json_lookup, bind_apply, entry, he, ite_apply_C]
          by_cases h1 : strcmp key e.key < 0
          · simp only [h1, if_true]
            exact ih _ l hl hla f (by omega)
          · by_cases h2 : strcmp key e.key > 0
            · simp only [h1, h2, if_true, if_false]
              exact ih _ r hr hra f (by omega)
            · exact absurd (by omega) hk
        · simp at ht
      · simp at ht

theorem json_seek_absent (depth fuel : Nat) (m : memory) (r : Nat) (t : tree) (key : String)
    (ht : tree_of depth m.entries (some r) = some t) (habs : absent key t)
    (hfuel : depth ≤ fuel) :
    json_seek fuel (some r) key false m = res.ok (jinfo_ptr.info ⟨0, none⟩) m := by
  obtain ⟨n, rfl⟩ : ∃ n, depth = n + 1 := by
    cases depth with
    | zero => simp [tree_of] at ht
    | succ n => exact ⟨n, rfl⟩
  simp only [tree_of] at ht
  split at ht
  · rename_i e he
    split at ht
    · rename_i tl tr hl hr
      simp only [Option.some.injEq] at ht
      subst ht
      have hk : strcmp key e.key ≠ 0 := habs (e.key, e.value) (by simp [inorder])
      have hla : absent key tl := fun kv hkv => habs kv (by simp [inorder, hkv])
      have hra : absent key tr := fun kv hkv => habs kv (by simp [inorder, hkv])
      have hsame : ({ m with entries := m.entries.set r (some
          { e with height := ((e.height : Int) + (0 : Int)).toNat }) } : memory) = m := by
        have : ({ e with height := ((e.height : Int) + (0 : Int)).toNat } : jentry_t) = e := by
          simp
        rw [this, list_set_same _ _ _ he]
      simp only [json_seek, bind_apply, entry, he, ite_apply_C]
      by_cases h1 : strcmp key e.key > 0
      · simp only [h1, if_true]
        by_cases hc : e.lchild = none
        · simp [hc, pure_apply]
        · simp only [hc, if_false, Bool.false_eq_true]
          rw [json_lookup_absent n m key _ tr hr hra fuel (by omega)]
          simp only [entry_set, he, pure_apply, hsame]
      · by_cases h2 : strcmp key e.key < 0
        · simp only [h1, h2, if_true, if_false]
          by_cases hc : e.lchild = none
          · simp [hc, pure_apply]
          · simp only [hc, if_false, Bool.false_eq_true]
            rw [json_lookup_absent n m key _ tl hl hla fuel (by omega)]
            simp only [entry_set, he, pure_apply, hsame]
        · exact absurd (by omega) hk
    · simp at ht
  · simp at ht

/-! ### Lemmas on arrays and comparison -/

theorem find_cmp_two_one (m : memory) :
    jvalue_find_cmp (some (jvalue_t.J_NUM 2)) (some (jvalue_t.J_NUM 1)) 1 m = res.ok 1 m := by
  simp [jvalue_find_cmp, jvalue_t.type, jvalue_getcmp, jvalue_numcmp, JFLT_EPSILON, INT_MAX]
  norm_num
  rfl

theorem jarray_findl_one_two (n : Nat) :
    jarray_findl (n + 2) (ptr.ref 0) (num 1)
      (memory_array [jvalue_t.J_NUM 1, jvalue_t.J_NUM 2]) = res.undef fault.null := by
  simp [jarray_findl, num, memory_array, array_of, bind_apply, array, jarray_findl_loop,
    values_get, pure_apply, crash, ite_apply_C, find_cmp_two_one]
  simp [jvalue_find_cmp, crash]

theorem with_array_self (m : memory) (a : Nat) (A : jarray_t)
    (h : m.arrays[a]? = some (some A)) : with_array m a A = m := by
  simp only [with_array, list_set_same _ _ _ h]

theorem with_array_get (m : memory) (a : Nat) (A : jarray_t) (ha : a < m.arrays.length) :
    (with_array m a A).arrays[a]? = some (some A) := by
  simp [with_array, List.getElem?_set, ha]

theorem with_array_twice (m : memory) (a : Nat) (A B : jarray_t) :
    with_array (with_array m a A) a B = with_array m a B := by
  simp [with_array]

theorem array_with (m : memory) (a : Nat) (A : jarray_t) (ha : a < m.arrays.length) :
    array (ptr.ref a) (with_array m a A) = res.ok A (with_array m a A) := by
  simp [array, with_array_get m a A ha]

theorem array_set_with (m : memory) (a : Nat) (A : jarray_t) (g : jarray_t → jarray_t)
    (ha : a < m.arrays.length) :
    array_set (ptr.ref a) g (with_array m a A) = res.ok () (with_array m a (g A)) := by
  simp only [array_set, with_array_get m a A ha]
  simp [with_array]

theorem values_get_with (m : memory) (a : Nat) (A : jarray_t) (i : Nat)
    (ha : a < m.arrays.length) :
    values_get (ptr.ref a) i (with_array m a A) =
      match A.values[i]? with
      | some v => res.ok v (with_array m a A)
      | none => res.undef fault.invalid := by
  simp only [values_get, bind_apply, array_with m a A ha]
  cases A.values[i]? <;> rfl

theorem values_set_with (m : memory) (a : Nat) (A : jarray_t) (i : Nat) (v : Option jvalue_t)
    (ha : a < m.arrays.length) :
    values_set (ptr.ref a) i v (with_array m a A) =
      if i < A.values.length then
        res.ok () (with_array m a { A with values := A.values.set i v })
      else res.undef fault.invalid := by
  simp only [values_set, bind_apply, array_with m a A ha, ite_apply_C]
  split
  · rw [array_set_with m a A _ ha]
  · rfl

theorem values_move_with (m : memory) (a : Nat) (A : jarray_t) (dst src : Nat)
    (v : Option jvalue_t) (ha : a < m.arrays.length) (hsrc : A.values[src]? = some v)
    (hdst : dst < A.values.length) :
    values_move (ptr.ref a) dst src (with_array m a A) =
      res.ok () (with_array m a { A with values := A.values.set dst v }) := by
  simp only [values_move, bind_apply, values_get_with m a A src ha, hsrc,
    values_set_with m a A dst v ha, hdst, if_true]

theorem lt_of_getElem?_some {α : Type} (l : List α) (i : Nat) (x : α) (h : l[i]? = some x) :
    i < l.length := by
  by_contra hc
  rw [List.getElem?_eq_none (not_lt.mp hc)] at h
  exact absurd h (by simp)

/-- The loop of `jarray_popf`: every slot from `s` up to `s + k - 1` receives the content
of the slot after it. -/
theorem popf_loop (m : memory) (a : Nat) (ha : a < m.arrays.length) :
    ∀ (k s : Nat) (A : jarray_t), s + k < A.values.length →
      ∃ us vs, for_each (fun i => values_move (ptr.ref a) i (i + 1)) (List.range' s k)
          (with_array m a A) = res.ok us (with_array m a { A with values := vs }) ∧
        vs.length = A.values.length ∧
        ∀ j, vs[j]? = if s ≤ j ∧ j < s + k then A.values[j + 1]? else A.values[j]? := by
  intro k
  induction k with
  | zero =>
    intro s A _
    refine ⟨[], A.values, rfl, rfl, fun j => ?_⟩
    rw [if_neg (by omega)]
  | succ k ih =>
    intro s A hlen
    obtain ⟨v, hv⟩ : ∃ v, A.values[s + 1]? = some v :=
      ⟨A.values[s + 1], List.getElem?_eq_getElem (by omega)⟩
    obtain ⟨us, vs, hrun, hvs, hget⟩ :=
      ih (s + 1) { A with values := A.values.set s v } (by simp; omega)
    refine ⟨() :: us, vs, ?_, by simpa using hvs, ?_⟩
    · simp only [List.range', for_each, bind_apply,
        values_move_with m a A s (s + 1) v ha hv (by omega), hrun, pure_apply]
    · intro j
      rw [hget j]
      simp only [List.getElem?_set]
      by_cases h1 : s + 1 ≤ j ∧ j < s + 1 + k
      · have h2 : s ≤ j ∧ j < s + (k + 1) := by omega
        have h3 : ¬ s = j + 1 := by omega
        simp [h1, h2, h3]
      · by_cases h4 : j = s
        · subst h4
          have h2 : j ≤ j ∧ j < j + (k + 1) := by omega
          simp [h2, hv]
          omega
        · have h2 : ¬ (s ≤ j ∧ j < s + (k + 1)) := by omega
          have h5 : ¬ s = j := fun h => h4 h.symm
          simp [h1, h2, h5]

theorem take_set_same {α : Type} (l : List α) (n : Nat) (x : α) :
    (l.set n x).take n = l.take n := by
  rw [List.set_take, List.set_eq_of_length_le (List.length_take_le n l)]

theorem jarray_items_length (A : jarray_t) (hwf : A.size ≤ A.values.length) :
    (jarray_items A).length = A.size := by
  simp [jarray_items, hwf]

theorem jarray_items_get (A : jarray_t) (i : Nat) (hi : i < A.size) :
    A.values[i]? = (jarray_items A)[i]? := by
  simp [jarray_items, List.getElem?_take_of_lt hi]

theorem values_get_at (m : memory) (a : Nat) (A : jarray_t) (i : Nat) (v : Option jvalue_t)
    (h : m.arrays[a]? = some (some A)) (hv : A.values[i]? = some v) :
    values_get (ptr.ref a) i m = res.ok v m := by
  simp [values_get, bind_apply, array, h, hv, pure_apply]

theorem jarray_sort_check_mixed (m : memory) (a : Nat) (A : jarray_t) (TYPE : jtype_t)
    (h : m.arrays[a]? = some (some A)) :
    ∀ l : List Nat, (∀ i ∈ l, ∃ x, A.values[i]? = some (some x)) →
      (∃ i ∈ l, ∃ x, A.values[i]? = some (some x) ∧ x.type ≠ TYPE) →
      jarray_sort_check (ptr.ref a) TYPE l m = res.ok false m := by
  intro l
  induction l with
  | nil => intro _ hex; obtain ⟨i, hi, _⟩ := hex; simp at hi
  | cons i l ih =>
    intro hall hex
    obtain ⟨x, hx⟩ := hall i (by simp)
    simp only [jarray_sort_check, bind_apply, values_get_at m a A i _ h hx, ite_apply_C]
    by_cases ht : x.type = TYPE
    · simp only [ht, ne_eq, not_true_eq_false, if_false]
      apply ih (fun j hj => hall j (by simp [hj]))
      obtain ⟨j, hj, y, hy, hty⟩ := hex
      rcases List.mem_cons.mp hj with rfl | hj
      · rw [hx] at hy
        simp only [Option.some.injEq] at hy
        subst hy
        exact absurd ht hty
      · exact ⟨j, hj, y, hy, hty⟩
    · simp [ht, pure_apply]

theorem keeps_refl (m : memory) : keeps m m := ⟨le_refl _, fun _ _ => Or.inl rfl⟩

theorem keeps_of_eq (m m1 : memory) (h : m1.arrays = m.arrays) : keeps m m1 := by
  unfold keeps
  rw [h]
  exact ⟨le_refl _, fun _ _ => Or.inl rfl⟩

theorem keeps_trans (m m1 m2 : memory) (h1 : keeps m m1) (h2 : keeps m1 m2) : keeps m m2 := by
  refine ⟨le_trans h1.1 h2.1, fun i hi => ?_⟩
  rcases h2.2 i (lt_of_lt_of_le hi h1.1) with h | h
  · rw [h]; exact h1.2 i hi
  · exact Or.inr h

theorem frames_pure {α : Type} (a : α) : frames (pure a : C α) := by
  constructor
  intro m r m1 h
  simp only [pure_apply, res.ok.injEq] at h
  rw [← h.2]
  exact keeps_refl m

theorem frames_crash {α : Type} (f : fault) : frames (crash f : C α) := by
  constructor
  intro m r m1 h
  simp [crash] at h

theorem frames_error {α : Type} (e : errno_t) (a : α) : frames (error e a : C α) := by
  constructor
  intro m r m1 h
  simp only [error, res.ok.injEq] at h
  rw [← h.2]
  exact keeps_of_eq _ _ rfl

theorem frames_bind {α β : Type} (x : C α) (f : α → C β) (hx : frames x)
    (hf : ∀ a, frames (f a)) : frames (x >>= f) := by
  constructor
  intro m r m1 h
  rw [bind_apply] at h
  split at h
  · rename_i a m2 hxm
    exact keeps_trans _ _ _ (hx.keep _ _ _ hxm) ((hf a).keep _ _ _ h)
  · simp at h

theorem frames_ite {α : Type} (c : Prop) [Decidable c] (x y : C α) (hx : frames x)
    (hy : frames y) : frames (if c then x else y) := by
  split
  · exact hx
  · exact hy

theorem frames_entry (p : Option Nat) : frames (entry p) := by
  constructor
  intro m r m1 h
  simp only [entry] at h
  split at h
  · simp at h
  · split at h
    · simp only [res.ok.injEq] at h
      rw [← h.2]; exact keeps_refl m
    · simp at h

theorem frames_entry_set (p : Option Nat) (g : jentry_t → jentry_t) : frames (entry_set p g) := by
  constructor
  intro m r m1 h
  simp only [entry_set] at h
  split at h
  · simp at h
  · split at h
    · simp only [res.ok.injEq] at h
      rw [← h.2]; exact keeps_of_eq _ _ rfl
    · simp at h

theorem frames_entry_malloc : frames entry_malloc := by
  constructor
  intro m r m1 h
  simp only [entry_malloc, res.ok.injEq] at h
  rw [← h.2]; exact keeps_of_eq _ _ rfl

theorem frames_entry_free (p : Option Nat) : frames (entry_free p) := by
  constructor
  intro m r m1 h
  simp only [entry_free] at h
  split at h
  · simp only [res.ok.injEq] at h
    rw [← h.2]; exact keeps_refl m
  · split at h
    · simp only [res.ok.injEq] at h
      rw [← h.2]; exact keeps_of_eq _ _ rfl
    · simp at h

theorem frames_object (p : ptr) : frames (object p) := by
  constructor
  intro m r m1 h
  simp only [object] at h
  split at h
  · simp at h
  · simp at h
  · split at h
    · simp only [res.ok.injEq] at h
      rw [← h.2]; exact keeps_refl m
    · simp at h

theorem frames_object_set (p : ptr) (r : Option Nat) : frames (object_set p r) := by
  constructor
  intro m u m1 h
  simp only [object_set] at h
  split at h
  · simp at h
  · simp at h
  · split at h
    · simp only [res.ok.injEq] at h
      rw [← h.2]; exact keeps_of_eq _ _ rfl
    · simp at h

theorem frames_object_malloc : frames object_malloc := by
  constructor
  intro m r m1 h
  simp only [object_malloc, res.ok.injEq] at h
  rw [← h.2]; exact keeps_of_eq _ _ rfl

theorem frames_object_free (p : ptr) : frames (object_free p) := by
  constructor
  intro m u m1 h
  simp only [object_free] at h
  split at h
  · simp only [res.ok.injEq] at h
    rw [← h.2]; exact keeps_refl m
  · simp at h
  · split at h
    · simp only [res.ok.injEq] at h
      rw [← h.2]; exact keeps_of_eq _ _ rfl
    · simp at h

theorem frames_array (p : ptr) : frames (array p) := by
  constructor
  intro m r m1 h
  simp only [array] at h
  split at h
  · simp at h
  · simp at h
  · split at h
    · simp only [res.ok.injEq] at h
      rw [← h.2]; exact keeps_refl m
    · simp at h

theorem frames_array_malloc (x : jarray_t) : frames (array_malloc x) := by
  constructor
  intro m r m1 h
  simp only [array_malloc, res.ok.injEq] at h
  rw [← h.2]
  refine ⟨by simp, fun i hi => Or.inl ?_⟩
  simp [List.getElem?_append_left hi]

theorem frames_array_free (p : ptr) : frames (array_free p) := by
  constructor
  intro m u m1 h
  simp only [array_free] at h
  split at h
  · simp only [res.ok.injEq] at h
    rw [← h.2]; exact keeps_refl m
  · simp at h
  · split at h
    · simp only [res.ok.injEq] at h
      rw [← h.2]
      refine ⟨by simp, fun i hi => ?_⟩
      simp only [List.getElem?_set]
      split
      · rename_i hai
        subst hai
        right
        simp [hi]
      · exact Or.inl rfl
    · simp at h

theorem frames_for_each {α β : Type} (f : α → C β) (hf : ∀ a, frames (f a)) :
    ∀ l : List α, frames (for_each f l) := by
  intro l
  induction l with
  | nil => exact frames_pure _
  | cons a l ih =>
    simp only [for_each]
    exact frames_bind _ _ (hf a) (fun _ => frames_bind _ _ ih (fun _ => frames_pure _))

theorem frames_jarray_free (arr : ptr) : frames (jarray_free arr) := by
  unfold jarray_free
  split
  · exact frames_pure _
  · simp only []
    repeat (first
      | exact frames_pure _ | exact frames_crash _ | exact frames_array _
      | exact frames_array_free _ | apply frames_bind | apply frames_ite | intro _ | split)

theorem frames_free (fuel : Nat) :
    (∀ p, frames (jentry_free fuel p)) ∧ (∀ j, frames (json_free fuel j)) ∧
      (∀ v, frames (jvalue_free fuel v)) := by
  induction fuel with
  | zero =>
    refine ⟨fun p => ?_, fun j => ?_, fun v => ?_⟩
    · simp only [jentry_free]; exact frames_crash _
    · simp only [json_free]; exact frames_crash _
    · simp only [jvalue_free]; exact frames_crash _
  | succ n ih =>
    refine ⟨fun p => ?_, fun j => ?_, fun v => ?_⟩
    · simp only [jentry_free]
      repeat (first
        | exact frames_pure _ | exact frames_crash _ | exact frames_entry _
        | exact frames_entry_free _ | exact ih.1 _ | exact ih.2.2 _
        | apply frames_bind | apply frames_ite | intro _ | split)
    · cases j with
      | NULL => simp only [json_free]; exact frames_pure _
      | int k =>
        simp only [json_free]
        repeat (first
          | exact frames_pure _ | exact frames_crash _ | exact frames_object _
          | exact frames_object_free _ | exact ih.1 _
          | apply frames_bind | apply frames_ite | intro _ | split)
      | ref k =>
        simp only [json_free]
        repeat (first
          | exact frames_pure _ | exact frames_crash _ | exact frames_object _
          | exact frames_object_free _ | exact ih.1 _
          | apply frames_bind | apply frames_ite | intro _ | split)
    · match v with
      | none => simp only [jvalue_free]; exact frames_pure _
      | some (jvalue_t.J_ARR p) => simp only [jvalue_free]; exact frames_jarray_free _
      | some (jvalue_t.J_OBJ p) => simp only [jvalue_free]; exact ih.2.1 _
      | some (jvalue_t.J_BOOL _) => simp only [jvalue_free]; exact frames_pure _
      | some (jvalue_t.J_NUM _) => simp only [jvalue_free]; exact frames_pure _
      | some (jvalue_t.J_STR _) => simp only [jvalue_free]; exact frames_pure _

set_option maxRecDepth 8192 in
theorem frames_copy (fuel : Nat) :
    (∀ v, frames (jvalue_copy fuel v)) ∧ (∀ p, frames (jarray_copy fuel p)) ∧
      (∀ p, frames (json_copy fuel p)) ∧ (∀ p q, frames (json_build fuel p q)) ∧
      (∀ p k v, frames (jentry_new fuel p k v)) := by
  induction fuel with
  | zero =>
    refine ⟨fun v => ?_, fun p => ?_, fun p => ?_, fun p q => ?_, fun p k v => ?_⟩
    · simp only [jvalue_copy]; exact frames_crash _
    · simp only [jarray_copy]; exact frames_crash _
    · simp only [json_copy]; exact frames_crash _
    · simp only [json_build]; exact frames_crash _
    · simp only [jentry_new]; exact frames_crash _
  | succ n ih =>
    obtain ⟨ih1, ih2, ih3, ih4, ih5⟩ := ih
    have hfree := frames_free n
    refine ⟨fun v => ?_, fun p => ?_, fun p => ?_, fun p q => ?_, fun p k v => ?_⟩
    · match v with
      | none => simp only [jvalue_copy]; exact frames_error _ _
      | some (jvalue_t.J_BOOL _) => simp only [jvalue_copy]; exact frames_pure _
      | some (jvalue_t.J_NUM _) => simp only [jvalue_copy]; exact frames_pure _
      | some (jvalue_t.J_STR _) => simp only [jvalue_copy]; exact frames_pure _
      | some (jvalue_t.J_ARR a) =>
        simp only [jvalue_copy]
        exact frames_bind _ _ (ih2 _) (fun _ => frames_pure _)
      | some (jvalue_t.J_OBJ o) =>
        simp only [jvalue_copy]
        exact frames_bind _ _ (ih3 _) (fun _ => frames_pure _)
    · cases p with
      | NULL => simp only [jarray_copy]; exact frames_error _ _
      | int k =>
        simp only [jarray_copy]
        repeat (first
          | exact frames_pure _ | exact frames_crash _ | exact frames_array _
          | exact frames_array_malloc _ | exact ih1 _ | apply frames_for_each
          | apply frames_bind | apply frames_ite | intro _ | split)
      | ref k =>
        simp only [jarray_copy]
        repeat (first
          | exact frames_pure _ | exact frames_crash _ | exact frames_array _
          | exact frames_array_malloc _ | exact ih1 _ | apply frames_for_each
          | apply frames_bind | apply frames_ite | intro _ | split)
    · cases p with
      | NULL => simp only [json_copy]; exact frames_error _ _
      | int k =>
        simp only [json_copy]
        repeat (first
          | exact frames_pure _ | exact frames_crash _ | exact frames_object _
          | exact frames_object_malloc | exact frames_object_set _ _
          | exact frames_object_free _ | exact frames_entry _ | exact ih4 _ _
          | exact ih5 _ _ _ | apply frames_bind | apply frames_ite | intro _ | split)
      | ref k =>
        simp only [json_copy]
        repeat (first
          | exact frames_pure _ | exact frames_crash _ | exact frames_object _
          | exact frames_object_malloc | exact frames_object_set _ _
          | exact frames_object_free _ | exact frames_entry _ | exact ih4 _ _
          | exact ih5 _ _ _ | apply frames_bind | apply frames_ite | intro _ | split)
    · simp only [json_build]
      repeat (first
        | exact frames_pure _ | exact frames_crash _ | exact frames_entry _
        | exact frames_entry_set _ _ | exact hfree.1 _ | exact ih4 _ _
        | exact ih5 _ _ _ | apply frames_bind | apply frames_ite | intro _ | split)
    · simp only [jentry_new]
      repeat (first
        | exact frames_pure _ | exact frames_crash _ | exact frames_entry_malloc
        | exact frames_entry_set _ _ | exact frames_entry_free _ | exact ih1 _
        | apply frames_bind | apply frames_ite | intro _ | split)

/-! ### Arrays obtained from `jarray_new` keep the default capacity -/

theorem small_errno (a : Nat) (m : memory) (e : errno_t) (h : small a m) :
    small a { m with errno := e } := h

theorem small_with (a : Nat) (m : memory) (A : jarray_t) (ha : a < m.arrays.length)
    (hc : A.capacity = JARRAY_DEFCAP) (hs : A.size ≤ JARRAY_DEFCAP) :
    small a (with_array m a A) :=
  ⟨A, with_array_get m a A ha, hc, hs⟩

theorem values_set_local (m : memory) (a : Nat) (A : jarray_t) (i : Nat)
    (v : Option jvalue_t) (ha : a < m.arrays.length) (u : Unit) (m1 : memory)
    (h : values_set (ptr.ref a) i v (with_array m a A) = res.ok u m1) :
    local_step m a A m1 ∧ i < A.values.length := by
  rw [values_set_with m a A i v ha] at h
  split at h
  · rename_i hi
    simp only [res.ok.injEq, true_and] at h
    exact ⟨⟨_, h.symm, rfl, rfl, by simp⟩, hi⟩
  · simp at h

theorem values_move_local (m : memory) (a : Nat) (A : jarray_t) (dst src : Nat)
    (ha : a < m.arrays.length) (u : Unit) (m1 : memory)
    (h : values_move (ptr.ref a) dst src (with_array m a A) = res.ok u m1) :
    local_step m a A m1 ∧ dst < A.values.length := by
  simp only [values_move, bind_apply, values_get_with m a A src ha] at h
  cases hv : A.values[src]? with
  | none => simp [hv] at h
  | some v =>
    simp only [hv] at h
    exact values_set_local m a A dst v ha u m1 h

theorem for_each_local (m : memory) (a : Nat) (body : Nat → C Unit)
    (hbody : ∀ i A u m1, body i (with_array m a A) = res.ok u m1 → local_step m a A m1) :
    ∀ (l : List Nat) (A : jarray_t) (us : List Unit) (m1 : memory),
      for_each body l (with_array m a A) = res.ok us m1 → local_step m a A m1 := by
  intro l
  induction l with
  | nil =>
    intro A us m1 h
    simp only [for_each, pure_apply, res.ok.injEq] at h
    exact ⟨A, h.2.symm, rfl, rfl, rfl⟩
  | cons i l ih =>
    intro A us m1 h
    simp only [for_each, bind_apply] at h
    split at h
    · rename_i u m2 hb
      obtain ⟨B, hB, h1, h2, h3⟩ := hbody i A u m2 hb
      rw [hB] at h
      split at h
      · rename_i us2 m3 hrest
        obtain ⟨B2, hB2, g1, g2, g3⟩ := ih B us2 m3 hrest
        simp only [pure_apply, res.ok.injEq] at h
        exact ⟨B2, by rw [← h.2, hB2], g1.trans h1, g2.trans h2, g3.trans h3⟩
      · simp at h
    · simp at h

theorem pushf_loop_bound (m : memory) (a : Nat) (ha : a < m.arrays.length) :
    ∀ (l : List Nat) (A : jarray_t) (us : List Unit) (m1 : memory),
      for_each (fun i => values_move (ptr.ref a) i (i - 1)) l (with_array m a A) =
        res.ok us m1 → ∀ i ∈ l, i < A.values.length := by
  intro l
  induction l with
  | nil => intro A us m1 _ i hi; simp at hi
  | cons j l ih =>
    intro A us m1 h i hi
    simp only [for_each, bind_apply] at h
    split at h
    · rename_i u m2 hb
      obtain ⟨⟨B, hB, _, _, h3⟩, hj⟩ := values_move_local m a A j (j - 1) ha u m2 hb
      rw [hB] at h
      split at h
      · rename_i us2 m3 hrest
        rcases List.mem_cons.mp hi with rfl | hi
        · exact hj
        · rw [← h3]
          exact ih B us2 m3 hrest i hi
      · simp at h
    · simp at h

theorem jarray_popb_small (a : Nat) (m m1 : memory) (r : Option jvalue_t) (hs : small a m)
    (h : jarray_popb (ptr.ref a) m = res.ok r m1) : small a m1 := by
  obtain ⟨A, hA, hc, hsz⟩ := hs
  have ha : a < m.arrays.length := lt_of_getElem?_some _ _ _ hA
  rw [← with_array_self m a A hA] at h
  simp only [jarray_popb, bind_apply, array_with _ _ _ ha, ite_apply_C] at h
  by_cases h0 : A.size = 0
  · simp only [h0, if_true, error, pure_apply, res.ok.injEq] at h
    rw [← h.2, with_array_self m a A hA]
    exact ⟨A, hA, hc, hsz⟩
  · simp only [h0, if_false, values_get_with _ _ _ _ ha] at h
    cases hv : A.values[A.size - 1]? with
    | none => simp [hv] at h
    | some v =>
      simp only [hv, array_set_with _ _ _ _ ha, array_with _ _ _ ha] at h
      split at h
      · rename_i u m2 hset
        obtain ⟨⟨B, hB, h1, h2, _⟩, _⟩ := values_set_local m a _ _ _ ha u m2 hset
        simp only [pure_apply, res.ok.injEq] at h
        rw [← h.2, hB]
        exact small_with a m B ha (h2.trans hc)
          (by rw [h1]; exact Nat.le_trans (Nat.sub_le _ _) hsz)
      · simp at h
theorem jarray_popf_small (a : Nat) (m m1 : memory) (r : Option jvalue_t) (hs : small a m)
    (h : jarray_popf (ptr.ref a) m = res.ok r m1) : small a m1 := by
  obtain ⟨A, hA, hc, hsz⟩ := hs
  have ha : a < m.arrays.length := lt_of_getElem?_some _ _ _ hA
  rw [← with_array_self m a A hA] at h
  simp only [jarray_popf, bind_apply, array_with _ _ _ ha, ite_apply_C] at h
  by_cases h0 : A.size = 0
  · simp only [h0, if_true, error, pure_apply, res.ok.injEq] at h
    rw [← h.2, with_array_self m a A hA]
    exact ⟨A, hA, hc, hsz⟩
  · simp only [h0, if_false, values_get_with _ _ _ _ ha] at h
    cases hv : A.values[0]? with
    | none => simp [hv] at h
    | some v =>
      simp only [hv, array_set_with _ _ _ _ ha, array_with _ _ _ ha] at h
      split at h
      · rename_i us m2 hloop
        obtain ⟨B, hB, h1, h2, _⟩ := for_each_local m a _
          (fun i A u m1 hb => (values_move_local m a A i (i + 1) ha u m1 hb).1) _ _ us m2 hloop
        simp only [pure_apply, res.ok.injEq] at h
        rw [← h.2, hB]
        exact small_with a m B ha (h2.trans hc) (by rw [h1]; exact Nat.le_trans (Nat.sub_le _ _) hsz)
      · simp at h

theorem jarray_remove_small (a : Nat) (index : Nat) (m m1 : memory) (b : Bool)
    (hs : small a m) (h : jarray_remove (ptr.ref a) index m = res.ok b m1) : small a m1 := by
  obtain ⟨A, hA, hc, hsz⟩ := hs
  have ha : a < m.arrays.length := lt_of_getElem?_some _ _ _ hA
  rw [← with_array_self m a A hA] at h
  simp only [jarray_remove, bind_apply, array_with _ _ _ ha, ite_apply_C] at h
  by_cases h0 : A.size = 0 ∨ index > A.size - 1
  · simp only [h0, if_true, error, pure_apply, res.ok.injEq] at h
    rw [← h.2, with_array_self m a A hA]
    exact ⟨A, hA, hc, hsz⟩
  · simp only [h0, if_false, values_get_with _ _ _ _ ha] at h
    cases hv : A.values[index]? with
    | none => simp [hv] at h
    | some v =>
      simp only [hv] at h
      split at h
      · rename_i us m2 hloop
        obtain ⟨B, hB, h1, h2, _⟩ := for_each_local m a _
          (fun i A u m1 hb => by
            simp only [bind_apply, array_with _ _ _ ha, ite_apply_C] at hb
            split at hb
            · exact (values_set_local m a A i none ha u m1 hb).1
            · exact (values_move_local m a A i (i + 1) ha u m1 hb).1) _ _ us m2 hloop
        rw [hB] at h
        simp only [array_set_with _ _ _ _ ha, pure_apply, res.ok.injEq] at h
        rw [← h.2]
        exact small_with a m _ ha (h2.trans hc)
          (by show B.size - 1 ≤ _; rw [h1]; exact Nat.le_trans (Nat.sub_le _ _) hsz)
      · simp at h
theorem keeps_array (m m2 : memory) (a : Nat) (A B : jarray_t) (hk : keeps m m2)
    (hA : m.arrays[a]? = some (some A)) (hB : m2.arrays[a]? = some (some B)) : B = A := by
  rcases hk.2 a (lt_of_getElem?_some _ _ _ hA) with h | h
  · rw [hA, hB] at h
    simpa using h
  · rw [hB] at h
    simp at h

theorem array_ok (a : Nat) (m m1 : memory) (B : jarray_t)
    (h : array (ptr.ref a) m = res.ok B m1) : m.arrays[a]? = some (some B) ∧ m1 = m := by
  simp only [array] at h
  split at h
  · rename_i x hx
    simp only [res.ok.injEq] at h
    rw [hx, ← h.1]
    exact ⟨rfl, h.2.symm⟩
  · simp at h

theorem size_max_words : SIZE_MAX / sizeof_ptr = 2305843009213693951 := by decide

theorem pushb_tail (fuel : Nat) (a : Nat) (v : jvalue_t) (m m1 : memory) (X : jarray_t)
    (b : Bool) (ha : a < m.arrays.length)
    (h : (do
        let r ← jvalue_copy fuel (some v)
        let a2 ← array (ptr.ref a)
        values_set (ptr.ref a) a2.size r
        array_set (ptr.ref a) (fun a => { a with size := (a.size + 1) % 2 ^ 64 })
        pure true) (with_array m a X) = res.ok b m1) :
    X.size < X.values.length ∧ ∃ m2 vs, a < m2.arrays.length ∧
      m1 = with_array m2 a ⟨(X.size + 1) % 2 ^ 64, X.capacity, vs⟩ := by
  simp only [bind_apply, pure_apply] at h
  cases hcopy : jvalue_copy fuel (some v) (with_array m a X) with
  | undef f => simp [hcopy] at h
  | ok r m2 =>
    simp only [hcopy] at h
    have hk := ((frames_copy fuel).1 (some v)).keep _ _ _ hcopy
    cases harr : array (ptr.ref a) m2 with
    | undef f => simp [harr] at h
    | ok B m3 =>
      obtain ⟨hB, hm3⟩ := array_ok a m2 m3 B harr
      rw [hm3] at harr
      have hBX : B = X := keeps_array _ _ a X B hk (with_array_get m a X ha) hB
      subst hBX
      have ha2 : a < m2.arrays.length := lt_of_getElem?_some _ _ _ hB
      simp only [harr] at h
      rw [← with_array_self m2 a B hB] at h
      simp only [values_set_with _ _ _ _ _ ha2] at h
      by_cases hlt : B.size < B.values.length
      · simp only [hlt, if_true, array_set_with _ _ _ _ ha2, res.ok.injEq] at h
        exact ⟨hlt, m2, _, ha2, h.2.symm⟩
      · simp [hlt] at h

theorem jarray_pushb_small (fuel : Nat) (a : Nat) (value : Option jvalue_t) (m m1 : memory)
    (b : Bool) (hs : small a m) (h : jarray_pushb fuel (ptr.ref a) value m = res.ok b m1) :
    small a m1 := by
  obtain ⟨A, hA, hc, hsz⟩ := hs
  have ha : a < m.arrays.length := lt_of_getElem?_some _ _ _ hA
  simp only [JARRAY_DEFCAP] at hc hsz
  cases value with
  | none =>
    simp only [jarray_pushb, error, res.ok.injEq] at h
    rw [← h.2]
    exact ⟨A, hA, hc, hsz⟩
  | some v =>
    rw [← with_array_self m a A hA] at h
    have hbig : ¬ A.size = 2305843009213693951 := by omega
    simp only [jarray_pushb, bind_apply, array_with _ _ _ ha, ite_apply_C, size_max_words,
      hbig, if_false, pure_apply] at h
    by_cases hfull : A.size = A.capacity
    · simp only [hfull, if_true, bind_apply, array_set_with _ _ _ _ ha, array_with _ _ _ ha,
        values_realloc] at h
      obtain ⟨hlt, _⟩ := pushb_tail fuel a v m m1 _ b ha
        (by simp only [bind_apply, pure_apply]; exact h)
      simp [hc, sizeof_ptr] at hlt
    · simp only [hfull, if_false, bind_apply, pure_apply] at h
      obtain ⟨_, m2, vs, ha2, hm1⟩ := pushb_tail fuel a v m m1 A b ha
        (by simp only [bind_apply, pure_apply]; exact h)
      rw [hm1]
      exact small_with a m2 _ ha2 hc (by simp only [JARRAY_DEFCAP]; omega)
theorem values_set_ok (a : Nat) (i : Nat) (v : Option jvalue_t) (m m1 : memory) (u : Unit)
    (h : values_set (ptr.ref a) i v m = res.ok u m1) :
    ∃ B, m.arrays[a]? = some (some B) ∧ i < B.values.length ∧
      m1 = with_array m a { B with values := B.values.set i v } := by
  cases harr : array (ptr.ref a) m with
  | undef f => simp [values_set, bind_apply, harr] at h
  | ok B m2 =>
    obtain ⟨hB, _⟩ := array_ok a m m2 B harr
    have ha : a < m.arrays.length := lt_of_getElem?_some _ _ _ hB
    rw [← with_array_self m a B hB, values_set_with _ _ _ _ _ ha] at h
    by_cases hlt : i < B.values.length
    · simp only [hlt, if_true, res.ok.injEq, true_and] at h
      exact ⟨B, hB, hlt, h.symm⟩
    · simp [hlt] at h

theorem pushf_tail (fuel : Nat) (a : Nat) (v : jvalue_t) (m m1 : memory) (X : jarray_t)
    (b : Bool) (ha : a < m.arrays.length)
    (h : (do
        let _ ← for_each (fun i => values_move (ptr.ref a) i (i - 1))
          (List.range' 1 (X.size - 1))
        let r ← jvalue_copy fuel (some v)
        values_set (ptr.ref a) 0 r
        pure true) (with_array m a X) = res.ok b m1) :
    (∀ i ∈ List.range' 1 (X.size - 1), i < X.values.length) ∧
      ∃ m2 vs, a < m2.arrays.length ∧ m1 = with_array m2 a ⟨X.size, X.capacity, vs⟩ := by
  simp only [bind_apply, pure_apply] at h
  split at h
  · rename_i us m2 hloop
    have hbound := pushf_loop_bound m a ha _ _ us m2 hloop
    obtain ⟨B, hB, h1, h2, h3⟩ := for_each_local m a _
      (fun i A u m1 hb => (values_move_local m a A i (i - 1) ha u m1 hb).1) _ _ us m2 hloop
    refine ⟨hbound, ?_⟩
    cases hcopy : jvalue_copy fuel (some v) m2 with
    | undef f => simp [hcopy] at h
    | ok r m3 =>
      simp only [hcopy] at h
      have hk := ((frames_copy fuel).1 (some v)).keep _ _ _ hcopy
      split at h
      · rename_i u m4 hset
        obtain ⟨B2, hB2, _, hm4⟩ := values_set_ok a 0 r m3 m4 u hset
        have hBB : B2 = B := by
          apply keeps_array m2 m3 a B B2 hk _ hB2
          rw [hB]
          exact with_array_get m a B ha
        subst hBB
        simp only [res.ok.injEq] at h
        refine ⟨m3, B2.values.set 0 r, lt_of_getElem?_some _ _ _ hB2, ?_⟩
        rw [← h.2, hm4, h1, h2]
      · simp at h
  · simp at h

theorem jarray_pushf_small (fuel : Nat) (a : Nat) (value : Option jvalue_t) (m m1 : memory)
    (b : Bool) (hs : small a m) (h : jarray_pushf fuel (ptr.ref a) value m = res.ok b m1) :
    small a m1 := by
  obtain ⟨A, hA, hc, hsz⟩ := hs
  have ha : a < m.arrays.length := lt_of_getElem?_some _ _ _ hA
  simp only [JARRAY_DEFCAP] at hc hsz
  cases value with
  | none =>
    simp only [jarray_pushf, error, res.ok.injEq] at h
    rw [← h.2]
    exact ⟨A, hA, hc, hsz⟩
  | some v =>
    rw [← with_array_self m a A hA] at h
    have hbig : ¬ A.size = 2305843009213693951 := by omega
    simp only [jarray_pushf, bind_apply, array_with _ _ _ ha, ite_apply_C, size_max_words,
      hbig, if_false, pure_apply] at h
    by_cases hfull : A.size = A.capacity
    · simp only [hfull, if_true, bind_apply, array_set_with _ _ _ _ ha, array_with _ _ _ ha,
        values_realloc] at h
      obtain ⟨hlt, _⟩ := pushf_tail fuel a v m m1
        ⟨(A.capacity + 1) % 2 ^ 64, A.capacity * 2 % 2 ^ 64,
          List.take (A.capacity * 2 % 2 ^ 64 / sizeof_ptr)
            (A.values ++ List.replicate (A.capacity * 2 % 2 ^ 64 / sizeof_ptr) none)⟩ b ha
        (by simp only [bind_apply, pure_apply]; exact h)
      have h8 := hlt 8 (by simp [hc])
      simp [hc, sizeof_ptr] at h8
    · simp only [hfull, if_false, bind_apply, pure_apply, array_set_with _ _ _ _ ha,
        array_with _ _ _ ha] at h
      obtain ⟨_, m2, vs, ha2, hm1⟩ := pushf_tail fuel a v m m1
        ⟨(A.size + 1) % 2 ^ 64, A.capacity, A.values⟩ b ha
        (by simp only [bind_apply, pure_apply]; exact h)
      rw [hm1]
      exact small_with a m2 _ ha2 hc (by simp only [JARRAY_DEFCAP]; omega)

theorem jarray_obtained_small (arr : ptr) (m : memory) (h : jarray_obtained arr m) :
    ∃ a, arr = ptr.ref a ∧ small a m := by
  induction h with
  | new m0 m hnew =>
    simp only [jarray_new, array_malloc, res.ok.injEq] at hnew
    refine ⟨m0.arrays.length, hnew.1.symm,
      ⟨⟨0, JARRAY_DEFCAP, List.replicate JARRAY_DEFCAP none⟩, ?_, rfl, Nat.zero_le _⟩⟩
    rw [← hnew.2]
    simp
  | pushb fuel value b m m1 _ hstep ih =>
    obtain ⟨a, rfl, hs⟩ := ih
    exact ⟨a, rfl, jarray_pushb_small fuel a value m m1 b hs hstep⟩
  | pushf fuel value b m m1 _ hstep ih =>
    obtain ⟨a, rfl, hs⟩ := ih
    exact ⟨a, rfl, jarray_pushf_small fuel a value m m1 b hs hstep⟩
  | popb r m m1 _ hstep ih =>
    obtain ⟨a, rfl, hs⟩ := ih
    exact ⟨a, rfl, jarray_popb_small a m m1 r hs hstep⟩
  | popf r m m1 _ hstep ih =>
    obtain ⟨a, rfl, hs⟩ := ih
    exact ⟨a, rfl, jarray_popf_small a m m1 r hs hstep⟩
  | remove index b m m1 _ hstep ih =>
    obtain ⟨a, rfl, hs⟩ := ih
    exact ⟨a, rfl, jarray_remove_small a index m m1 b hs hstep⟩

theorem lookup_lt {α : Type} (l : List α) (i : Nat) (x : α) (h : l[i]? = some x) :
    i < l.length := by
  by_contra hc
  rw [List.getElem?_eq_none (not_lt.mp hc)] at h
  exact absurd h (by simp)

/-- On a node `n` whose parent `p`, moved child and grandparent are live entries at
distinct addresses, `ll_rotate` returns and leaves the entries described by `rotated`. -/
theorem ll_rotate_runs (m : memory) (n p : Nat) (e_n e_p : jentry_t)
    (hn : m.entries[n]? = some (some e_n)) (hp : e_n.parent = some p)
    (hpe : m.entries[p]? = some (some e_p)) (hnp : n ≠ p)
    (hc : ∀ c, e_n.lchild = some c → c ≠ n ∧ c ≠ p ∧ ∃ e, m.entries[c]? = some (some e))
    (hg : ∀ g, e_p.parent = some g →
      g ≠ n ∧ g ≠ p ∧ e_n.lchild ≠ some g ∧ ∃ e, m.entries[g]? = some (some e)) :
    ∃ m1, ll_rotate (some n) m = res.ok () m1 ∧
      rotated m.entries m1.entries n p e_n.lchild e_p.parent
        { e_n with lchild := some p, parent := e_p.parent }
        { e_p with rchild := e_n.lchild, parent := some n } := by
  have hnl := lookup_lt _ _ _ hn
  have hpl := lookup_lt _ _ _ hpe
  have hpn : p ≠ n := fun h => hnp h.symm
  cases hcc : e_n.lchild with
  | none =>
    cases hgg : e_p.parent with
    | none =>
      simp only [ll_rotate, bind_apply, pure_apply, ite_apply_C, entry, entry_set, hn, hpe, hp,
        hcc, hgg, List.getElem?_set_self, List.getElem?_set_ne, List.length_set, hnl, hpl, hnp,
        hpn, ne_eq, not_false_eq_true, not_true_eq_false, if_true, if_false]
      refine ⟨_, rfl, ?_, ?_, ?_, ?_, ?_⟩
      · simp only [List.getElem?_set_self, List.getElem?_set_ne, List.length_set, hnl, hpl,
          hnp, hpn, ne_eq, not_false_eq_true]
      · simp only [List.getElem?_set_self, List.getElem?_set_ne, List.length_set, hnl, hpl,
          hnp, hpn, ne_eq, not_false_eq_true]
      · intro x e hx; simp at hx
      · intro x e hx; simp at hx
      · intro x h1 h2 _ _
        simp only [List.getElem?_set_ne (Ne.symm h1), List.getElem?_set_ne (Ne.symm h2)]
    | some g =>
      obtain ⟨hgn, hgp, _, e_g, hge⟩ := hg g hgg
      have hgl := lookup_lt _ _ _ hge
      have hng : n ≠ g := fun h => hgn h.symm
      have hpg : p ≠ g := fun h => hgp h.symm
      by_cases hl : some p = e_g.lchild
      · have hl1 : e_g.lchild = some p := hl.symm
        simp only [ll_rotate, bind_apply, pure_apply, ite_apply_C, entry, entry_set, hn, hpe, hp,
          hcc, hgg, hge, hl1, List.getElem?_set_self, List.getElem?_set_ne, List.length_set, hnl,
          hpl, hgl, hnp, hpn, hgn, hgp, hng, hpg, ne_eq, not_false_eq_true, not_true_eq_false,
          if_true, if_false, reduceCtorEq]
        refine ⟨_, rfl, ?_, ?_, ?_, ?_, ?_⟩
        · simp only [List.getElem?_set_self, List.getElem?_set_ne, List.length_set, hnl, hpl,
            hgl, hnp, hpn, hgn, hgp, hng, hpg, ne_eq, not_false_eq_true]
        · simp only [List.getElem?_set_self, List.getElem?_set_ne, List.length_set, hnl, hpl,
            hgl, hnp, hpn, hgn, hgp, hng, hpg, ne_eq, not_false_eq_true]
        · intro x e hx; simp at hx
        · intro x e hx he
          simp only [Option.some.injEq] at hx
          subst hx
          rw [hge] at he
          simp only [Option.some.injEq] at he
          subst he
          simp only [List.getElem?_set_self, List.length_set, hgl, hl1, if_true]
        · intro x h1 h2 _ h4
          have h4 : g ≠ x := fun h => h4 (by rw [h])
          simp only [List.getElem?_set_ne (Ne.symm h1), List.getElem?_set_ne (Ne.symm h2),
            List.getElem?_set_ne h4]
      · simp only [ll_rotate, bind_apply, pure_apply, ite_apply_C, entry, entry_set, hn, hpe, hp,
          hcc, hgg, hge, hl, List.getElem?_set_self, List.getElem?_set_ne, List.length_set, hnl,
          hpl, hgl, hnp, hpn, hgn, hgp, hng, hpg, ne_eq, not_false_eq_true, not_true_eq_false,
          if_true, if_false, reduceCtorEq]
        refine ⟨_, rfl, ?_, ?_, ?_, ?_, ?_⟩
        · simp only [List.getElem?_set_self, List.getElem?_set_ne, List.length_set, hnl, hpl,
            hgl, hnp, hpn, hgn, hgp, hng, hpg, ne_eq, not_false_eq_true]
        · simp only [List.getElem?_set_self, List.getElem?_set_ne, List.length_set, hnl, hpl,
            hgl, hnp, hpn, hgn, hgp, hng, hpg, ne_eq, not_false_eq_true]
        · intro x e hx; simp at hx
        · intro x e hx he
          simp only [Option.some.injEq] at hx
          subst hx
          rw [hge] at he
          simp only [Option.some.injEq] at he
          subst he
          simp only [List.getElem?_set_self, List.length_set, hgl, hl, if_false]
        · intro x h1 h2 _ h4
          have h4 : g ≠ x := fun h => h4 (by rw [h])
          simp only [List.getElem?_set_ne (Ne.symm h1), List.getElem?_set_ne (Ne.symm h2),
            List.getElem?_set_ne h4]
  | some c =>
    obtain ⟨hcn, hcp, e_c, hce⟩ := hc c hcc
    have hcl := lookup_lt _ _ _ hce
    have hnc : n ≠ c := fun h => hcn h.symm
    have hpc : p ≠ c := fun h => hcp h.symm
    cases hgg : e_p.parent with
    | none =>
      simp only [ll_rotate, bind_apply, pure_apply, ite_apply_C, entry, entry_set, hn, hpe, hp,
        hcc, hgg, hce, List.getElem?_set_self, List.getElem?_set_ne, List.length_set, hnl, hpl,
        hcl, hnp, hpn, hcn, hcp, hnc, hpc, ne_eq, not_false_eq_true, not_true_eq_false,
        if_true, if_false, reduceCtorEq]
      refine ⟨_, rfl, ?_, ?_, ?_, ?_, ?_⟩
      · simp only [List.getElem?_set_self, List.getElem?_set_ne, List.length_set, hnl, hpl,
          hcl, hnp, hpn, hcn, hcp, hnc, hpc, ne_eq, not_false_eq_true]
      · simp only [List.getElem?_set_self, List.getElem?_set_ne, List.length_set, hnl, hpl,
          hcl, hnp, hpn, hcn, hcp, hnc, hpc, ne_eq, not_false_eq_true]
      · intro x e hx he
        simp only [Option.some.injEq] at hx
        subst hx
        rw [hce] at he
        simp only [Option.some.injEq] at he
        subst he
        simp only [List.getElem?_set_self, List.length_set, hcl]
      · intro x e hx; simp at hx
      · intro x h1 h2 h3 _
        have h3 : c ≠ x := fun h => h3 (by rw [h])
        simp only [List.getElem?_set_ne (Ne.symm h1), List.getElem?_set_ne (Ne.symm h2),
          List.getElem?_set_ne h3]
    | some g =>
      rw [hcc] at hg
      obtain ⟨hgn, hgp, hcg, e_g, hge⟩ := hg g hgg
      have hgl := lookup_lt _ _ _ hge
      have hng : n ≠ g := fun h => hgn h.symm
      have hpg : p ≠ g := fun h => hgp h.symm
      have hcg : c ≠ g := fun h => hcg (by rw [h])
      have hgc : g ≠ c := fun h => hcg h.symm
      by_cases hl : some p = e_g.lchild
      · have hl1 : e_g.lchild = some p := hl.symm
        simp only [ll_rotate, bind_apply, pure_apply, ite_apply_C, entry, entry_set, hn, hpe, hp,
          hcc, hgg, hge, hce, hl1, List.getElem?_set_self, List.getElem?_set_ne, List.length_set,
          hnl, hpl, hgl, hcl, hnp, hpn, hgn, hgp, hng, hpg, hcn, hcp, hnc, hpc, hcg, hgc, ne_eq,
          not_false_eq_true, not_true_eq_false, if_true, if_false, reduceCtorEq]
        refine ⟨_, rfl, ?_, ?_, ?_, ?_, ?_⟩
        · simp only [List.getElem?_set_self, List.getElem?_set_ne, List.length_set, hnl, hpl,
            hgl, hcl, hnp, hpn, hgn, hgp, hng, hpg, hcn, hcp, hnc, hpc, hcg, hgc, ne_eq,
            not_false_eq_true]
        · simp only [List.getElem?_set_self, List.getElem?_set_ne, List.length_set, hnl, hpl,
            hgl, hcl, hnp, hpn, hgn, hgp, hng, hpg, hcn, hcp, hnc, hpc, hcg, hgc, ne_eq,
            not_false_eq_true]
        · intro x e hx he
          simp only [Option.some.injEq] at hx
          subst hx
          rw [hce] at he
          simp only [Option.some.injEq] at he
          subst he
          simp only [List.getElem?_set_self, List.getElem?_set_ne, List.length_set, hcl, hgc,
            ne_eq, not_false_eq_true]
        · intro x e hx he
          simp only [Option.some.injEq] at hx
          subst hx
          rw [hge] at he
          simp only [Option.some.injEq] at he
          subst he
          simp only [List.getElem?_set_self, List.length_set, hgl, hl1, if_true]
        · intro x h1 h2 h3 h4
          have h3 : c ≠ x := fun h => h3 (by rw [h])
          have h4 : g ≠ x := fun h => h4 (by rw [h])
          simp only [List.getElem?_set_ne (Ne.symm h1), List.getElem?_set_ne (Ne.symm h2),
            List.getElem?_set_ne h3, List.getElem?_set_ne h4]
      · simp only [ll_rotate, bind_apply, pure_apply, ite_apply_C, entry, entry_set, hn, hpe, hp,
          hcc, hgg, hge, hce, hl, List.getElem?_set_self, List.getElem?_set_ne, List.length_set,
          hnl, hpl, hgl, hcl, hnp, hpn, hgn, hgp, hng, hpg, hcn, hcp, hnc, hpc, hcg, hgc, ne_eq,
          not_false_eq_true, not_true_eq_false, if_true, if_false, reduceCtorEq]
        refine ⟨_, rfl, ?_, ?_, ?_, ?_, ?_⟩
        · simp only [List.getElem?_set_self, List.getElem?_set_ne, List.length_set, hnl, hpl,
            hgl, hcl, hnp, hpn, hgn, hgp, hng, hpg, hcn, hcp, hnc, hpc, hcg, hgc, ne_eq,
            not_false_eq_true]
        · simp only [List.getElem?_set_self, List.getElem?_set_ne, List.length_set, hnl, hpl,
            hgl, hcl, hnp, hpn, hgn, hgp, hng, hpg, hcn, hcp, hnc, hpc, hcg, hgc, ne_eq,
            not_false_eq_true]
        · intro x e hx he
          simp only [Option.some.injEq] at hx
          subst hx
          rw [hce] at he
          simp only [Option.some.injEq] at he
          subst he
          simp only [List.getElem?_set_self, List.getElem?_set_ne, List.length_set, hcl, hgc,
            ne_eq, not_false_eq_true]
        · intro x e hx he
          simp only [Option.some.injEq] at hx
          subst hx
          rw [hge] at he
          simp only [Option.some.injEq] at he
          subst he
          simp only [List.getElem?_set_self, List.length_set, hgl, hl, if_false]
        · intro x h1 h2 h3 h4
          have h3 : c ≠ x := fun h => h3 (by rw [h])
          have h4 : g ≠ x := fun h => h4 (by rw [h])
          simp only [List.getElem?_set_ne (Ne.symm h1), List.getElem?_set_ne (Ne.symm h2),
            List.getElem?_set_ne h3, List.getElem?_set_ne h4]

theorem linked_nil (es : List (Option jentry_t)) (q par : Option Nat) :
    linked es q par shape.nil = true ↔ q = none := by
  simp [linked]

theorem linked_node (es : List (Option jentry_t)) (q par : Option Nat) (l r : shape) (a : Nat) :
    linked es q par (shape.node l a r) = true ↔
      q = some a ∧ ∃ e, es[a]? = some (some e) ∧ e.parent = par ∧
        linked es e.lchild (some a) l = true ∧ linked es e.rchild (some a) r = true := by
  simp only [linked]
  cases h : es[a]? with
  | none => simp
  | some o =>
    cases o with
    | none => simp
    | some e => simp [and_assoc]

theorem linked_root_mem (es : List (Option jentry_t)) (y : Nat) (par : Option Nat) (s : shape)
    (h : linked es (some y) par s = true) : y ∈ addresses s := by
  cases s with
  | nil => simp [linked] at h
  | node l a r =>
    rw [linked_node] at h
    simp only [Option.some.injEq] at h
    simp [addresses, h.1]

/-- A linked tree stays linked when no entry at one of its addresses changes. -/
theorem linked_frame (es es1 : List (Option jentry_t)) (s : shape) :
    ∀ q par, (∀ a ∈ addresses s, es1[a]? = es[a]?) → linked es q par s = true →
      linked es1 q par s = true := by
  induction s with
  | nil => intro q par _ h; simpa [linked] using h
  | node l a r ihl ihr =>
    intro q par hf h
    rw [linked_node] at h ⊢
    obtain ⟨hq, e, he, hp, hl, hr⟩ := h
    refine ⟨hq, e, ?_, hp, ihl _ _ (fun x hx => hf x (by simp [addresses, hx])) hl,
      ihr _ _ (fun x hx => hf x (by simp [addresses, hx])) hr⟩
    rw [hf a (by simp [addresses])]
    exact he

theorem linked_entry (es : List (Option jentry_t)) (s : shape) :
    ∀ q par x, linked es q par s = true → x ∈ addresses s → ∃ e, es[x]? = some (some e) := by
  induction s with
  | nil => intro q par x _ hx; simp [addresses] at hx
  | node l a r ihl ihr =>
    intro q par x h hx
    rw [linked_node] at h
    obtain ⟨_, e, he, _, hl, hr⟩ := h
    simp only [addresses, List.mem_append, List.mem_cons] at hx
    rcases hx with hx | rfl | hx
    · exact ihl _ _ x hl hx
    · exact ⟨e, he⟩
    · exact ihr _ _ x hr hx

theorem linked_parent (es : List (Option jentry_t)) (s : shape) :
    ∀ q par x e, linked es q par s = true → x ∈ addresses s → es[x]? = some (some e) →
      (q = some x ∧ e.parent = par) ∨ ∃ y, e.parent = some y ∧ y ∈ addresses s := by
  induction s with
  | nil => intro q par x e _ hx; simp [addresses] at hx
  | node l a r ihl ihr =>
    intro q par x e h hx hxe
    rw [linked_node] at h
    obtain ⟨hq, e_a, he, hpa, hl, hr⟩ := h
    simp only [addresses, List.mem_append, List.mem_cons] at hx
    rcases hx with hx | rfl | hx
    · right
      rcases ihl _ _ x e hl hx hxe with ⟨_, h2⟩ | ⟨y, h1, h2⟩
      · exact ⟨a, h2, by simp [addresses]⟩
      · exact ⟨y, h1, by simp [addresses, h2]⟩
    · left
      rw [he] at hxe
      simp only [Option.some.injEq] at hxe
      subst hxe
      exact ⟨hq, hpa⟩
    · right
      rcases ihr _ _ x e hr hx hxe with ⟨_, h2⟩ | ⟨y, h1, h2⟩
      · exact ⟨a, h2, by simp [addresses]⟩
      · exact ⟨y, h1, by simp [addresses, h2]⟩

theorem linked_children (es : List (Option jentry_t)) (s : shape) :
    ∀ q par x e, linked es q par s = true → x ∈ addresses s → es[x]? = some (some e) →
      (∀ y, e.lchild = some y → y ∈ addresses s) ∧ (∀ y, e.rchild = some y → y ∈ addresses s) := by
  induction s with
  | nil => intro q par x e _ hx; simp [addresses] at hx
  | node l a r ihl ihr =>
    intro q par x e h hx hxe
    rw [linked_node] at h
    obtain ⟨hq, e_a, he, hpa, hl, hr⟩ := h
    simp only [addresses, List.mem_append, List.mem_cons] at hx
    rcases hx with hx | rfl | hx
    · obtain ⟨h1, h2⟩ := ihl _ _ x e hl hx hxe
      exact ⟨fun y hy => by simp [addresses, h1 y hy], fun y hy => by simp [addresses, h2 y hy]⟩
    · rw [he] at hxe
      simp only [Option.some.injEq] at hxe
      subst hxe
      constructor
      · intro y hy
        rw [hy] at hl
        have := linked_root_mem _ _ _ _ hl
        simp [addresses, this]
      · intro y hy
        rw [hy] at hr
        have := linked_root_mem _ _ _ _ hr
        simp [addresses, this]
    · obtain ⟨h1, h2⟩ := ihr _ _ x e hr hx hxe
      exact ⟨fun y hy => by simp [addresses, h1 y hy], fun y hy => by simp [addresses, h2 y hy]⟩

theorem nodup_node (l r : shape) (a : Nat) (h : (addresses (shape.node l a r)).Nodup) :
    (addresses l).Nodup ∧ (addresses r).Nodup ∧ a ∉ addresses l ∧ a ∉ addresses r ∧
      (∀ x, x ∈ addresses l → x ∉ addresses r) := by
  simp only [addresses] at h
  rw [List.nodup_append] at h
  obtain ⟨h1, h2, h3⟩ := h
  rw [List.nodup_cons] at h2
  refine ⟨h1, h2.2, ?_, h2.1, ?_⟩
  · intro ha
    exact h3 ha (by simp)
  · intro x hx hr
    exact h3 hx (by simp [hr])

/-- Every node `p` of a linked tree without repeated addresses is the root of a linked
subtree, which does not contain the parent of `p`. -/
theorem linked_subtree (es : List (Option jentry_t)) (s : shape) :
    ∀ q par p e_p, linked es q par s = true → (addresses s).Nodup → p ∈ addresses s →
      es[p]? = some (some e_p) → (∀ g, par = some g → g ∉ addresses s) →
      ∃ sp, linked es (some p) e_p.parent sp = true ∧ (addresses sp).Nodup ∧
        (∀ x ∈ addresses sp, x ∈ addresses s) ∧ (∀ g, e_p.parent = some g → g ∉ addresses sp) := by
  induction s with
  | nil => intro q par p e_p _ _ hx; simp [addresses] at hx
  | node l a r ihl ihr =>
    intro q par p e_p h hnd hx hpe hpar
    have h0 := h
    rw [linked_node] at h
    obtain ⟨hq, e_a, he, hpa, hl, hr⟩ := h
    obtain ⟨hndl, hndr, hal, har, hlr⟩ := nodup_node l r a hnd
    simp only [addresses, List.mem_append, List.mem_cons] at hx
    rcases hx with hx | rfl | hx
    · obtain ⟨sp, h1, h2, h3, h4⟩ := ihl _ _ p e_p hl hndl hx hpe
        (fun g hg => by simp only [Option.some.injEq] at hg; subst hg; exact hal)
      exact ⟨sp, h1, h2, fun x hx => by simp [addresses, h3 x hx], h4⟩
    · rw [he] at hpe
      simp only [Option.some.injEq] at hpe
      subst hpe
      subst hq
      rw [← hpa] at hpar
      exact ⟨shape.node l p r, by rw [hpa]; exact h0, hnd, fun x hx => hx, hpar⟩
    · obtain ⟨sp, h1, h2, h3, h4⟩ := ihr _ _ p e_p hr hndr hx hpe
        (fun g hg => by simp only [Option.some.injEq] at hg; subst hg; exact har)
      exact ⟨sp, h1, h2, fun x hx => by simp [addresses, h3 x hx], h4⟩

theorem linked_root_parent (es : List (Option jentry_t)) (x : Nat) (par : Option Nat)
    (s : shape) (e : jentry_t) (h : linked es (some x) par s = true)
    (he : es[x]? = some (some e)) : e.parent = par := by
  cases s with
  | nil => simp [linked] at h
  | node l a r =>
    rw [linked_node] at h
    obtain ⟨hq, e_a, hea, hpa, _, _⟩ := h
    simp only [Option.some.injEq] at hq
    subst hq
    rw [he] at hea
    simp only [Option.some.injEq] at hea
    subst hea
    exact hpa

theorem rotated_frame (es es1 : List (Option jentry_t)) (n p : Nat) (c g : Option Nat)
    (n1 p1 : jentry_t) (hrot : rotated es es1 n p c g n1 p1) (s : shape) (q par : Option Nat)
    (h : linked es q par s = true) (h1 : n ∉ addresses s) (h2 : p ∉ addresses s)
    (h3 : ∀ x, c = some x → x ∉ addresses s) (h4 : ∀ x, g = some x → x ∉ addresses s) :
    linked es1 q par s = true :=
  linked_frame es es1 s q par
    (fun a ha => hrot.frame a (fun e => h1 (e ▸ ha)) (fun e => h2 (e ▸ ha))
      (fun e => h3 a e ha) (fun e => h4 a e ha)) h

/-- When a rotation at `n` below `p` turns every linked subtree under `p` into one under
`n` with the same addresses, it turns every linked tree that has `p` below its root into a
linked tree with the same root and addresses. -/
theorem rotated_path (es es1 : List (Option jentry_t)) (n p : Nat) (c : Option Nat)
    (e_p n1 p1 : jentry_t) (hpe : es[p]? = some (some e_p))
    (hrot : rotated es es1 n p c e_p.parent n1 p1)
    (hsub : ∀ sp, linked es (some p) e_p.parent sp = true → (addresses sp).Nodup →
      (∀ g, e_p.parent = some g → g ∉ addresses sp) →
      ∃ s1, linked es1 (some n) e_p.parent s1 = true ∧ addresses s1 = addresses sp)
    (hmem : ∀ s q par, linked es q par s = true → p ∈ addresses s →
      n ∈ addresses s ∧ ∀ x, c = some x → x ∈ addresses s)
    (s : shape) :
    ∀ q par, linked es q par s = true → (addresses s).Nodup → p ∈ addresses s →
      q ≠ some p → ∃ s1, linked es1 q par s1 = true ∧ addresses s1 = addresses s := by
  induction s with
  | nil => intro q par _ _ hx; simp [addresses] at hx
  | node l a r ihl ihr =>
    intro q par h hnd hx hqp
    rw [linked_node] at h
    obtain ⟨hq, e_a, he, hpa, hl, hr⟩ := h
    obtain ⟨hndl, hndr, hal, har, hlr⟩ := nodup_node l r a hnd
    have hap : a ≠ p := fun e => hqp (by rw [hq, e])
    simp only [addresses, List.mem_append, List.mem_cons] at hx
    rcases hx with hx | hx | hx
    · obtain ⟨hnl, hcl⟩ := hmem l _ _ hl hx
      by_cases hroot : e_a.lchild = some p
      · rw [hroot] at hl
        have hgp : e_p.parent = some a := linked_root_parent es p _ l e_p hl hpe
        obtain ⟨s1, hs1, has1⟩ := hsub l (by rw [hgp]; exact hl) hndl
          (fun g hg => by rw [hgp] at hg; simp only [Option.some.injEq] at hg; subst hg; exact hal)
        have hga := hrot.grand a e_a hgp he
        rw [if_pos hroot.symm] at hga
        refine ⟨shape.node s1 a r, ?_, by simp [addresses, has1]⟩
        rw [linked_node]
        refine ⟨hq, _, hga, hpa, by rw [← hgp]; exact hs1, ?_⟩
        exact rotated_frame es es1 n p c _ n1 p1 hrot r _ _ hr (hlr n hnl) (hlr p hx)
          (fun x hc => hlr x (hcl x hc))
          (fun x hg => by rw [hgp] at hg; simp only [Option.some.injEq] at hg; subst hg; exact har)
      · have hgl : ∃ y, e_p.parent = some y ∧ y ∈ addresses l ∨ e_p.parent = none := by
          rcases linked_parent es l _ _ p e_p hl hx hpe with ⟨h1, _⟩ | ⟨y, h1, h2⟩
          · exact absurd h1 hroot
          · exact ⟨y, Or.inl ⟨h1, h2⟩⟩
        obtain ⟨y, hy⟩ := hgl
        have hgx : ∀ x, e_p.parent = some x → x ∈ addresses l := by
          intro x hxp
          rcases hy with ⟨h1, h2⟩ | h1
          · rw [h1] at hxp
            simp only [Option.some.injEq] at hxp
            subst hxp
            exact h2
          · rw [h1] at hxp
            simp at hxp
        have hea : es1[a]? = some (some e_a) := by
          rw [hrot.frame a (fun e => hal (e ▸ hnl)) hap (fun e => hal (hcl a e))
            (fun e => hal (hgx a e))]
          exact he
        obtain ⟨s1, hs1, has1⟩ := ihl _ _ hl hndl hx hroot
        refine ⟨shape.node s1 a r, ?_, by simp [addresses, has1]⟩
        rw [linked_node]
        refine ⟨hq, _, hea, hpa, hs1, ?_⟩
        exact rotated_frame es es1 n p c _ n1 p1 hrot r _ _ hr (hlr n hnl) (hlr p hx)
          (fun x hc => hlr x (hcl x hc)) (fun x hg => hlr x (hgx x hg))
    · exact absurd hx.symm hap
    · obtain ⟨hnr, hcr⟩ := hmem r _ _ hr hx
      have hrl : ∀ x, x ∈ addresses r → x ∉ addresses l := fun x h1 h2 => hlr x h2 h1
      by_cases hroot : e_a.rchild = some p
      · rw [hroot] at hr
        have hgp : e_p.parent = some a := linked_root_parent es p _ r e_p hr hpe
        obtain ⟨s1, hs1, has1⟩ := hsub r (by rw [hgp]; exact hr) hndr
          (fun g hg => by rw [hgp] at hg; simp only [Option.some.injEq] at hg; subst hg; exact har)
        have hga := hrot.grand a e_a hgp he
        have hnot : ¬ some p = e_a.lchild := by
          intro e
          rw [← e] at hl
          exact hrl p hx (linked_root_mem es p _ l hl)
        rw [if_neg hnot] at hga
        refine ⟨shape.node l a s1, ?_, by simp [addresses, has1]⟩
        rw [linked_node]
        refine ⟨hq, _, hga, hpa, ?_, by rw [← hgp]; exact hs1⟩
        exact rotated_frame es es1 n p c _ n1 p1 hrot l _ _ hl (hrl n hnr) (hrl p hx)
          (fun x hc => hrl x (hcr x hc))
          (fun x hg => by rw [hgp] at hg; simp only [Option.some.injEq] at hg; subst hg; exact hal)
      · have hgx : ∀ x, e_p.parent = some x → x ∈ addresses r := by
          intro x hxp
          rcases linked_parent es r _ _ p e_p hr hx hpe with ⟨h1, _⟩ | ⟨y, h1, h2⟩
          · exact absurd h1 hroot
          · rw [h1] at hxp
            simp only [Option.some.injEq] at hxp
            subst hxp
            exact h2
        have hea : es1[a]? = some (some e_a) := by
          rw [hrot.frame a (fun e => har (e ▸ hnr)) hap (fun e => har (hcr a e))
            (fun e => har (hgx a e))]
          exact he
        obtain ⟨s1, hs1, has1⟩ := ihr _ _ hr hndr hx hroot
        refine ⟨shape.node l a s1, ?_, by simp [addresses, has1]⟩
        rw [linked_node]
        refine ⟨hq, _, hea, hpa, ?_, hs1⟩
        exact rotated_frame es es1 n p c _ n1 p1 hrot l _ _ hl (hrl n hnr) (hrl p hx)
          (fun x hc => hrl x (hcr x hc)) (fun x hg => hrl x (hgx x hg))

/-- After `ll_rotate` at the right child `n` of `p`, the subtree that was under `p` is
linked under `n`, with the same addresses in in-order. -/
theorem ll_subtree (es es1 : List (Option jentry_t)) (n p : Nat) (e_n e_p : jentry_t)
    (hn : es[n]? = some (some e_n)) (hpe : es[p]? = some (some e_p))
    (hrc : e_p.rchild = some n)
    (hrot : rotated es es1 n p e_n.lchild e_p.parent
      { e_n with lchild := some p, parent := e_p.parent }
      { e_p with rchild := e_n.lchild, parent := some n })
    (sp : shape) (hs : linked es (some p) e_p.parent sp = true) (hnd : (addresses sp).Nodup)
    (hg : ∀ g, e_p.parent = some g → g ∉ addresses sp) :
    ∃ s1, linked es1 (some n) e_p.parent s1 = true ∧ addresses s1 = addresses sp := by
  cases sp with
  | nil => simp [linked] at hs
  | node L a R =>
    rw [linked_node] at hs
    obtain ⟨hq, e, he, _, hL, hR⟩ := hs
    simp only [Option.some.injEq] at hq
    subst hq
    rw [hpe] at he
    simp only [Option.some.injEq] at he
    subst he
    rw [hrc] at hR
    obtain ⟨hndL, hndR, hpL, hpR, hLR⟩ := nodup_node L R p hnd
    have hgL : ∀ x, e_p.parent = some x → x ∉ addresses L :=
      fun x hx h => hg x hx (by simp [addresses, h])
    have hgR : ∀ x, e_p.parent = some x → x ∉ addresses R :=
      fun x hx h => hg x hx (by simp [addresses, h])
    cases R with
    | nil => simp [linked] at hR
    | node A b B =>
      rw [linked_node] at hR
      obtain ⟨hq, e, he, _, hA, hB⟩ := hR
      simp only [Option.some.injEq] at hq
      subst hq
      rw [hn] at he
      simp only [Option.some.injEq] at he
      subst he
      obtain ⟨hndA, hndB, hnA, hnB, hAB⟩ := nodup_node A B n hndR
      have hAR : ∀ x, x ∈ addresses A → x ∈ addresses (shape.node A n B) :=
        fun x h => by simp [addresses, h]
      have hBR : ∀ x, x ∈ addresses B → x ∈ addresses (shape.node A n B) :=
        fun x h => by simp [addresses, h]
      have hnR : n ∈ addresses (shape.node A n B) := by simp [addresses]
      have hcA : ∀ x, e_n.lchild = some x → x ∈ addresses A := by
        intro x hx
        rw [hx] at hA
        exact linked_root_mem es x _ A hA
      refine ⟨shape.node (shape.node L p A) n B, ?_, by simp [addresses]⟩
      rw [linked_node]
      refine ⟨rfl, _, hrot.node, rfl, ?_, ?_⟩
      · rw [linked_node]
        refine ⟨rfl, _, hrot.parent, rfl, ?_, ?_⟩
        · exact rotated_frame es es1 n p _ _ _ _ hrot L _ _ hL (fun h => hLR n h hnR) hpL
            (fun x hx h => hLR x h (hAR x (hcA x hx))) hgL
        · show linked es1 e_n.lchild (some p) A = true
          cases A with
          | nil =>
            rw [linked_nil] at hA ⊢
            exact hA
          | node Al c Ar =>
            rw [linked_node] at hA ⊢
            obtain ⟨hq, e_c, hce, _, hAl, hAr⟩ := hA
            obtain ⟨_, _, hcAl, hcAr, _⟩ := nodup_node Al Ar c hndA
            have hAlA : ∀ x, x ∈ addresses Al → x ∈ addresses (shape.node Al c Ar) :=
              fun x h => by simp [addresses, h]
            have hArA : ∀ x, x ∈ addresses Ar → x ∈ addresses (shape.node Al c Ar) :=
              fun x h => by simp [addresses, h]
            refine ⟨hq, _, hrot.child c e_c hq hce, rfl, ?_, ?_⟩
            · exact rotated_frame es es1 n p _ _ _ _ hrot Al _ _ hAl (fun h => hnA (hAlA n h))
                (fun h => hpR (hAR p (hAlA p h)))
                (fun x hx h => by
                  rw [hq] at hx
                  simp only [Option.some.injEq] at hx
                  subst hx
                  exact hcAl h)
                (fun x hx h => hgR x hx (hAR x (hAlA x h)))
            · exact rotated_frame es es1 n p _ _ _ _ hrot Ar _ _ hAr (fun h => hnA (hArA n h))
                (fun h => hpR (hAR p (hArA p h)))
                (fun x hx h => by
                  rw [hq] at hx
                  simp only [Option.some.injEq] at hx
                  subst hx
                  exact hcAr h)
                (fun x hx h => hgR x hx (hAR x (hArA x h)))
      · exact rotated_frame es es1 n p _ _ _ _ hrot B _ _ hB hnB (fun h => hpR (hBR p h))
          (fun x hx h => hAB x (hcA x hx) h) (fun x hx h => hgR x hx (hBR x h))

theorem linked_parent_child (es : List (Option jentry_t)) (s : shape) :
    ∀ q par x e, linked es q par s = true → x ∈ addresses s → es[x]? = some (some e) →
      (q = some x ∧ e.parent = par) ∨
        ∃ g e_g, e.parent = some g ∧ es[g]? = some (some e_g) ∧
          (e_g.lchild = some x ∨ e_g.rchild = some x) := by
  induction s with
  | nil => intro q par x e _ hx; simp [addresses] at hx
  | node l a r ihl ihr =>
    intro q par x e h hx hxe
    rw [linked_node] at h
    obtain ⟨hq, e_a, he, hpa, hl, hr⟩ := h
    simp only [addresses, List.mem_append, List.mem_cons] at hx
    rcases hx with hx | rfl | hx
    · right
      rcases ihl _ _ x e hl hx hxe with ⟨h1, h2⟩ | h
      · exact ⟨a, e_a, h2, he, Or.inl h1⟩
      · exact h
    · left
      rw [he] at hxe
      simp only [Option.some.injEq] at hxe
      subst hxe
      exact ⟨hq, hpa⟩
    · right
      rcases ihr _ _ x e hr hx hxe with ⟨h1, h2⟩ | h
      · exact ⟨a, e_a, h2, he, Or.inr h1⟩
      · exact h

/-- A linked tree is read by `tree_of` at any depth above its number of nodes, and its
in-order traversal is `members`. -/
theorem linked_tree_of (es : List (Option jentry_t)) (s : shape) :
    ∀ q par d, linked es q par s = true → (addresses s).length < d →
      ∃ t, tree_of d es q = some t ∧ inorder t = members es s := by
  induction s with
  | nil =>
    intro q par d h hd
    rw [linked_nil] at h
    subst h
    cases d with
    | zero => simp at hd
    | succ d => exact ⟨tree.nil, rfl, rfl⟩
  | node l a r ihl ihr =>
    intro q par d h hd
    rw [linked_node] at h
    obtain ⟨hq, e, he, _, hl, hr⟩ := h
    subst hq
    simp only [addresses, List.length_append, List.length_cons] at hd
    cases d with
    | zero => simp at hd
    | succ d =>
      obtain ⟨tl, h1, h2⟩ := ihl _ _ d hl (by omega)
      obtain ⟨tr, h3, h4⟩ := ihr _ _ d hr (by omega)
      refine ⟨tree.node tl e tr, by simp [tree_of, he, h1, h3], ?_⟩
      simp only [inorder, h2, h4, members, addresses, List.filterMap_append,
        List.filterMap_cons, he]

theorem members_eq (es es1 : List (Option jentry_t)) (s s1 : shape) (q par : Option Nat)
    (hs : linked es q par s = true) (ha : addresses s1 = addresses s)
    (hk : ∀ (a : Nat) (e : jentry_t), es[a]? = some (some e) →
      ∃ e1, es1[a]? = some (some e1) ∧ e1.key = e.key ∧ e1.value = e.value) :
    members es1 s1 = members es s := by
  unfold members
  rw [ha]
  apply List.filterMap_congr
  intro a hmem
  obtain ⟨e, he⟩ := linked_entry es s q par a hs hmem
  obtain ⟨e1, he1, hk1, hv1⟩ := hk a e he
  simp only [he, he1, hk1, hv1]

theorem rotated_keeps (es es1 : List (Option jentry_t)) (n p : Nat) (c g : Option Nat)
    (e_n e_p n1 p1 : jentry_t) (hrot : rotated es es1 n p c g n1 p1)
    (hn : es[n]? = some (some e_n)) (hpe : es[p]? = some (some e_p))
    (hn1 : n1.key = e_n.key ∧ n1.value = e_n.value)
    (hp1 : p1.key = e_p.key ∧ p1.value = e_p.value) :
    ∀ (a : Nat) (e : jentry_t), es[a]? = some (some e) →
      ∃ e1, es1[a]? = some (some e1) ∧ e1.key = e.key ∧ e1.value = e.value := by
  intro a e he
  by_cases h1 : a = n
  · subst h1
    rw [hn] at he
    simp only [Option.some.injEq] at he
    subst he
    exact ⟨n1, hrot.node, hn1⟩
  by_cases h2 : a = p
  · subst h2
    rw [hpe] at he
    simp only [Option.some.injEq] at he
    subst he
    exact ⟨p1, hrot.parent, hp1⟩
  by_cases h3 : c = some a
  · exact ⟨_, hrot.child a e h3 he, rfl, rfl⟩
  by_cases h4 : g = some a
  · refine ⟨_, hrot.grand a e h4 he, ?_⟩
    split <;> exact ⟨rfl, rfl⟩
  · exact ⟨e, by rw [hrot.frame a h1 h2 h3 h4]; exact he, rfl, rfl⟩

theorem ll_distinct (es : List (Option jentry_t)) (n p : Nat) (e_n e_p : jentry_t)
    (hn : es[n]? = some (some e_n)) (hpe : es[p]? = some (some e_p))
    (hrc : e_p.rchild = some n) (sp : shape) (par : Option Nat)
    (hs : linked es (some p) par sp = true) (hnd : (addresses sp).Nodup) :
    n ≠ p ∧ n ∈ addresses sp ∧ ∀ c, e_n.lchild = some c →
      c ≠ n ∧ c ≠ p ∧ c ∈ addresses sp ∧ ∃ e, es[c]? = some (some e) := by
  cases sp with
  | nil => simp [linked] at hs
  | node L a R =>
    rw [linked_node] at hs
    obtain ⟨hq, e, he, _, hL, hR⟩ := hs
    simp only [Option.some.injEq] at hq
    subst hq
    rw [hpe] at he
    simp only [Option.some.injEq] at he
    subst he
    rw [hrc] at hR
    obtain ⟨hndL, hndR, hpL, hpR, hLR⟩ := nodup_node L R p hnd
    have hnR := linked_root_mem es n _ R hR
    refine ⟨fun e => hpR (e ▸ hnR), by simp [addresses, hnR], ?_⟩
    intro c hc
    cases R with
    | nil => simp [linked] at hR
    | node A b B =>
      rw [linked_node] at hR
      obtain ⟨hq, e, he, _, hA, hB⟩ := hR
      simp only [Option.some.injEq] at hq
      subst hq
      rw [hn] at he
      simp only [Option.some.injEq] at he
      subst he
      obtain ⟨hndA, hndB, hnA, hnB, hAB⟩ := nodup_node A B n hndR
      rw [hc] at hA
      have hcA := linked_root_mem es c _ A hA
      have hcR : c ∈ addresses (shape.node A n B) := by simp [addresses, hcA]
      exact ⟨fun e => hnA (e ▸ hcA), fun e => hpR (e ▸ hcR), by simp [addresses, hcA],
        linked_entry es A _ _ c hA hcA⟩

/-- From the entries a rotation leaves (`rotated`) to what the rotation has to achieve
(`rotation`). -/
theorem rotation_of (rotate : Option Nat → C Unit) (m m1 : memory) (root n p : Nat)
    (s : shape) (c : Option Nat) (e_n e_p n1 p1 : jentry_t)
    (hs : linked m.entries (some root) none s = true) (hnd : (addresses s).Nodup)
    (hn : m.entries[n]? = some (some e_n)) (hpe : m.entries[p]? = some (some e_p))
    (hpin : p ∈ addresses s)
    (hrun : rotate (some n) m = res.ok () m1)
    (hrot : rotated m.entries m1.entries n p c e_p.parent n1 p1)
    (hn1 : n1.key = e_n.key ∧ n1.value = e_n.value) (hn2 : n1.parent = e_p.parent)
    (hp1 : p1.key = e_p.key ∧ p1.value = e_p.value)
    (hsub : ∀ sp, linked m.entries (some p) e_p.parent sp = true → (addresses sp).Nodup →
      (∀ g, e_p.parent = some g → g ∉ addresses sp) →
      ∃ s1, linked m1.entries (some n) e_p.parent s1 = true ∧ addresses s1 = addresses sp)
    (hmem : ∀ s q par, linked m.entries q par s = true → p ∈ addresses s →
      n ∈ addresses s ∧ ∀ x, c = some x → x ∈ addresses s) :
    rotation rotate m root n p s := by
  have hkeep := rotated_keeps m.entries m1.entries n p c e_p.parent e_n e_p n1 p1 hrot hn hpe
    hn1 hp1
  have hs1 : ∃ s1, linked m1.entries (some (if p = root then n else root)) none s1 = true ∧
      addresses s1 = addresses s := by
    by_cases hroot : p = root
    · subst hroot
      have hpar : e_p.parent = none := linked_root_parent m.entries p none s e_p hs hpe
      rw [if_pos rfl]
      have := hsub s (by rw [hpar]; exact hs) hnd (fun g hg => by rw [hpar] at hg; simp at hg)
      rw [hpar] at this
      exact this
    · rw [if_neg hroot]
      exact rotated_path m.entries m1.entries n p c e_p n1 p1 hpe hrot hsub hmem s _ _ hs hnd
        hpin (fun e => hroot (by simp only [Option.some.injEq] at e; exact e.symm))
  obtain ⟨s1, hl1, ha1⟩ := hs1
  refine ⟨m1, s1, hrun, hl1, ha1, hkeep, ?_, ?_⟩
  · obtain ⟨t, ht, hi⟩ := linked_tree_of m.entries s _ _ ((addresses s).length + 1) hs
      (Nat.lt_succ_self _)
    obtain ⟨t1, ht1, hi1⟩ := linked_tree_of m1.entries s1 _ _ ((addresses s).length + 1) hl1
      (by rw [ha1]; exact Nat.lt_succ_self _)
    refine ⟨t, t1, ht, ht1, ?_⟩
    rw [hi, hi1]
    exact members_eq m.entries m1.entries s s1 _ _ hs ha1 hkeep
  · intro e_p1 he1
    rw [hpe] at he1
    simp only [Option.some.injEq] at he1
    subst he1
    refine ⟨⟨n1, hrot.node, hn2⟩, ?_⟩
    intro g e_g hg heg
    have hgr := hrot.grand g e_g hg heg
    rcases linked_parent_child m.entries s _ _ p e_p hs hpin hpe with ⟨_, h2⟩ | ⟨g1, e_g1, h1, h2, h3⟩
    · rw [h2] at hg
      simp at hg
    · rw [h1] at hg
      simp only [Option.some.injEq] at hg
      subst hg
      rw [heg] at h2
      simp only [Option.some.injEq] at h2
      subst h2
      by_cases hl : some p = e_g.lchild
      · rw [if_pos hl] at hgr
        exact Or.inl ⟨hl.symm, hgr⟩
      · rw [if_neg hl] at hgr
        rcases h3 with h3 | h3
        · exact absurd h3.symm hl
        · exact Or.inr ⟨h3, hgr⟩

/-- The function `ll_rotate` at a right child is a rotation. -/
theorem ll_rotation (m : memory) (root n p : Nat) (s : shape) (e_n e_p : jentry_t)
    (hs : linked m.entries (some root) none s = true) (hnd : (addresses s).Nodup)
    (hnin : n ∈ addresses s) (hn : m.entries[n]? = some (some e_n))
    (hp : e_n.parent = some p) (hpe : m.entries[p]? = some (some e_p))
    (hrc : e_p.rchild = some n) : rotation ll_rotate m root n p s := by
  have hpin : p ∈ addresses s := by
    rcases linked_parent m.entries s _ _ n e_n hs hnin hn with ⟨_, h2⟩ | ⟨y, h1, h2⟩
    · rw [hp] at h2
      simp at h2
    · rw [hp] at h1
      simp only [Option.some.injEq] at h1
      subst h1
      exact h2
  obtain ⟨sp, hsp, hndsp, hsub, hgsp⟩ := linked_subtree m.entries s _ _ p e_p hs hnd hpin hpe
    (fun g hg => by simp at hg)
  obtain ⟨hnp, hnsp, hcs⟩ := ll_distinct m.entries n p e_n e_p hn hpe hrc sp _ hsp hndsp
  have hg : ∀ g, e_p.parent = some g →
      g ≠ n ∧ g ≠ p ∧ e_n.lchild ≠ some g ∧ ∃ e, m.entries[g]? = some (some e) := by
    intro g hg
    have hgn := hgsp g hg
    refine ⟨fun e => hgn (e ▸ hnsp), fun e => hgn (e ▸ linked_root_mem _ _ _ _ hsp),
      fun e => hgn (hcs g e).2.2.1, ?_⟩
    rcases linked_parent m.entries s _ _ p e_p hs hpin hpe with ⟨_, h2⟩ | ⟨y, h1, h2⟩
    · rw [h2] at hg
      simp at hg
    · rw [h1] at hg
      simp only [Option.some.injEq] at hg
      subst hg
      exact linked_entry m.entries s _ _ y hs h2
  obtain ⟨m1, hrun, hrot⟩ := ll_rotate_runs m n p e_n e_p hn hp hpe hnp
    (fun c hc => ⟨(hcs c hc).1, (hcs c hc).2.1, (hcs c hc).2.2.2⟩) hg
  exact rotation_of ll_rotate m m1 root n p s e_n.lchild e_n e_p _ _ hs hnd hn hpe hpin hrun
    hrot ⟨rfl, rfl⟩ rfl ⟨rfl, rfl⟩
    (fun sp1 h1 h2 h3 => ll_subtree m.entries m1.entries n p e_n e_p hn hpe hrc hrot sp1 h1 h2 h3)
    (fun s2 q par h1 h2 =>
      have hn2 := (linked_children m.entries s2 q par p e_p h1 h2 hpe).2 n hrc
      ⟨hn2, fun x hx => (linked_children m.entries s2 q par n e_n h1 hn2 hn).1 x hx⟩)

/-- On a node `n` whose parent `p`, moved child and grandparent are live entries at
distinct addresses, `rr_rotate` returns and leaves the entries described by `rotated`. -/
theorem rr_rotate_runs (m : memory) (n p : Nat) (e_n e_p : jentry_t)
    (hn : m.entries[n]? = some (some e_n)) (hp : e_n.parent = some p)
    (hpe : m.entries[p]? = some (some e_p)) (hnp : n ≠ p)
    (hc : ∀ c, e_n.rchild = some c → c ≠ n ∧ c ≠ p ∧ ∃ e, m.entries[c]? = some (some e))
    (hg : ∀ g, e_p.parent = some g →
      g ≠ n ∧ g ≠ p ∧ e_n.rchild ≠ some g ∧ ∃ e, m.entries[g]? = some (some e)) :
    ∃ m1, rr_rotate (some n) m = res.ok () m1 ∧
      rotated m.entries m1.entries n p e_n.rchild e_p.parent
        { e_n with rchild := some p, parent := e_p.parent }
        { e_p with lchild := e_n.rchild, parent := some n } := by
  have hnl := lookup_lt _ _ _ hn
  have hpl := lookup_lt _ _ _ hpe
  have hpn : p ≠ n := fun h => hnp h.symm
  cases hcc : e_n.rchild with
  | none =>
    cases hgg : e_p.parent with
    | none =>
      simp only [rr_rotate, bind_apply, pure_apply, ite_apply_C, entry, entry_set, hn, hpe, hp,
        hcc, hgg, List.getElem?_set_self, List.getElem?_set_ne, List.length_set, hnl, hpl, hnp,
        hpn, ne_eq, not_false_eq_true, not_true_eq_false, if_true, if_false]
      refine ⟨_, rfl, ?_, ?_, ?_, ?_, ?_⟩
      · simp only [List.getElem?_set_self, List.getElem?_set_ne, List.length_set, hnl, hpl,
          hnp, hpn, ne_eq, not_false_eq_true]
      · simp only [List.getElem?_set_self, List.getElem?_set_ne, List.length_set, hnl, hpl,
          hnp, hpn, ne_eq, not_false_eq_true]
      · intro x e hx; simp at hx
      · intro x e hx; simp at hx
      · intro x h1 h2 _ _
        simp only [List.getElem?_set_ne (Ne.symm h1), List.getElem?_set_ne (Ne.symm h2)]
    | some g =>
      obtain ⟨hgn, hgp, _, e_g, hge⟩ := hg g hgg
      have hgl := lookup_lt _ _ _ hge
      have hng : n ≠ g := fun h => hgn h.symm
      have hpg : p ≠ g := fun h => hgp h.symm
      by_cases hl : some p = e_g.lchild
      · have hl1 : e_g.lchild = some p := hl.symm
        simp only [rr_rotate, bind_apply, pure_apply, ite_apply_C, entry, entry_set, hn, hpe, hp,
          hcc, hgg, hge, hl1, List.getElem?_set_self, List.getElem?_set_ne, List.length_set, hnl,
          hpl, hgl, hnp, hpn, hgn, hgp, hng, hpg, ne_eq, not_false_eq_true, not_true_eq_false,
          if_true, if_false, reduceCtorEq]
        refine ⟨_, rfl, ?_, ?_, ?_, ?_, ?_⟩
        · simp only [List.getElem?_set_self, List.getElem?_set_ne, List.length_set, hnl, hpl,
            hgl, hnp, hpn, hgn, hgp, hng, hpg, ne_eq, not_false_eq_true]
        · simp only [List.getElem?_set_self, List.getElem?_set_ne, List.length_set, hnl, hpl,
            hgl, hnp, hpn, hgn, hgp, hng, hpg, ne_eq, not_false_eq_true]
        · intro x e hx; simp at hx
        · intro x e hx he
          simp only [Option.some.injEq] at hx
          subst hx
          rw [hge] at he
          simp only [Option.some.injEq] at he
          subst he
          simp only [List.getElem?_set_self, List.length_set, hgl, hl1, if_true]
        · intro x h1 h2 _ h4
          have h4 : g ≠ x := fun h => h4 (by rw [h])
          simp only [List.getElem?_set_ne (Ne.symm h1), List.getElem?_set_ne (Ne.symm h2),
            List.getElem?_set_ne h4]
      · simp only [rr_rotate, bind_apply, pure_apply, ite_apply_C, entry, entry_set, hn, hpe, hp,
          hcc, hgg, hge, hl, List.getElem?_set_self, List.getElem?_set_ne, List.length_set, hnl,
          hpl, hgl, hnp, hpn, hgn, hgp, hng, hpg, ne_eq, not_false_eq_true, not_true_eq_false,
          if_true, if_false, reduceCtorEq]
        refine ⟨_, rfl, ?_, ?_, ?_, ?_, ?_⟩
        · simp only [List.getElem?_set_self, List.getElem?_set_ne, List.length_set, hnl, hpl,
            hgl, hnp, hpn, hgn, hgp, hng, hpg, ne_eq, not_false_eq_true]
        · simp only [List.getElem?_set_self, List.getElem?_set_ne, List.length_set, hnl, hpl,
            hgl, hnp, hpn, hgn, hgp, hng, hpg, ne_eq, not_false_eq_true]
        · intro x e hx; simp at hx
        · intro x e hx he
          simp only [Option.some.injEq] at hx
          subst hx
          rw [hge] at he
          simp only [Option.some.injEq] at he
          subst he
          simp only [List.getElem?_set_self, List.length_set, hgl, hl, if_false]
        · intro x h1 h2 _ h4
          have h4 : g ≠ x := fun h => h4 (by rw [h])
          simp only [List.getElem?_set_ne (Ne.symm h1), List.getElem?_set_ne (Ne.symm h2),
            List.getElem?_set_ne h4]
  | some c =>
    obtain ⟨hcn, hcp, e_c, hce⟩ := hc c hcc
    have hcl := lookup_lt _ _ _ hce
    have hnc : n ≠ c := fun h => hcn h.symm
    have hpc : p ≠ c := fun h => hcp h.symm
    cases hgg : e_p.parent with
    | none =>
      simp only [rr_rotate, bind_apply, pure_apply, ite_apply_C, entry, entry_set, hn, hpe, hp,
        hcc, hgg, hce, List.getElem?_set_self, List.getElem?_set_ne, List.length_set, hnl, hpl,
        hcl, hnp, hpn, hcn, hcp, hnc, hpc, ne_eq, not_false_eq_true, not_true_eq_false,
        if_true, if_false, reduceCtorEq]
      refine ⟨_, rfl, ?_, ?_, ?_, ?_, ?_⟩
      · simp only [List.getElem?_set_self, List.getElem?_set_ne, List.length_set, hnl, hpl,
          hcl, hnp, hpn, hcn, hcp, hnc, hpc, ne_eq, not_false_eq_true]
      · simp only [List.getElem?_set_self, List.getElem?_set_ne, List.length_set, hnl, hpl,
          hcl, hnp, hpn, hcn, hcp, hnc, hpc, ne_eq, not_false_eq_true]
      · intro x e hx he
        simp only [Option.some.injEq] at hx
        subst hx
        rw [hce] at he
        simp only [Option.some.injEq] at he
        subst he
        simp only [List.getElem?_set_self, List.length_set, hcl]
      · intro x e hx; simp at hx
      · intro x h1 h2 h3 _
        have h3 : c ≠ x := fun h => h3 (by rw [h])
        simp only [List.getElem?_set_ne (Ne.symm h1), List.getElem?_set_ne (Ne.symm h2),
          List.getElem?_set_ne h3]
    | some g =>
      rw [hcc] at hg
      obtain ⟨hgn, hgp, hcg, e_g, hge⟩ := hg g hgg
      have hgl := lookup_lt _ _ _ hge
      have hng : n ≠ g := fun h => hgn h.symm
      have hpg : p ≠ g := fun h => hgp h.symm
      have hcg : c ≠ g := fun h => hcg (by rw [h])
      have hgc : g ≠ c := fun h => hcg h.symm
      by_cases hl : some p = e_g.lchild
      · have hl1 : e_g.lchild = some p := hl.symm
        simp only [rr_rotate, bind_apply, pure_apply, ite_apply_C, entry, entry_set, hn, hpe, hp,
          hcc, hgg, hge, hce, hl1, List.getElem?_set_self, List.getElem?_set_ne, List.length_set,
          hnl, hpl, hgl, hcl, hnp, hpn, hgn, hgp, hng, hpg, hcn, hcp, hnc, hpc, hcg, hgc, ne_eq,
          not_false_eq_true, not_true_eq_false, if_true, if_false, reduceCtorEq]
        refine ⟨_, rfl, ?_, ?_, ?_, ?_, ?_⟩
        · simp only [List.getElem?_set_self, List.getElem?_set_ne, List.length_set, hnl, hpl,
            hgl, hcl, hnp, hpn, hgn, hgp, hng, hpg, hcn, hcp, hnc, hpc, hcg, hgc, ne_eq,
            not_false_eq_true]
        · simp only [List.getElem?_set_self, List.getElem?_set_ne, List.length_set, hnl, hpl,
            hgl, hcl, hnp, hpn, hgn, hgp, hng, hpg, hcn, hcp, hnc, hpc, hcg, hgc, ne_eq,
            not_false_eq_true]
        · intro x e hx he
          simp only [Option.some.injEq] at hx
          subst hx
          rw [hce] at he
          simp only [Option.some.injEq] at he
          subst he
          simp only [List.getElem?_set_self, List.getElem?_set_ne, List.length_set, hcl, hgc,
            ne_eq, not_false_eq_true]
        · intro x e hx he
          simp only [Option.some.injEq] at hx
          subst hx
          rw [hge] at he
          simp only [Option.some.injEq] at he
          subst he
          simp only [List.getElem?_set_self, List.length_set, hgl, hl1, if_true]
        · intro x h1 h2 h3 h4
          have h3 : c ≠ x := fun h => h3 (by rw [h])
          have h4 : g ≠ x := fun h => h4 (by rw [h])
          simp only [List.getElem?_set_ne (Ne.symm h1), List.getElem?_set_ne (Ne.symm h2),
            List.getElem?_set_ne h3, List.getElem?_set_ne h4]
      · simp only [rr_rotate, bind_apply, pure_apply, ite_apply_C, entry, entry_set, hn, hpe, hp,
          hcc, hgg, hge, hce, hl, List.getElem?_set_self, List.getElem?_set_ne, List.length_set,
          hnl, hpl, hgl, hcl, hnp, hpn, hgn, hgp, hng, hpg, hcn, hcp, hnc, hpc, hcg, hgc, ne_eq,
          not_false_eq_true, not_true_eq_false, if_true, if_false, reduceCtorEq]
        refine ⟨_, rfl, ?_, ?_, ?_, ?_, ?_⟩
        · simp only [List.getElem?_set_self, List.getElem?_set_ne, List.length_set, hnl, hpl,
            hgl, hcl, hnp, hpn, hgn, hgp, hng, hpg, hcn, hcp, hnc, hpc, hcg, hgc, ne_eq,
            not_false_eq_true]
        · simp only [List.getElem?_set_self, List.getElem?_set_ne, List.length_set, hnl, hpl,
            hgl, hcl, hnp, hpn, hgn, hgp, hng, hpg, hcn, hcp, hnc, hpc, hcg, hgc, ne_eq,
            not_false_eq_true]
        · intro x e hx he
          simp only [Option.some.injEq] at hx
          subst hx
          rw [hce] at he
          simp only [Option.some.injEq] at he
          subst he
          simp only [List.getElem?_set_self, List.getElem?_set_ne, List.length_set, hcl, hgc,
            ne_eq, not_false_eq_true]
        · intro x e hx he
          simp only [Option.some.injEq] at hx
          subst hx
          rw [hge] at he
          simp only [Option.some.injEq] at he
          subst he
          simp only [List.getElem?_set_self, List.length_set, hgl, hl, if_false]
        · intro x h1 h2 h3 h4
          have h3 : c ≠ x := fun h => h3 (by rw [h])
          have h4 : g ≠ x := fun h => h4 (by rw [h])
          simp only [List.getElem?_set_ne (Ne.symm h1), List.getElem?_set_ne (Ne.symm h2),
            List.getElem?_set_ne h3, List.getElem?_set_ne h4]

/-- After `rr_rotate` at the left child `n` of `p`, the subtree that was under `p` is
linked under `n`, with the same addresses in in-order. -/
theorem rr_subtree (es es1 : List (Option jentry_t)) (n p : Nat) (e_n e_p : jentry_t)
    (hn : es[n]? = some (some e_n)) (hpe : es[p]? = some (some e_p))
    (hlc : e_p.lchild = some n)
    (hrot : rotated es es1 n p e_n.rchild e_p.parent
      { e_n with rchild := some p, parent := e_p.parent }
      { e_p with lchild := e_n.rchild, parent := some n })
    (sp : shape) (hs : linked es (some p) e_p.parent sp = true) (hnd : (addresses sp).Nodup)
    (hg : ∀ g, e_p.parent = some g → g ∉ addresses sp) :
    ∃ s1, linked es1 (some n) e_p.parent s1 = true ∧ addresses s1 = addresses sp := by
  cases sp with
  | nil => simp [linked] at hs
  | node L a R =>
    rw [linked_node] at hs
    obtain ⟨hq, e, he, _, hL, hR⟩ := hs
    simp only [Option.some.injEq] at hq
    subst hq
    rw [hpe] at he
    simp only [Option.some.injEq] at he
    subst he
    rw [hlc] at hL
    obtain ⟨hndL, hndR, hpL, hpR, hLR⟩ := nodup_node L R p hnd
    have hgL : ∀ x, e_p.parent = some x → x ∉ addresses L :=
      fun x hx h => hg x hx (by simp [addresses, h])
    have hgR : ∀ x, e_p.parent = some x → x ∉ addresses R :=
      fun x hx h => hg x hx (by simp [addresses, h])
    cases L with
    | nil => simp [linked] at hL
    | node A b B =>
      rw [linked_node] at hL
      obtain ⟨hq, e, he, _, hA, hB⟩ := hL
      simp only [Option.some.injEq] at hq
      subst hq
      rw [hn] at he
      simp only [Option.some.injEq] at he
      subst he
      obtain ⟨hndA, hndB, hnA, hnB, hAB⟩ := nodup_node A B n hndL
      have hAL : ∀ x, x ∈ addresses A → x ∈ addresses (shape.node A n B) :=
        fun x h => by simp [addresses, h]
      have hBL : ∀ x, x ∈ addresses B → x ∈ addresses (shape.node A n B) :=
        fun x h => by simp [addresses, h]
      have hnL : n ∈ addresses (shape.node A n B) := by simp [addresses]
      have hcB : ∀ x, e_n.rchild = some x → x ∈ addresses B := by
        intro x hx
        rw [hx] at hB
        exact linked_root_mem es x _ B hB
      refine ⟨shape.node A n (shape.node B p R), ?_, by simp [addresses]⟩
      rw [linked_node]
      refine ⟨rfl, _, hrot.node, rfl, ?_, ?_⟩
      · exact rotated_frame es es1 n p _ _ _ _ hrot A _ _ hA hnA (fun h => hpL (hAL p h))
          (fun x hx h => hAB x h (hcB x hx)) (fun x hx h => hgL x hx (hAL x h))
      · rw [linked_node]
        refine ⟨rfl, _, hrot.parent, rfl, ?_, ?_⟩
        · show linked es1 e_n.rchild (some p) B = true
          cases B with
          | nil =>
            rw [linked_nil] at hB ⊢
            exact hB
          | node Bl c Br =>
            rw [linked_node] at hB ⊢
            obtain ⟨hq, e_c, hce, _, hBl, hBr⟩ := hB
            obtain ⟨_, _, hcBl, hcBr, _⟩ := nodup_node Bl Br c hndB
            have hBlB : ∀ x, x ∈ addresses Bl → x ∈ addresses (shape.node Bl c Br) :=
              fun x h => by simp [addresses, h]
            have hBrB : ∀ x, x ∈ addresses Br → x ∈ addresses (shape.node Bl c Br) :=
              fun x h => by simp [addresses, h]
            refine ⟨hq, _, hrot.child c e_c hq hce, rfl, ?_, ?_⟩
            · exact rotated_frame es es1 n p _ _ _ _ hrot Bl _ _ hBl (fun h => hnB (hBlB n h))
                (fun h => hpL (hBL p (hBlB p h)))
                (fun x hx h => by
                  rw [hq] at hx
                  simp only [Option.some.injEq] at hx
                  subst hx
                  exact hcBl h)
                (fun x hx h => hgL x hx (hBL x (hBlB x h)))
            · exact rotated_frame es es1 n p _ _ _ _ hrot Br _ _ hBr (fun h => hnB (hBrB n h))
                (fun h => hpL (hBL p (hBrB p h)))
                (fun x hx h => by
                  rw [hq] at hx
                  simp only [Option.some.injEq] at hx
                  subst hx
                  exact hcBr h)
                (fun x hx h => hgL x hx (hBL x (hBrB x h)))
        · exact rotated_frame es es1 n p _ _ _ _ hrot R _ _ hR (fun h => hLR n hnL h) hpR
            (fun x hx h => hLR x (hBL x (hcB x hx)) h) hgR

theorem rr_distinct (es : List (Option jentry_t)) (n p : Nat) (e_n e_p : jentry_t)
    (hn : es[n]? = some (some e_n)) (hpe : es[p]? = some (some e_p))
    (hlc : e_p.lchild = some n) (sp : shape) (par : Option Nat)
    (hs : linked es (some p) par sp = true) (hnd : (addresses sp).Nodup) :
    n ≠ p ∧ n ∈ addresses sp ∧ ∀ c, e_n.rchild = some c →
      c ≠ n ∧ c ≠ p ∧ c ∈ addresses sp ∧ ∃ e, es[c]? = some (some e) := by
  cases sp with
  | nil => simp [linked] at hs
  | node L a R =>
    rw [linked_node] at hs
    obtain ⟨hq, e, he, _, hL, hR⟩ := hs
    simp only [Option.some.injEq] at hq
    subst hq
    rw [hpe] at he
    simp only [Option.some.injEq] at he
    subst he
    rw [hlc] at hL
    obtain ⟨hndL, hndR, hpL, hpR, hLR⟩ := nodup_node L R p hnd
    have hnL := linked_root_mem es n _ L hL
    refine ⟨fun e => hpL (e ▸ hnL), by simp [addresses, hnL], ?_⟩
    intro c hc
    cases L with
    | nil => simp [linked] at hL
    | node A b B =>
      rw [linked_node] at hL
      obtain ⟨hq, e, he, _, hA, hB⟩ := hL
      simp only [Option.some.injEq] at hq
      subst hq
      rw [hn] at he
      simp only [Option.some.injEq] at he
      subst he
      obtain ⟨hndA, hndB, hnA, hnB, hAB⟩ := nodup_node A B n hndL
      rw [hc] at hB
      have hcB := linked_root_mem es c _ B hB
      have hcL : c ∈ addresses (shape.node A n B) := by simp [addresses, hcB]
      exact ⟨fun e => hnB (e ▸ hcB), fun e => hpL (e ▸ hcL), by simp [addresses, hcB],
        linked_entry es B _ _ c hB hcB⟩

/-- The function `rr_rotate` at a left child is a rotation. -/
theorem rr_rotation (m : memory) (root n p : Nat) (s : shape) (e_n e_p : jentry_t)
    (hs : linked m.entries (some root) none s = true) (hnd : (addresses s).Nodup)
    (hnin : n ∈ addresses s) (hn : m.entries[n]? = some (some e_n))
    (hp : e_n.parent = some p) (hpe : m.entries[p]? = some (some e_p))
    (hlc : e_p.lchild = some n) : rotation rr_rotate m root n p s := by
  have hpin : p ∈ addresses s := by
    rcases linked_parent m.entries s _ _ n e_n hs hnin hn with ⟨_, h2⟩ | ⟨y, h1, h2⟩
    · rw [hp] at h2
      simp at h2
    · rw [hp] at h1
      simp only [Option.some.injEq] at h1
      subst h1
      exact h2
  obtain ⟨sp, hsp, hndsp, hsub, hgsp⟩ := linked_subtree m.entries s _ _ p e_p hs hnd hpin hpe
    (fun g hg => by simp at hg)
  obtain ⟨hnp, hnsp, hcs⟩ := rr_distinct m.entries n p e_n e_p hn hpe hlc sp _ hsp hndsp
  have hg : ∀ g, e_p.parent = some g →
      g ≠ n ∧ g ≠ p ∧ e_n.rchild ≠ some g ∧ ∃ e, m.entries[g]? = some (some e) := by
    intro g hg
    have hgn := hgsp g hg
    refine ⟨fun e => hgn (e ▸ hnsp), fun e => hgn (e ▸ linked_root_mem _ _ _ _ hsp),
      fun e => hgn (hcs g e).2.2.1, ?_⟩
    rcases linked_parent m.entries s _ _ p e_p hs hpin hpe with ⟨_, h2⟩ | ⟨y, h1, h2⟩
    · rw [h2] at hg
      simp at hg
    · rw [h1] at hg
      simp only [Option.some.injEq] at hg
      subst hg
      exact linked_entry m.entries s _ _ y hs h2
  obtain ⟨m1, hrun, hrot⟩ := rr_rotate_runs m n p e_n e_p hn hp hpe hnp
    (fun c hc => ⟨(hcs c hc).1, (hcs c hc).2.1, (hcs c hc).2.2.2⟩) hg
  exact rotation_of rr_rotate m m1 root n p s e_n.rchild e_n e_p _ _ hs hnd hn hpe hpin hrun
    hrot ⟨rfl, rfl⟩ rfl ⟨rfl, rfl⟩
    (fun sp1 h1 h2 h3 => rr_subtree m.entries m1.entries n p e_n e_p hn hpe hlc hrot sp1 h1 h2 h3)
    (fun s2 q par h1 h2 =>
      have hn2 := (linked_children m.entries s2 q par p e_p h1 h2 hpe).1 n hlc
      ⟨hn2, fun x hx => (linked_children m.entries s2 q par n e_n h1 hn2 hn).2 x hx⟩)

/-! ## Properties of the object container -/

/-- C1 (code bug): on the object returned by `json_new`, inserting ("b", 1) succeeds, but
the following insertion of the distinct key "a" never returns: `json_seek` asks for the new
entry with `jentry_new(root, key, NULL)`, which yields NULL, and `json_add` then writes
`info->target->value` through that NULL pointer. -/
theorem json_add_second_key :
    json_new memory_empty = res.ok (ptr.ref 0) memory_new ∧
    json_add 2 (ptr.ref 0) (some "b") (some (jvalue_t.J_NUM 1)) memory_new =
      res.ok true (memory_one "b" (jvalue_t.J_NUM 1)) ∧
    (∀ n, json_add (n + 2) (ptr.ref 0) (some "a") (some (jvalue_t.J_NUM 2))
      (memory_one "b" (jvalue_t.J_NUM 1)) = res.undef fault.null) ∧
    (∀ fuel, ∃ f, json_add fuel (ptr.ref 0) (some "a") (some (jvalue_t.J_NUM 2))
      (memory_one "b" (jvalue_t.J_NUM 1)) = res.undef f) :=
  ⟨by decide, by decide, fun _ => rfl, fun fuel =>
    match fuel with
    | 0 => ⟨_, rfl⟩
    | 1 => ⟨_, rfl⟩
    | _ + 2 => ⟨_, rfl⟩⟩

/-- C3 (code bug): after `json_new` and one successful insertion the in-order traversal has
one member, but `json_size` returns 0: it returns the root's `height`, which `jentry_new`
sets to 0. -/
theorem json_size_one_member :
    json_add 2 (ptr.ref 0) (some "a") (some (jvalue_t.J_NUM 1)) memory_new =
      res.ok true (memory_one "a" (jvalue_t.J_NUM 1)) ∧
    json_size (ptr.ref 0) (memory_one "a" (jvalue_t.J_NUM 1)) =
      res.ok 0 (memory_one "a" (jvalue_t.J_NUM 1)) ∧
    (json_tree 2 (ptr.ref 0) (memory_one "a" (jvalue_t.J_NUM 1))).map inorder =
      some [("a", some (jvalue_t.J_NUM 1))] :=
  ⟨by decide, by decide, by decide⟩

/-- C4 (code bug): after `json_add(O, "a", true)` on the empty object has succeeded,
`json_add(O, "a", false)` does not: on equal keys `json_seek` ends in `return root;`, and
`json_add` reads `info->target` through that entry pointer. -/
theorem json_add_same_key :
    json_add 2 (ptr.ref 0) (some "a") (some (jvalue_t.J_BOOL true)) memory_new =
      res.ok true (memory_one "a" (jvalue_t.J_BOOL true)) ∧
    (∀ fuel, json_add fuel (ptr.ref 0) (some "a") (some (jvalue_t.J_BOOL false))
      (memory_one "a" (jvalue_t.J_BOOL true)) = res.undef fault.invalid) :=
  ⟨by decide, fun _ => rfl⟩

/-- C5 (code bug): after `json_add(O, "a", 1)` has returned true, `json_find(O, "a")` does
not return the value: `json_seek` ends in `return root;` and `json_find` reads
`->target` through that entry pointer.  (Looking up the absent key "b" returns NULL and
leaves the memory as it was.) -/
theorem json_find_after_add :
    json_add 2 (ptr.ref 0) (some "a") (some (jvalue_t.J_NUM 1)) memory_new =
      res.ok true (memory_one "a" (jvalue_t.J_NUM 1)) ∧
    (∀ fuel, json_find fuel (ptr.ref 0) (some "a") (memory_one "a" (jvalue_t.J_NUM 1)) =
      res.undef fault.invalid) ∧
    (∀ fuel, json_find fuel (ptr.ref 0) (some "b") (memory_one "a" (jvalue_t.J_NUM 1)) =
      res.ok jvalue_ptr.NULL (memory_one "a" (jvalue_t.J_NUM 1))) :=
  ⟨by decide, fun _ => rfl, fun _ => rfl⟩

/-- C6 (code bug): on the empty object returned by `json_new`, `json_find` passes the NULL
root to `json_seek`, which reads `root->key`, and `json_free` passes it to `jentry_free`,
which reads `root->lchild`; `json_remove` does fail with ENOENT, `json_size` does return 0,
and `json_copy` returns `true` converted to a pointer. -/
theorem empty_object_operations :
    json_new memory_empty = res.ok (ptr.ref 0) memory_new ∧
    (∀ fuel key, json_find fuel (ptr.ref 0) (some key) memory_new = res.undef fault.null) ∧
    (∀ n, json_free (n + 2) (ptr.ref 0) memory_new = res.undef fault.null) ∧
    (∀ fuel, ∃ f, json_free fuel (ptr.ref 0) memory_new = res.undef f) ∧
    (∀ fuel key, json_remove fuel (ptr.ref 0) (some key) memory_new =
      res.ok false { memory_new with errno := errno_t.ENOENT }) ∧
    json_size (ptr.ref 0) memory_new = res.ok 0 memory_new ∧
    (∀ n, json_copy (n + 1) (ptr.ref 0) memory_new =
      res.ok (ptr.int 1) ⟨[], [], [some ⟨none⟩, some ⟨none⟩], errno_t.E0⟩) :=
  ⟨by decide, fun _ _ => rfl, fun _ => rfl, fun fuel =>
    match fuel with
    | 0 => ⟨_, rfl⟩
    | 1 => ⟨_, rfl⟩
    | _ + 2 => ⟨_, rfl⟩,
   fun _ _ => rfl, by decide, fun _ => rfl⟩

/-- C7 (code bug): `json_remove` of a key that is present does not remove it.  On the
one-member object made by `json_new` and `json_add(O, "b", 1)`, and on the object with
members a, b, c and root "b", removing "b" reads `info->target` through the entry pointer
that `json_seek` returned; on the object with root "a" and right child "b", removing "b"
fails with ENOENT and changes nothing, because `json_seek` tests `root->lchild` on the way
to the right. -/
theorem json_remove_present_key :
    json_add 2 (ptr.ref 0) (some "b") (some (jvalue_t.J_NUM 1)) memory_new =
      res.ok true (memory_one "b" (jvalue_t.J_NUM 1)) ∧
    (∀ fuel, json_remove fuel (ptr.ref 0) (some "b") (memory_one "b" (jvalue_t.J_NUM 1)) =
      res.undef fault.invalid) ∧
    (json_tree 3 (ptr.ref 0) memory_bac).map inorder =
      some [("a", some (jvalue_t.J_NUM 2)), ("b", some (jvalue_t.J_NUM 1)),
        ("c", some (jvalue_t.J_NUM 3))] ∧
    (∀ fuel, json_remove fuel (ptr.ref 0) (some "b") memory_bac = res.undef fault.invalid) ∧
    (json_tree 3 (ptr.ref 0) memory_ab).map inorder =
      some [("a", some (jvalue_t.J_NUM 1)), ("b", some (jvalue_t.J_NUM 2))] ∧
    (∀ fuel, json_remove fuel (ptr.ref 0) (some "b") memory_ab =
      res.ok false { memory_ab with errno := errno_t.ENOENT }) :=
  ⟨by decide, fun _ => rfl, by decide, fun _ => rfl, by decide, fun _ => rfl⟩

/-- C8: for a non-empty object whose entries form a finite tree and a key that compares
equal to no member's key, `json_remove` (with fuel at least the depth of the tree) returns
false, sets `errno` to `ENOENT` and leaves the heap as it was: same objects, same entries
with the same links and stored heights. -/
theorem json_remove_absent (depth fuel : Nat) (m : memory) (a r : Nat) (t : tree)
    (key : String) (hobj : m.objects[a]? = some (some ⟨some r⟩))
    (ht : tree_of depth m.entries (some r) = some t) (habs : absent key t)
    (hfuel : depth ≤ fuel) :
    json_remove fuel (ptr.ref a) (some key) m = res.ok false { m with errno := errno_t.ENOENT } := by
  simp only [json_remove, bind_apply, object, hobj, ite_apply_C, reduceCtorEq, if_false,
    pure_apply, json_seek_absent depth fuel m r t key ht habs hfuel, jinfo_target, if_true,
    error]

/-- C8 witness: removing the absent key "d" from the object with members a, b, c. -/
theorem json_remove_absent_witness :
    json_remove 3 (ptr.ref 0) (some "d") memory_bac =
      res.ok false { memory_bac with errno := errno_t.ENOENT } :=
  json_remove_absent 3 3 memory_bac 0 0 tree_bac "d" (by decide) (by decide) (by decide)
    (by decide)

/-- C9 (code bug): `json_copy` does not return the object it builds: it ends in
`return true;`, so the pointer it returns is the integer 1, which designates no object
(reading it as a `json_t` is a fault in every memory).  Shown on the empty object and on
the object with members a, b, c. -/
theorem json_copy_returns_true :
    (∀ n, json_copy (n + 1) (ptr.ref 0) memory_new =
      res.ok (ptr.int 1) ⟨[], [], [some ⟨none⟩, some ⟨none⟩], errno_t.E0⟩) ∧
    json_copy 4 (ptr.ref 0) memory_bac = res.ok (ptr.int 1) memory_bac_copy ∧
    (∀ m, object (ptr.int 1) m = res.undef fault.invalid) ∧
    (∀ depth m, json_tree depth (ptr.int 1) m = none) :=
  ⟨fun _ => rfl, by decide!, fun _ => rfl, fun _ _ => rfl⟩

/-- C10 (code bug): `jvalue_copy` of an Array value or of an Object value returns a value
of the same variant whose payload pointer is the integer 1, since `jarray_copy` and
`json_copy` both finish with `return true;`: it designates no array and no object.  Shown on the array
`[1, 2]` and on the empty object.  Boolean, Number and String values are copied with
their payload. -/
theorem jvalue_copy_container :
    (∀ n, jvalue_copy (n + 3) (some (jvalue_t.J_ARR (ptr.ref 0))) memory_arr =
      res.ok (some (jvalue_t.J_ARR (ptr.int 1))) memory_arr_copy) ∧
    (∀ n, jvalue_copy (n + 2) (some (jvalue_t.J_OBJ (ptr.ref 0))) memory_new =
      res.ok (some (jvalue_t.J_OBJ (ptr.int 1)))
        ⟨[], [], [some ⟨none⟩, some ⟨none⟩], errno_t.E0⟩) ∧
    (∀ m, array (ptr.int 1) m = res.undef fault.invalid) ∧
    (∀ m, object (ptr.int 1) m = res.undef fault.invalid) ∧
    (∀ n b m, jvalue_copy (n + 1) (some (jvalue_t.J_BOOL b)) m =
      res.ok (some (jvalue_t.J_BOOL b)) m) ∧
    (∀ n x m, jvalue_copy (n + 1) (some (jvalue_t.J_NUM x)) m =
      res.ok (some (jvalue_t.J_NUM x)) m) ∧
    (∀ n s m, jvalue_copy (n + 1) (some (jvalue_t.J_STR s)) m =
      res.ok (some (jvalue_t.J_STR s)) m) :=
  ⟨fun _ => rfl, fun _ => rfl, fun _ => rfl, fun _ => rfl, fun _ _ _ => rfl,
    fun _ _ _ => rfl, fun _ _ _ => rfl⟩

/-! ## Properties of the dynamic array and of comparison -/

/-- C11 (code bug): `jarray_pushf` does not keep the previous items.  After `jarray_new`,
`push_back(1)` and `push_back(2)`, `push_front(0)` returns true and leaves the items
0, 1, 1: the shift loop `for (i = 1; i < size; ++i) values[i] = values[i - 1]` runs
upwards and copies the first item into every later slot. -/
theorem jarray_pushf_shift :
    jarray_new memory_empty = res.ok (ptr.ref 0) (memory_array []) ∧
    (∀ n, jarray_pushb (n + 1) (ptr.ref 0) (num 1) (memory_array []) =
      res.ok true (memory_array [jvalue_t.J_NUM 1])) ∧
    (∀ n, jarray_pushb (n + 1) (ptr.ref 0) (num 2) (memory_array [jvalue_t.J_NUM 1]) =
      res.ok true (memory_array [jvalue_t.J_NUM 1, jvalue_t.J_NUM 2])) ∧
    (∀ n, jarray_pushf (n + 1) (ptr.ref 0) (num 0)
        (memory_array [jvalue_t.J_NUM 1, jvalue_t.J_NUM 2]) =
      res.ok true (memory_array [jvalue_t.J_NUM 0, jvalue_t.J_NUM 1, jvalue_t.J_NUM 1])) :=
  ⟨by decide, fun _ => rfl, fun _ => rfl, fun _ => rfl⟩

/-- C12 (code bug): `jarray_remove` loses the items behind the removed one.  On the array
holding 0, 1, `remove_at(0)` returns true and leaves one item, which is NULL, not 1: the
shift loop starts at the last slot, writes NULL there and then copies that NULL
downwards.  Removing the last item works, and an index that is out of bounds (also on
the empty array) gives false with `ENOENT` and changes nothing. -/
theorem jarray_remove_shift :
    jarray_remove (ptr.ref 0) 0 (memory_array [jvalue_t.J_NUM 0, jvalue_t.J_NUM 1]) =
      res.ok true ⟨[], [some ⟨1, 8, List.replicate 8 none⟩], [], errno_t.E0⟩ ∧
    jarray_remove (ptr.ref 0) 1 (memory_array [jvalue_t.J_NUM 0, jvalue_t.J_NUM 1]) =
      res.ok true (memory_array [jvalue_t.J_NUM 0]) ∧
    jarray_remove (ptr.ref 0) 2 (memory_array [jvalue_t.J_NUM 0, jvalue_t.J_NUM 1]) =
      res.ok false
        { memory_array [jvalue_t.J_NUM 0, jvalue_t.J_NUM 1] with errno := errno_t.ENOENT } ∧
    jarray_remove (ptr.ref 0) 0 (memory_array []) =
      res.ok false { memory_array [] with errno := errno_t.ENOENT } :=
  ⟨by decide, by decide, by decide, by decide⟩

/-- C13: on an array that holds `xs` followed by `x`, `jarray_popb` returns `x` and leaves
`xs`; on an array that holds `x` followed by `xs`, `jarray_popf` returns `x` and leaves
`xs`, in the same order; on an array without items both return NULL with `errno` set to
`ENOENT` and change nothing else.  The array is any live array whose buffer has room for
its `size` items; the rest of the memory stays as it was. -/
theorem jarray_pop (m : memory) (a : Nat) (A : jarray_t)
    (h : m.arrays[a]? = some (some A)) (hwf : A.size ≤ A.values.length) :
    (jarray_items A = [] →
      jarray_popb (ptr.ref a) m = res.ok none { m with errno := errno_t.ENOENT } ∧
      jarray_popf (ptr.ref a) m = res.ok none { m with errno := errno_t.ENOENT }) ∧
    (∀ x xs, jarray_items A = xs ++ [x] →
      ∃ B, jarray_popb (ptr.ref a) m = res.ok x (with_array m a B) ∧
        jarray_items B = xs ∧ B.capacity = A.capacity) ∧
    (∀ x xs, jarray_items A = x :: xs →
      ∃ B, jarray_popf (ptr.ref a) m = res.ok x (with_array m a B) ∧
        jarray_items B = xs ∧ B.capacity = A.capacity) := by
  have ha : a < m.arrays.length := lt_of_getElem?_some _ _ _ h
  have hlen := jarray_items_length A hwf
  have hm : array (ptr.ref a) m = res.ok A m := by simp [array, h]
  refine ⟨?_, ?_, ?_⟩
  · intro hnil
    have h0 : A.size = 0 := by rw [← hlen, hnil]; rfl
    constructor
    · simp [jarray_popb, bind_apply, hm, ite_apply_C, h0, error, pure_apply]
    · simp [jarray_popf, bind_apply, hm, ite_apply_C, h0, error, pure_apply]
  · intro x xs hx
    have hsize : A.size = xs.length + 1 := by rw [← hlen, hx]; simp
    have hlast : A.values[A.size - 1]? = some x := by
      rw [jarray_items_get A _ (by omega), hx, hsize]
      simp
    refine ⟨⟨A.size - 1, A.capacity, A.values.set (A.size - 1) none⟩, ?_, ?_, rfl⟩
    · rw [← with_array_self m a A h]
      simp only [jarray_popb, bind_apply, array_with _ _ _ ha, ite_apply_C,
        values_get_with _ _ _ _ ha, hlast, array_set_with _ _ _ _ ha,
        values_set_with _ _ _ _ _ ha, pure_apply, with_array_twice]
      have h1 : ¬ A.size = 0 := by omega
      have h2 : A.size - 1 < A.values.length := by omega
      simp [h1, h2, with_array_twice]
    · simp only [jarray_items, take_set_same]
      have : List.take (A.size - 1) A.values = List.take (A.size - 1) (jarray_items A) := by
        simp [jarray_items, List.take_take]
      rw [this, hx, hsize]
      simp
  · intro x xs hx
    have hsize : A.size = xs.length + 1 := by rw [← hlen, hx]; simp
    have hfirst : A.values[0]? = some x := by
      rw [jarray_items_get A _ (by omega), hx]
      simp
    obtain ⟨us, vs, hrun, hvs, hget⟩ :=
      popf_loop m a ha (A.size - 1) 0 ⟨A.size - 1, A.capacity, A.values⟩ (by simp; omega)
    refine ⟨⟨A.size - 1, A.capacity, vs⟩, ?_, ?_, rfl⟩
    · rw [← with_array_self m a A h]
      simp only [jarray_popf, bind_apply, array_with _ _ _ ha, ite_apply_C,
        values_get_with _ _ _ _ ha, hfirst, array_set_with _ _ _ _ ha, pure_apply,
        with_array_twice, List.range_eq_range']
      have h1 : ¬ A.size = 0 := by omega
      simp only [h1, if_false, hrun]
    · apply List.ext_getElem?
      intro j
      simp only [jarray_items, List.getElem?_take]
      by_cases hj : j < A.size - 1
      · have hj2 : j < xs.length := by omega
        rw [if_pos hj, hget j, if_pos (by omega)]
        show A.values[j + 1]? = xs[j]?
        rw [jarray_items_get A _ (by omega), hx]
        simp
      · rw [if_neg hj]
        have : xs.length ≤ j := by omega
        simp [List.getElem?_eq_none this]

/-- C13 witness: on the array holding 0, 1, 2, `jarray_popb` returns 2 and leaves 0, 1, and
`jarray_popf` returns 0 and leaves 1, 2. -/
theorem jarray_pop_witness :
    (∃ B, jarray_popb (ptr.ref 0)
        (memory_array [jvalue_t.J_NUM 0, jvalue_t.J_NUM 1, jvalue_t.J_NUM 2]) =
        res.ok (num 2)
          (with_array (memory_array [jvalue_t.J_NUM 0, jvalue_t.J_NUM 1, jvalue_t.J_NUM 2]) 0 B)
        ∧ jarray_items B = [num 0, num 1] ∧ B.capacity = 8) ∧
    (∃ B, jarray_popf (ptr.ref 0)
        (memory_array [jvalue_t.J_NUM 0, jvalue_t.J_NUM 1, jvalue_t.J_NUM 2]) =
        res.ok (num 0)
          (with_array (memory_array [jvalue_t.J_NUM 0, jvalue_t.J_NUM 1, jvalue_t.J_NUM 2]) 0 B)
        ∧ jarray_items B = [num 1, num 2] ∧ B.capacity = 8) :=
  have hpop := jarray_pop (memory_array [jvalue_t.J_NUM 0, jvalue_t.J_NUM 1, jvalue_t.J_NUM 2])
    0 (array_of [jvalue_t.J_NUM 0, jvalue_t.J_NUM 1, jvalue_t.J_NUM 2]) rfl (by decide)
  ⟨hpop.2.1 (num 2) [num 0, num 1] (by decide), hpop.2.2 (num 0) [num 1, num 2] (by decide)⟩

/-- C14 (code bug): eight values pushed with `jarray_pushb` onto a new array are held in
push order with capacity 8, but the ninth push does not return: the array is full, the
buffer is resized with `realloc(array->values, array->capacity *= 2)`, that is to 16
bytes (two slots), and the new item is then written to slot 8. -/
theorem jarray_pushb_ninth :
    jarray_new memory_empty = res.ok (ptr.ref 0) (memory_array []) ∧
    (do
      let _ ← for_each (fun x => jarray_pushb 1 (ptr.ref 0) (num x)) [1, 2, 3, 4, 5, 6, 7, 8]
      pure ()) (memory_array []) =
      res.ok () (memory_array [jvalue_t.J_NUM 1, jvalue_t.J_NUM 2, jvalue_t.J_NUM 3,
        jvalue_t.J_NUM 4, jvalue_t.J_NUM 5, jvalue_t.J_NUM 6, jvalue_t.J_NUM 7,
        jvalue_t.J_NUM 8]) ∧
    (∀ n, jarray_pushb (n + 1) (ptr.ref 0) (num 9)
        (memory_array [jvalue_t.J_NUM 1, jvalue_t.J_NUM 2, jvalue_t.J_NUM 3,
          jvalue_t.J_NUM 4, jvalue_t.J_NUM 5, jvalue_t.J_NUM 6, jvalue_t.J_NUM 7,
          jvalue_t.J_NUM 8]) = res.undef fault.invalid) ∧
    (∀ fuel, ∃ f, jarray_pushb fuel (ptr.ref 0) (num 9)
        (memory_array [jvalue_t.J_NUM 1, jvalue_t.J_NUM 2, jvalue_t.J_NUM 3,
          jvalue_t.J_NUM 4, jvalue_t.J_NUM 5, jvalue_t.J_NUM 6, jvalue_t.J_NUM 7,
          jvalue_t.J_NUM 8]) = res.undef f) :=
  ⟨by decide, by decide!, fun _ => rfl, fun fuel =>
    match fuel with
    | 0 => ⟨_, rfl⟩
    | _ + 1 => ⟨_, rfl⟩⟩

/-- C16: on an array whose items are the values `xs` and that holds two items of
distinct variants, `jarray_sort` returns false, sets `errno` to `EOPNOTSUPP` and leaves
the memory, and with it the items and their order, as it was. -/
theorem jarray_sort_mixed (m : memory) (a : Nat) (A : jarray_t) (xs : List jvalue_t)
    (h : m.arrays[a]? = some (some A)) (hitems : jarray_items A = xs.map some)
    (hlen : xs.length = A.size)
    (hmixed : ∃ x ∈ xs, ∃ y ∈ xs, x.type ≠ y.type) :
    jarray_sort (ptr.ref a) m = res.ok false { m with errno := errno_t.EOPNOTSUPP } := by
  have hget : ∀ i, i < A.size → A.values[i]? = (xs[i]?).map some := by
    intro i hi
    rw [jarray_items_get A i hi, hitems, List.getElem?_map]
  have hsome : ∀ i, i < A.size → ∃ x, A.values[i]? = some (some x) ∧ xs[i]? = some x := by
    intro i hi
    have hi2 : i < xs.length := by omega
    exact ⟨xs[i], by rw [hget i hi, List.getElem?_eq_getElem hi2]; rfl,
      List.getElem?_eq_getElem hi2⟩
  obtain ⟨x, hx, y, hy, hxy⟩ := hmixed
  obtain ⟨i, hi, hxi⟩ := List.getElem_of_mem hx
  obtain ⟨j, hj, hyj⟩ := List.getElem_of_mem hy
  have hpos : 0 < A.size := by omega
  obtain ⟨x0, hx0, _⟩ := hsome 0 hpos
  have hm : array (ptr.ref a) m = res.ok A m := by simp [array, h]
  have hex : ∃ k ∈ List.range' 1 (A.size - 1), ∃ z, A.values[k]? = some (some z) ∧
      z.type ≠ x0.type := by
    by_cases hx0x : x.type = x0.type
    · refine ⟨j, ?_, y, ?_, ?_⟩
      · have : j ≠ 0 := by
          rintro rfl
          obtain ⟨z, hz, hz2⟩ := hsome 0 hpos
          rw [List.getElem?_eq_getElem hj, hyj] at hz2
          rw [hz] at hx0
          simp only [Option.some.injEq] at hz2 hx0
          subst hz2 hx0
          exact hxy hx0x
        simp only [List.mem_range'_1]
        omega
      · obtain ⟨z, hz, hz2⟩ := hsome j (by omega)
        rw [List.getElem?_eq_getElem hj, hyj] at hz2
        simp only [Option.some.injEq] at hz2
        subst hz2
        exact hz
      · rw [← hx0x]
        exact fun hc => hxy hc.symm
    · refine ⟨i, ?_, x, ?_, hx0x⟩
      · have : i ≠ 0 := by
          rintro rfl
          obtain ⟨z, hz, hz2⟩ := hsome 0 hpos
          rw [List.getElem?_eq_getElem hi, hxi] at hz2
          rw [hz] at hx0
          simp only [Option.some.injEq] at hz2 hx0
          subst hz2 hx0
          exact hx0x rfl
        simp only [List.mem_range'_1]
        omega
      · obtain ⟨z, hz, hz2⟩ := hsome i (by omega)
        rw [List.getElem?_eq_getElem hi, hxi] at hz2
        simp only [Option.some.injEq] at hz2
        subst hz2
        exact hz
  have hall : ∀ k ∈ List.range' 1 (A.size - 1), ∃ z, A.values[k]? = some (some z) := by
    intro k hk
    simp only [List.mem_range'_1] at hk
    obtain ⟨z, hz, _⟩ := hsome k (by omega)
    exact ⟨z, hz⟩
  simp only [jarray_sort, bind_apply, values_get_at m a A 0 _ h hx0, hm,
    jarray_sort_check_mixed m a A x0.type h _ hall hex, ite_apply_C, if_true, error,
    pure_apply]

/-- C16 witness: sorting the array holding the numbers 2, 1 and the boolean true. -/
theorem jarray_sort_mixed_witness :
    jarray_sort (ptr.ref 0)
        (memory_array [jvalue_t.J_NUM 2, jvalue_t.J_NUM 1, jvalue_t.J_BOOL true]) =
      res.ok false
        { memory_array [jvalue_t.J_NUM 2, jvalue_t.J_NUM 1, jvalue_t.J_BOOL true] with
          errno := errno_t.EOPNOTSUPP } :=
  jarray_sort_mixed (memory_array [jvalue_t.J_NUM 2, jvalue_t.J_NUM 1, jvalue_t.J_BOOL true]) 0
    (array_of [jvalue_t.J_NUM 2, jvalue_t.J_NUM 1, jvalue_t.J_BOOL true])
    [jvalue_t.J_NUM 2, jvalue_t.J_NUM 1, jvalue_t.J_BOOL true] rfl (by decide) (by decide)
    ⟨jvalue_t.J_NUM 2, by decide, jvalue_t.J_BOOL true, by decide, by decide⟩

/-- C17 (code bug): `jarray_sort` does not sort.  On the empty array (here after one push
and one pop, which leaves NULL in slot 0) it reads `array->values[0]->type` through NULL.
On the array holding true, false it passes `jvalue_boolcmp` to `qsort`, which calls it on
pointers to slots of the buffer; the function reads a `jvalue_t` through them.  Only the
one-item array is handled: true is returned and nothing moves. -/
theorem jarray_sort_same_variant :
    jarray_popb (ptr.ref 0) (memory_array [jvalue_t.J_BOOL true]) =
      res.ok (some (jvalue_t.J_BOOL true)) (memory_array []) ∧
    jarray_sort (ptr.ref 0) (memory_array []) = res.undef fault.null ∧
    jarray_sort (ptr.ref 0) (memory_array [jvalue_t.J_BOOL true, jvalue_t.J_BOOL false]) =
      res.undef fault.invalid ∧
    jarray_sort (ptr.ref 0) (memory_array [jvalue_t.J_BOOL true]) =
      res.ok true (memory_array [jvalue_t.J_BOOL true]) :=
  ⟨by decide, by decide, by decide, by decide⟩

/-- C19 (code bug): `jarray_findl` counts upwards, `for (i = size - 1;; ++i)`.  On the
array holding 1, 2 with query 1 it compares slot 1, then goes on to slot 2, which is
behind the last item and holds no value, and reads its `type`: it does not return the
item at index 0.  On the empty array it starts at index `SIZE_MAX`, outside the buffer.
When the last item matches it is returned. -/
theorem jarray_findl_upwards :
    (∀ n, jarray_findl (n + 2) (ptr.ref 0) (num 1)
        (memory_array [jvalue_t.J_NUM 1, jvalue_t.J_NUM 2]) = res.undef fault.null) ∧
    (∀ fuel, ∃ f, jarray_findl fuel (ptr.ref 0) (num 1)
        (memory_array [jvalue_t.J_NUM 1, jvalue_t.J_NUM 2]) = res.undef f) ∧
    (∀ n, jarray_findl (n + 1) (ptr.ref 0) (num 1) (memory_array []) =
      res.undef fault.invalid) ∧
    (∀ n, jarray_findl (n + 1) (ptr.ref 0) (some (jvalue_t.J_BOOL true))
        (memory_array [jvalue_t.J_BOOL false, jvalue_t.J_BOOL true]) =
      res.ok (some (jvalue_t.J_BOOL true))
        (memory_array [jvalue_t.J_BOOL false, jvalue_t.J_BOOL true])) :=
  ⟨jarray_findl_one_two, fun fuel =>
    match fuel with
    | 0 => ⟨_, rfl⟩
    | 1 => ⟨fault.fuel, by decide!⟩
    | n + 2 => ⟨_, jarray_findl_one_two n⟩,
   fun _ => rfl, fun _ => rfl⟩

/-- C20 (code bug): `jvalue_cmp` on Numbers is 0 whenever the first is smaller than the
second: `jvalue_numcmp` tests `CMP < JFLT_EPSILON` on the signed difference, not on its
absolute value.  So 1 against 2 gives 0 and 0 against 100 gives 0, while 2 against 1
gives 1: the two orders do not have opposite signs. -/
theorem jvalue_cmp_numbers :
    jvalue_cmp (num 1) (num 2) memory_empty = res.ok 0 memory_empty ∧
    jvalue_cmp (num 2) (num 1) memory_empty = res.ok 1 memory_empty ∧
    jvalue_cmp (num 0) (num 100) memory_empty = res.ok 0 memory_empty ∧
    jvalue_cmp (num 100) (num 0) memory_empty = res.ok 100 memory_empty :=
  ⟨by decide!, by decide!, by decide!, by decide!⟩

/-! ## Properties of construction, serialization and rotation -/

/-- C21 (code bug): `jvalue_cmp` on two Objects compares what `json_size` returns, the
`height` field of the root, which is 0 for an object without members and 0 for an object
with one member.  After two calls of `json_new` and one insertion into the second object,
the empty object has no member and the other has one, and `jvalue_cmp` returns 0 for them
in either order: the empty object does not compare less. -/
theorem jvalue_cmp_objects :
    json_new memory_new = res.ok (ptr.ref 1) memory_new_two ∧
    json_add 2 (ptr.ref 1) (some "a") (some (jvalue_t.J_NUM 1)) memory_new_two =
      res.ok true memory_empty_one ∧
    (json_tree 2 (ptr.ref 0) memory_empty_one).map inorder = some [] ∧
    (json_tree 2 (ptr.ref 1) memory_empty_one).map inorder =
      some [("a", some (jvalue_t.J_NUM 1))] ∧
    jvalue_cmp (some (jvalue_t.J_OBJ (ptr.ref 0))) (some (jvalue_t.J_OBJ (ptr.ref 1)))
      memory_empty_one = res.ok 0 memory_empty_one ∧
    jvalue_cmp (some (jvalue_t.J_OBJ (ptr.ref 1))) (some (jvalue_t.J_OBJ (ptr.ref 0)))
      memory_empty_one = res.ok 0 memory_empty_one :=
  ⟨by decide, by decide, by decide, by decide, by decide, by decide⟩

/-- C22 (code bug): `jvalue_new` tests `type` with bit masks, but the tags are the numbers
0 to 4, so both masks are 7.  With `type` equal to `J_BOOL`, which is 0, the call fails
with EINVAL for every payload, and with `J_NUM` and the payload 0.0 it fails with EINVAL
as well.  No call returns a value: when the check passes, the function ends without a
`return` statement (Number 1, String "a").  The type 9, which is no tag, passes the
check; a String with a null payload and the type 8 fail with EINVAL. -/
theorem jvalue_new_check :
    (∀ value m, jvalue_new jtype_t.J_BOOL.code value m =
      res.ok jvalue_new_t.NULL { m with errno := errno_t.EINVAL }) ∧
    (∀ m, jvalue_new jtype_t.J_NUM.code (jany_t.number 0) m =
      res.ok jvalue_new_t.NULL { m with errno := errno_t.EINVAL }) ∧
    (∀ type value m v m1, jvalue_new type value m ≠ res.ok (jvalue_new_t.value v) m1) ∧
    (∀ m, jvalue_new jtype_t.J_NUM.code (jany_t.number 1) m = res.ok jvalue_new_t.nothing m) ∧
    (∀ m, jvalue_new jtype_t.J_STR.code (jany_t.string (some "a")) m =
      res.ok jvalue_new_t.nothing m) ∧
    (∀ m, jvalue_new 9 (jany_t.string (some "a")) m = res.ok jvalue_new_t.nothing m) ∧
    (∀ m, jvalue_new jtype_t.J_STR.code (jany_t.string none) m =
      res.ok jvalue_new_t.NULL { m with errno := errno_t.EINVAL }) ∧
    (∀ value m, jvalue_new 8 value m =
      res.ok jvalue_new_t.NULL { m with errno := errno_t.EINVAL }) := by
  refine ⟨fun _ _ => rfl, fun _ => rfl, ?_, ?_, fun _ => rfl, fun _ => rfl, fun _ => rfl,
    fun _ _ => rfl⟩
  · intro type value m v m1 h
    unfold jvalue_new at h
    cases hv : value.object_null with
    | none => simp only [hv] at h; split at h <;> [skip; split at h] <;> simp [error, crash, pure] at h
    | some b => cases b <;> simp only [hv] at h <;> split at h <;> [skip; split at h; skip; split at h] <;> simp [error, crash, pure] at h
  · intro m
    simp [jvalue_new, jtype_t.code, jany_t.object_null, pure]

/-- C23 (code bug): `jentry_print` prints the left subtree, then the right subtree, and
then the entry itself.  For the object with root "b", left child "a" and right child
"c", whose in-order traversal is a, b, c, `json_print` writes the members in the order
a, c, b.  (Nothing is written for the Number values: `jfloat_print` is empty.) -/
theorem json_print_order :
    (∀ n, json_print (n + 4) (ptr.ref 0) (some "") 0 memory_bac =
      res.ok (true, some "\x7b\n    \"a\": \n,\n    \"c\": \n,\n    \"b\": \n,\n\x7d\n")
        memory_bac) ∧
    (json_tree 3 (ptr.ref 0) memory_bac).map inorder =
      some [("a", some (jvalue_t.J_NUM 2)), ("b", some (jvalue_t.J_NUM 1)),
        ("c", some (jvalue_t.J_NUM 3))] :=
  ⟨fun _ => rfl, by decide⟩

/-- C24 (code bug): `jentry_print` writes a comma and a line break after every member, so
the text of the one-member object has a comma between its last member and the closing
brace.  `jarray_print` leaves the comma out after the last element: the text of the array
holding true, false has none before the closing bracket. -/
theorem json_print_trailing_comma :
    (∀ n, json_print (n + 3) (ptr.ref 0) (some "") 0 (memory_one "a" (jvalue_t.J_BOOL true)) =
      res.ok (true, some "\x7b\n    \"a\":     true,\n\x7d\n")
        (memory_one "a" (jvalue_t.J_BOOL true))) ∧
    (∀ n, jarray_print (n + 2) (ptr.ref 0) "" 0
        (memory_array [jvalue_t.J_BOOL true, jvalue_t.J_BOOL false]) =
      res.ok "[\n    true,\n    false\n]\n"
        (memory_array [jvalue_t.J_BOOL true, jvalue_t.J_BOOL false])) :=
  ⟨fun _ => rfl, fun _ => rfl⟩
/-- C25: in a tree of entries with consistent parent and child links (every child's
`parent` is the entry that holds it, the root has none, and no address occurs twice), let
`n` be a node with parent `p`.  If `n` is the right child of `p`, `ll_rotate(n)` returns,
and if `n` is the left child of `p`, `rr_rotate(n)` returns, and then (`rotation`): every
entry has the key and the value it had; the links are consistent again and the tree, read
from `n` if `p` was the root and from the old root otherwise, has the same nodes in the same
in-order, hence the same in-order sequence of (key, value) pairs and the same order of the
keys; `n` has the parent that `p` had and is that grandparent's child in the place of
`p`. -/
theorem rotate_keeps_inorder (m : memory) (root n p : Nat) (s : shape) (e_n e_p : jentry_t)
    (hs : linked m.entries (some root) none s = true) (hnd : (addresses s).Nodup)
    (hnin : n ∈ addresses s) (hn : m.entries[n]? = some (some e_n))
    (hp : e_n.parent = some p) (hpe : m.entries[p]? = some (some e_p)) :
    (e_p.rchild = some n → rotation ll_rotate m root n p s) ∧
    (e_p.lchild = some n → rotation rr_rotate m root n p s) :=
  ⟨ll_rotation m root n p s e_n e_p hs hnd hnin hn hp hpe,
    rr_rotation m root n p s e_n e_p hs hnd hnin hn hp hpe⟩

/-- C25 witness: in the tree a, b, c that leans to the right, "c" is the right child of "b",
whose parent is "a", and `ll_rotate` at "c" is a rotation in the sense above; in the tree
with root "b", "a" is the left child of the root, and so is `rr_rotate` at "a". -/
theorem rotate_keeps_inorder_witness :
    linked memory_abc.entries (some 0) none shape_abc = true ∧
    (addresses shape_abc).Nodup ∧
    rotation ll_rotate memory_abc 0 2 1 shape_abc ∧
    linked memory_bac.entries (some 0) none shape_bac = true ∧
    (addresses shape_bac).Nodup ∧
    rotation rr_rotate memory_bac 0 1 0 shape_bac :=
  ⟨by decide, by decide,
    (rotate_keeps_inorder memory_abc 0 2 1 shape_abc
      ⟨0, "c", some (jvalue_t.J_NUM 3), some 1, none, none⟩
      ⟨1, "b", some (jvalue_t.J_NUM 2), some 0, none, some 2⟩
      (by decide) (by decide) (by decide) rfl rfl rfl).1 rfl,
    by decide, by decide,
    (rotate_keeps_inorder memory_bac 0 1 0 shape_bac
      ⟨0, "a", some (jvalue_t.J_NUM 2), some 0, none, none⟩
      ⟨1, "b", some (jvalue_t.J_NUM 1), none, some 1, some 2⟩
      (by decide) (by decide) (by decide) rfl rfl rfl).2 rfl⟩

end Libjson
